import Mathlib

/-!
The korowa calculator: lexer, shunting-yard parser and stack evaluator

A shallow embedding of `include/korowa/Lexer.hpp`, `include/korowa/SyntaxError.hpp`
and `include/korowa/Converter.hpp`.

Conventions of the embedding.

* `std::string` is `String`; the input is scanned character by character
  (`expression.data`), each `Char` standing for one `char` of the C locale
  (`std::isdigit` is `Char.isDigit`, `std::isalpha` is `Char.isAlpha`,
  `std::isblank` is space or tab).
* `double` and everything the code calls on it (`<cmath>`, `my::parse<double>`,
  `my::join`, the constants of `my/extention/Math.hpp`, the generators) are not
  part of the sources; they are taken as a parameter, the structure `Arith`.
  Theorems are stated for every `Arith`.  `exactArith` is one computable
  instance (exact fractions) used to run the embedding on concrete inputs.
* Token vectors, queues and the output are lists in source order
  (`push_back t` is `· ++ [t]`); the operator stack and the value stack are
  lists whose head is `back()`.
* `tokens.back()` / `evalStack.back()` on an empty container is undefined
  behaviour in the source; the embedding reports it as `Outcome.emptyBack`,
  at the point where the element is read or written (binding the reference
  `last` alone is not counted).  A loop iteration that neither returns nor
  changes any state is reported as `Outcome.noProgress`.
* The vector `tokens` is reserved to `expression.size()` elements (one `Char`
  of the input stands for one `char`), and it grows by doubling, as in the
  usual implementations of `std::vector`; an iteration pushes at most two
  tokens, so the vector is reallocated at most once, by the `push_back` that
  finds it holding exactly `expression.size()` tokens.  The reference `last`,
  bound at the start of an iteration, names the token that was last at that
  time until such a `push_back`; after it, `last` refers to the released
  storage, whose tokens were moved to the new one.  One branch uses `last`
  after a `push_back`, an operator character met in `VariableState`: when that
  `push_back` reallocates, `last` is a dangling reference, what is read and
  written through it is outside the vector, and the identifier, which is in
  the new storage, keeps the kind it has.
* `SyntaxError& err` is an in-out parameter: functions take the value of `err`
  on entry and return its value on exit.
* In `Converter.hpp`, `size_t` and `unsigned long long` have 64 bits; a
  `std::bitset<128>` is the number its bits spell; the streams read and write
  numbers as the standard prescribes for the base set on them; an exception
  thrown by `to_ullong` is the result `none`, and so is a string written from
  a variable that was given no value.  The helpers of the `my` library
  (`toLower`, `trimStart`, `join`) are a parameter, the structure
  `Converter.Helpers`.
-/

namespace korowa

/-! ## Token model -/

/-- The enumeration `detail::Spec`, in declaration order. -/
inductive Spec where
  | Unknown
  | LeftPars | RightPars | Comma | LeftArrPars | RightArrPars
  | Number | Variable
  | Fact | Placeholder1 | Placeholder2
  | Add | Sub | Div | Mul | Mod | Pow | Equals
  | Sqrt | Cbrt | Factorial | Abs
  | Ln | Lg | Exp
  | Ceil | Floor | Round | Trunc
  | Sinc
  | Sin | Cos | Tan | Ctan | Sinh | Cosh | Tanh | Ctanh
  | Asin | Acos | Atan | Actan | Asinh | Acosh | Atanh | Actanh
  | Min | Max | Gcd | Lcm | Log
  | EConst | PiConst | TauConst | PhiConst
  | RndGen | PrimeGen | TimeGen | PlaceholderGen3
  deriving DecidableEq, Repr

/-- The integer value of an enumerator (its position in the declaration). -/
def Spec.ord (s : Spec) : Nat := s.toCtorIdx

/-- The struct `detail::Token`. -/
structure Token where
  spec : Spec := Spec.Unknown
  value : String
  deriving DecidableEq, Repr

abbrev TokenContainer := List Token
abbrev TokenQueue := List Token
abbrev TokenStack := List Token

def isOperator (s : Spec) : Bool := Spec.Fact.ord ≤ s.ord && s.ord ≤ Spec.Equals.ord
def isBinaryOp (s : Spec) : Bool := Spec.Add.ord ≤ s.ord && s.ord ≤ Spec.Equals.ord
def isUnaryOp (s : Spec) : Bool := Spec.Fact.ord ≤ s.ord && s.ord ≤ Spec.Placeholder2.ord

def isConstant (s : Spec) : Bool := Spec.EConst.ord ≤ s.ord && s.ord ≤ Spec.PhiConst.ord
def isGenerator (s : Spec) : Bool := Spec.RndGen.ord ≤ s.ord && s.ord ≤ Spec.PlaceholderGen3.ord

def isFunction (s : Spec) : Bool := Spec.Sqrt.ord ≤ s.ord && s.ord ≤ Spec.Log.ord
def isUnaryFn (s : Spec) : Bool := Spec.Sqrt.ord ≤ s.ord && s.ord ≤ Spec.Actanh.ord
def isBinaryFn (s : Spec) : Bool := Spec.Min.ord ≤ s.ord && s.ord ≤ Spec.Log.ord

def getPrecedence (s : Spec) : Nat :=
  match s with
  | .LeftPars | .RightPars => 0
  | .Add | .Sub => 1
  | .Div | .Mul | .Mod => 2
  | .Pow => 3
  | _ => 4

/-! ## The floating-point environment -/

/-- Everything the evaluator uses on `double` that is defined outside the
sources: the type itself, `quiet_NaN`, the arithmetic of the language, the
`<cmath>` / `<numeric>` functions, the constants and generators of the `my`
library, `my::parse<double>` and `my::join`. -/
structure Arith where
  D : Type
  nan : D
  one : D
  add : D → D → D
  sub : D → D → D
  mul : D → D → D
  div : D → D → D
  fmod : D → D → D
  pow : D → D → D
  fmin : D → D → D
  fmax : D → D → D
  /-- The call `std::gcd((int)a, (int)b)` converted back to `double`. -/
  gcd : D → D → D
  /-- The call `std::lcm((int)a, (int)b)` converted back to `double`. -/
  lcm : D → D → D
  sqrt : D → D
  cbrt : D → D
  fabs : D → D
  tgamma : D → D
  log : D → D
  log10 : D → D
  exp : D → D
  ceil : D → D
  floor : D → D
  round : D → D
  trunc : D → D
  sinc : D → D
  sin : D → D
  cos : D → D
  tan : D → D
  sinh : D → D
  cosh : D → D
  tanh : D → D
  asin : D → D
  acos : D → D
  atan : D → D
  asinh : D → D
  acosh : D → D
  atanh : D → D
  halfPi : D
  e : D
  pi : D
  tau : D
  phi : D
  /-- The value `my::random()` returns at the given draw. -/
  random : Nat → D
  /-- The value `std::time(nullptr)` returns at the given draw. -/
  time : Nat → D
  /-- The function `my::parse<double>`. -/
  parse : String → D
  /-- The function `my::join` on a vector of doubles. -/
  join : List D → String

def performUnaryFn (A : Arith) (op : Spec) (a : A.D) : A.D :=
  match op with
  | .Sqrt => A.sqrt a
  | .Cbrt => A.cbrt a
  | .Abs => A.fabs a
  | .Factorial | .Fact => A.tgamma (A.add a A.one)
  | .Ln => A.log a
  | .Lg => A.log10 a
  | .Exp => A.exp a
  | .Ceil => A.ceil a
  | .Floor => A.floor a
  | .Round => A.round a
  | .Trunc => A.trunc a
  | .Sinc => A.sinc a
  | .Sin => A.sin a
  | .Cos => A.cos a
  | .Tan => A.tan a
  | .Ctan => A.tan (A.sub A.halfPi a)
  | .Sinh => A.sinh a
  | .Cosh => A.cosh a
  | .Tanh => A.tanh a
  | .Ctanh => A.tanh (A.sub A.halfPi a)
  | .Asin => A.asin a
  | .Acos => A.acos a
  | .Atan => A.atan a
  | .Actan => A.atan (A.sub A.halfPi a)
  | .Asinh => A.asinh a
  | .Acosh => A.acosh a
  | .Atanh => A.atanh a
  | .Actanh => A.atanh (A.sub A.halfPi a)
  | _ => A.nan

def performBinaryFn (A : Arith) (op : Spec) (a b : A.D) : A.D :=
  match op with
  | .Add => A.add a b
  | .Sub => A.sub a b
  | .Mul => A.mul a b
  | .Div => A.div a b
  | .Mod => A.fmod a b
  | .Pow => A.pow a b
  | .Log => A.div (A.log b) (A.log a)
  | .Min => A.fmin a b
  | .Max => A.fmax a b
  | .Gcd => A.gcd a b
  | .Lcm => A.lcm a b
  | _ => A.nan

def getConstant (A : Arith) (op : Spec) : A.D :=
  match op with
  | .EConst => A.e
  | .PiConst => A.pi
  | .TauConst => A.tau
  | .PhiConst => A.phi
  | _ => A.nan

/-- The function `getGenerated`; `draw` identifies the call, so that two calls
may return different values. -/
def getGenerated (A : Arith) (op : Spec) (draw : Nat) : A.D :=
  match op with
  | .RndGen => A.random draw
  | .TimeGen => A.time draw
  | _ => A.nan

/-! ## Errors -/

/-- The enumeration `SyntaxError::Type`. -/
inductive ErrType where
  | Undefined | Evaluation | Converting | UnknownToken | Parsing
  deriving DecidableEq, Repr

/-- The class `SyntaxError`: `status` is `true` while no error is held. -/
structure SyntaxError where
  message : String := ""
  status : Bool := true
  mType : ErrType := ErrType.Undefined
  mParams : List String := []
  deriving DecidableEq, Repr

/-- The constructor `SyntaxError()`. -/
def SyntaxError.none : SyntaxError := {}

/-- The constructor `SyntaxError(message, type)`. -/
def SyntaxError.mk2 (message : String) (type : ErrType) : SyntaxError :=
  { message := message, status := false, mType := type }

/-- The constructor `SyntaxError(message, type, params)`. -/
def SyntaxError.mk3 (message : String) (type : ErrType) (params : List String) : SyntaxError :=
  { message := message, status := false, mType := type, mParams := params }

/-- The conversion `operator bool`: `true` when an error is held. -/
def SyntaxError.isError (err : SyntaxError) : Bool := !err.status

/-- How a run of source code ends: normally with a result, by reading
`back()` of an empty container, or in a loop that makes no progress. -/
inductive Outcome (α : Type) where
  | ok (a : α)
  | emptyBack
  | noProgress
  deriving DecidableEq, Repr

/-! ## Lexer -/

/-- The call `m.find(key)` on a `std::map` given by its initializer list (the
keys of each table are distinct): the mapped value, `none` for `m.end()`. -/
def find {α : Type} [DecidableEq α] (key : α) : List (α × Spec) → Option Spec
  | [] => Option.none
  | (k, v) :: rest => if key = k then some v else find key rest

/-- The initializer list of the table `ops` of `tokenize`. -/
def opsTable : List (Char × Spec) :=
  [('+', .Add), ('-', .Sub), ('/', .Div), ('*', .Mul), ('%', .Mod), ('!', .Fact), ('^', .Pow),
   ('(', .LeftPars), (')', .RightPars), ('\x7b', .LeftPars), ('\x7d', .RightPars),
   ('[', .LeftArrPars), (']', .RightArrPars), (',', .Comma), ('=', .Equals)]

/-- The initializer list of the table `funcs` of `tokenize`. -/
def funcsTable : List (String × Spec) :=
  [("fact", .Factorial),
   ("sqrt", .Sqrt), ("cbrt", .Cbrt),
   ("ln", .Ln), ("lg", .Lg), ("exp", .Exp),
   ("ceil", .Ceil), ("floor", .Floor), ("round", .Round), ("trunc", .Trunc),
   ("sinc", .Sinc),
   ("sin", .Sin), ("cos", .Cos), ("tan", .Tan), ("ctan", .Ctan),
   ("asin", .Asin), ("acos", .Acos), ("atan", .Atan), ("actan", .Actan),
   ("sinh", .Sinh), ("cosh", .Cosh), ("tanh", .Tanh), ("ctanh", .Ctanh),
   ("asinh", .Asinh), ("acosh", .Acosh), ("atanh", .Atanh), ("actanh", .Actanh),
   ("min", .Min), ("max", .Max), ("gcd", .Gcd), ("lcm", .Lcm), ("log", .Log),
   ("abs", .Abs)]

/-- The initializer list of the table `consts` of `tokenize`. -/
def constsTable : List (String × Spec) :=
  [("pi", .PiConst), ("tau", .TauConst), ("e", .EConst), ("phi", .PhiConst)]

/-- The initializer list of the table `gens` of `tokenize`. -/
def gensTable : List (String × Spec) :=
  [("rnd", .RndGen), ("time", .TimeGen)]

/-- The lookup `ops.find(ch)`. -/
def ops (ch : Char) : Option Spec := find ch opsTable

/-- The lookup `funcs.find(name)`. -/
def funcs (name : String) : Option Spec := find name funcsTable

/-- The lookup `consts.find(name)`. -/
def consts (name : String) : Option Spec := find name constsTable

/-- The lookup `gens.find(name)`. -/
def gens (name : String) : Option Spec := find name gensTable

/-- The enumeration `State` of `tokenize`. -/
inductive State where
  | OperatorState | UnaryOperatorState | NumberState | FractionState
  | VariableState | FunctionState | BeginState | ReadState
  deriving DecidableEq, Repr

/-- The test `std::isblank` in the C locale. -/
def isblank (ch : Char) : Bool := ch = ' ' || ch = '\t'

/-- The local `conv = std::string(1, ch)`. -/
def conv (ch : Char) : String := String.singleton ch

/-- The statement `last.value.push_back(ch)`, where `last` is `tokens.back()`. -/
def pushToLast (tokens : TokenContainer) (ch : Char) : Outcome TokenContainer :=
  match tokens.getLast? with
  | Option.none => .emptyBack
  | some last => .ok (tokens.dropLast ++ [{ last with value := last.value.push ch }])

/-- The branch shared by the states that start a token on a digit, a dot or a
letter after looking the letter up in `consts` and `gens` (`BeginState`,
`ReadState`). -/
def startIdentifier (tokens : TokenContainer) (ch : Char) : TokenContainer :=
  match consts (conv ch) with
  | some s => tokens ++ [⟨s, conv ch⟩]
  | Option.none =>
    match gens (conv ch) with
    | some s => tokens ++ [⟨s, conv ch⟩]
    | Option.none => tokens ++ [⟨.Variable, conv ch⟩]

/-- One iteration of the `for (const auto& ch : expression)` loop of `tokenize`;
`capacity` is the size the vector was reserved to, `expression.size()`. -/
def step (capacity : Nat) (state : State) (tokens : TokenContainer) (ch : Char) :
    Outcome (State × TokenContainer) :=
  match state with
  | .BeginState =>
    if ch.isDigit then .ok (.NumberState, tokens ++ [⟨.Number, conv ch⟩])
    else if ch = '.' then .ok (.FractionState, tokens ++ [⟨.Number, conv ch⟩])
    else if ch.isAlpha then .ok (.VariableState, startIdentifier tokens ch)
    else
      match ops ch with
      | some op =>
        if op = .Sub then .ok (.OperatorState, tokens ++ [⟨.Number, "-1"⟩, ⟨.Mul, "*"⟩])
        else if op = .Add then .ok (.OperatorState, tokens)
        else .ok (.OperatorState, tokens ++ [⟨op, conv ch⟩])
      | Option.none =>
        if !isblank ch then .ok (.BeginState, tokens ++ [⟨.Unknown, conv ch⟩])
        else .ok (.BeginState, tokens)
  | .ReadState =>
    if ch.isDigit then .ok (.NumberState, tokens ++ [⟨.Number, conv ch⟩])
    else if ch = '.' then .ok (.FractionState, tokens ++ [⟨.Number, conv ch⟩])
    else if ch.isAlpha then .ok (.VariableState, startIdentifier tokens ch)
    else
      match ops ch with
      | some op => .ok (.OperatorState, tokens ++ [⟨op, conv ch⟩])
      | Option.none =>
        if !isblank ch then .ok (.ReadState, tokens ++ [⟨.Unknown, conv ch⟩])
        else .ok (.ReadState, tokens)
  | .NumberState =>
    if ch.isDigit then
      match pushToLast tokens ch with
      | .ok ts => .ok (.NumberState, ts)
      | .emptyBack => .emptyBack
      | .noProgress => .noProgress
    else if ch = '.' then
      match pushToLast tokens ch with
      | .ok ts => .ok (.FractionState, ts)
      | .emptyBack => .emptyBack
      | .noProgress => .noProgress
    else if ch.isAlpha then
      .ok (.VariableState, tokens ++ [⟨.Mul, "*"⟩, ⟨.Variable, conv ch⟩])
    else
      match ops ch with
      | some op =>
        if op = .LeftPars then .ok (.OperatorState, tokens ++ [⟨.Mul, "*"⟩, ⟨op, conv ch⟩])
        else .ok (.OperatorState, tokens ++ [⟨op, conv ch⟩])
      | Option.none =>
        if ch = '\'' then .ok (.NumberState, tokens)
        else if isblank ch then .ok (.ReadState, tokens)
        else .ok (.NumberState, tokens ++ [⟨.Unknown, conv ch⟩])
  | .FractionState =>
    if ch.isDigit then
      match pushToLast tokens ch with
      | .ok ts => .ok (.FractionState, ts)
      | .emptyBack => .emptyBack
      | .noProgress => .noProgress
    else if ch.isAlpha then
      .ok (.VariableState, tokens ++ [⟨.Mul, "*"⟩, ⟨.Variable, conv ch⟩])
    else
      match ops ch with
      | some op =>
        if op = .LeftPars then .ok (.OperatorState, tokens ++ [⟨.Mul, "*"⟩, ⟨op, conv ch⟩])
        else .ok (.OperatorState, tokens ++ [⟨op, conv ch⟩])
      | Option.none =>
        if isblank ch then .ok (.ReadState, tokens)
        else .ok (.FractionState, tokens ++ [⟨.Unknown, conv ch⟩])
  | .VariableState =>
    if ch.isDigit then
      match pushToLast tokens ch with
      | .ok ts => .ok (.VariableState, ts)
      | .emptyBack => .emptyBack
      | .noProgress => .noProgress
    else if ch.isAlpha then
      match tokens.getLast? with
      | Option.none => .emptyBack
      | some last =>
        let value := last.value.push ch
        match funcs value with
        | some s => .ok (.FunctionState, tokens.dropLast ++ [⟨s, value⟩])
        | Option.none =>
          match consts value with
          | some s => .ok (.VariableState, tokens.dropLast ++ [⟨s, value⟩])
          | Option.none =>
            match gens value with
            | some s => .ok (.VariableState, tokens.dropLast ++ [⟨s, value⟩])
            | Option.none => .ok (.VariableState, tokens.dropLast ++ [⟨.Variable, value⟩])
    else
      match ops ch with
      | some op =>
        -- the new token is pushed first and `last` is used after the push
        match tokens.getLast? with
        | Option.none => .emptyBack
        | some last =>
          if tokens.length = capacity then
            -- the push reallocates the full vector: `last` dangles and the
            -- identifier, now in the new storage, is not retagged
            .ok (.OperatorState, tokens ++ [⟨op, conv ch⟩])
          else
            -- `last` still names the identifier
            match consts last.value with
            | some s =>
              .ok (.OperatorState, tokens.dropLast ++ [⟨s, last.value⟩, ⟨op, conv ch⟩])
            | Option.none =>
              match gens last.value with
              | some s =>
                .ok (.OperatorState, tokens.dropLast ++ [⟨s, last.value⟩, ⟨op, conv ch⟩])
              | Option.none => .ok (.OperatorState, tokens ++ [⟨op, conv ch⟩])
      | Option.none =>
        if isblank ch then .ok (.ReadState, tokens)
        else .ok (.VariableState, tokens ++ [⟨.Unknown, conv ch⟩])
  | .OperatorState =>
    if ch.isDigit then .ok (.NumberState, tokens ++ [⟨.Number, conv ch⟩])
    else if ch = '.' then .ok (.FractionState, tokens ++ [⟨.Number, conv ch⟩])
    else if ch.isAlpha then .ok (.VariableState, tokens ++ [⟨.Variable, conv ch⟩])
    else
      match ops ch with
      | some curr =>
        -- `prev` (`last.spec`) is read only when the left operand of one of
        -- the four conjunctions holds
        if curr = .LeftPars ∨ curr = .Mul ∨ curr = .Sub ∨ curr = .Add then
          match tokens.getLast? with
          | Option.none => .emptyBack
          | some last =>
            let prev := last.spec
            if curr = .LeftPars ∧ prev = .RightPars then
              .ok (.OperatorState, tokens ++ [⟨.Mul, "*"⟩])
            else if curr = .Mul ∧ prev = .Mul then
              .ok (.OperatorState, tokens.dropLast ++ [⟨.Pow, last.value.push '*'⟩])
            else if curr = .Sub ∧ prev ≠ .RightPars ∧ ¬ isUnaryOp prev then
              .ok (.UnaryOperatorState, tokens ++ [⟨.Number, "-1"⟩, ⟨.Mul, "*"⟩])
            else if curr = .Add ∧ prev ≠ .RightPars ∧ ¬ isUnaryOp prev then
              .ok (.UnaryOperatorState, tokens)
            else .ok (.OperatorState, tokens ++ [⟨curr, conv ch⟩])
        else .ok (.OperatorState, tokens ++ [⟨curr, conv ch⟩])
      | Option.none =>
        if !isblank ch then .ok (.OperatorState, tokens ++ [⟨.Unknown, conv ch⟩])
        else .ok (.OperatorState, tokens)
  | .UnaryOperatorState =>
    if ch.isDigit then .ok (.NumberState, tokens ++ [⟨.Number, conv ch⟩])
    else if ch = '.' then .ok (.FractionState, tokens ++ [⟨.Number, conv ch⟩])
    else if ch.isAlpha then .ok (.VariableState, tokens ++ [⟨.Variable, conv ch⟩])
    else
      match ops ch with
      | some op =>
        if op = .LeftPars then .ok (.OperatorState, tokens ++ [⟨op, conv ch⟩])
        else .ok (.UnaryOperatorState, tokens ++ [⟨op, conv ch⟩])
      | Option.none =>
        if isblank ch then .ok (.ReadState, tokens)
        else .ok (.UnaryOperatorState, tokens ++ [⟨.Unknown, conv ch⟩])
  | .FunctionState =>
    if ch.isDigit ∨ ch.isAlpha then
      match tokens.getLast? with
      | Option.none => .emptyBack
      | some last =>
        let value := last.value.push ch
        match funcs value with
        | some s => .ok (.FunctionState, tokens.dropLast ++ [⟨s, value⟩])
        | Option.none => .ok (.VariableState, tokens.dropLast ++ [⟨.Variable, value⟩])
    else
      match ops ch with
      | some op => .ok (.OperatorState, tokens ++ [⟨op, conv ch⟩])
      | Option.none =>
        if !isblank ch then .ok (.FunctionState, tokens ++ [⟨.Unknown, conv ch⟩])
        else .ok (.FunctionState, tokens)

/-- The `for` loop of `tokenize` over the remaining characters. -/
def run (capacity : Nat) (state : State) (tokens : TokenContainer) :
    List Char → Outcome (State × TokenContainer)
  | [] => .ok (state, tokens)
  | ch :: rest =>
    match step capacity state tokens ch with
    | .ok (state', tokens') => run capacity state' tokens' rest
    | .emptyBack => .emptyBack
    | .noProgress => .noProgress

/-- The function `tokenize`; the statement `tokens.reserve(expression.size())`
gives the capacity. -/
def tokenize (expression : String) : Outcome TokenContainer :=
  match run expression.data.length .BeginState [] expression.data with
  | .ok (_, tokens) => .ok tokens
  | .emptyBack => .emptyBack
  | .noProgress => .noProgress

/-! ## Parser (shunting-yard) -/

/-- The pre-check `std::find_if(... el.spec == Unknown)` together with
`std::distance(tokens.begin(), it)`: the first `Unknown` token and its index,
counted from `index`. -/
def findUnknown : List Token → Nat → Option (Token × Nat)
  | [], _ => Option.none
  | t :: rest, index => if t.spec = .Unknown then some (t, index) else findUnknown rest (index + 1)

/-- The loop `while (not operators.empty() and getPrecedence(operators.back().spec) >=
getPrecedence(token.spec))` of the binary-operator branch. -/
def popWhilePrec (prec : Nat) : TokenStack → TokenQueue → TokenStack × TokenQueue
  | [], output => ([], output)
  | top :: operators, output =>
    if getPrecedence top.spec ≥ prec then popWhilePrec prec operators (output ++ [top])
    else (top :: operators, output)

/-- The empty-stack test followed by the loop `while (operators.back().spec != stop)`
of the `Comma`, `RightPars` and `RightArrPars` branches.  The first component is
`none` when the stack empties before `stop` shows up (the error exits), and the
stack with `stop` on top otherwise; the second is the output so far. -/
def popUntil (stop : Spec) : TokenStack → TokenQueue → Option TokenStack × TokenQueue
  | [], output => (Option.none, output)
  | top :: operators, output =>
    if top.spec ≠ stop then popUntil stop operators (output ++ [top])
    else (some (top :: operators), output)

/-- The statements after the closing-bracket loop: `operators.pop_back()` and the
function on top, if any, moved to the output. -/
def closeBracket (operators : TokenStack) (output : TokenQueue) : TokenStack × TokenQueue :=
  match operators.tail with
  | [] => ([], output)
  | top :: rest => if isFunction top.spec then (rest, output ++ [top]) else (top :: rest, output)

def mismatchedParenthesis (index : Nat) : SyntaxError :=
  SyntaxError.mk2 ("Mismatched parenthesis (:" ++ toString index ++ ")") ErrType.Parsing

def mismatchedSeparators (index : Nat) : SyntaxError :=
  SyntaxError.mk2
    ("Mismatched parenthesis or function argument separators (,) (:" ++ toString index ++ ")")
    ErrType.Parsing

/-- The final loop `while (operators.size())` of `parse`. -/
def parseFlush (index : Nat) : TokenStack → TokenQueue → SyntaxError → TokenQueue × SyntaxError
  | [], output, err => (output, err)
  | top :: operators, output, err =>
    if top.spec = .LeftPars then (output, mismatchedParenthesis index)
    else parseFlush index operators (output ++ [top]) err

/-- The loop `for (const auto& token : tokens)` of `parse`, followed by the final loop. -/
def parseLoop : List Token → Nat → TokenQueue → TokenStack → SyntaxError →
    TokenQueue × SyntaxError
  | [], index, output, operators, err => parseFlush index operators output err
  | token :: rest, index, output, operators, err =>
    if token.spec = .Number ∨ token.spec = .Variable ∨
        isConstant token.spec ∨ isGenerator token.spec then
      parseLoop rest (index + 1) (output ++ [token]) operators err
    else if isUnaryOp token.spec then
      parseLoop rest (index + 1) (output ++ [token]) operators err
    else if isFunction token.spec ∨ token.spec = .LeftPars then
      parseLoop rest (index + 1) output (token :: operators) err
    else if isBinaryOp token.spec then
      match popWhilePrec (getPrecedence token.spec) operators output with
      | (operators', output') => parseLoop rest (index + 1) output' (token :: operators') err
    else if token.spec = .Comma then
      match popUntil .LeftPars operators output with
      | (Option.none, output') => (output', mismatchedSeparators index)
      | (some operators', output') => parseLoop rest (index + 1) output' operators' err
    else if token.spec = .RightPars then
      match popUntil .LeftPars operators output with
      | (Option.none, output') => (output', mismatchedParenthesis index)
      | (some operators', output') =>
        match closeBracket operators' output' with
        | (operators'', output'') => parseLoop rest (index + 1) output'' operators'' err
    else if token.spec = .RightArrPars then
      match popUntil .LeftArrPars operators output with
      | (Option.none, output') => (output', mismatchedParenthesis index)
      | (some operators', output') =>
        match closeBracket operators' output' with
        | (operators'', output'') => parseLoop rest (index + 1) output'' operators'' err
    else parseLoop rest (index + 1) output operators err

/-- The function `parse`: the postfix queue and the value of `err` on return. -/
def parse (tokens : TokenContainer) (err : SyntaxError) : TokenQueue × SyntaxError :=
  match findUnknown tokens 0 with
  | some (t, index) =>
    ([], SyntaxError.mk3
      ("Unknown symbol: [" ++ t.value ++ "] (:" ++ toString index ++ ")")
      ErrType.UnknownToken [t.value])
  | Option.none => parseLoop tokens 0 [] [] err

/-! ## Evaluators -/

/-- The variable table `std::map<std::string, double>`, seen through `find`. -/
abbrev VarTable (A : Arith) := String → Option A.D

/-- The statement `variables[name] = value`. -/
def VarTable.assign {A : Arith} (vars : VarTable A) (name : String) (value : A.D) :
    VarTable A :=
  fun key => if key = name then some value else vars key

/-- What `eval(input, err, variables)` leaves behind: the returned `double`, and
the values of `err` and `variables` on return. -/
structure EvalResult (A : Arith) where
  value : A.D
  err : SyntaxError
  vars : VarTable A

def evaluationError : SyntaxError := SyntaxError.mk2 "Evaluation error" ErrType.Evaluation

def redundantValues (A : Arith) (evalStack : List A.D) : SyntaxError :=
  SyntaxError.mk2 ("Redundant values: " ++ A.join evalStack.reverse) ErrType.Evaluation

/-- The loop `while (not tokenQueue.empty())` of the evaluator with variables and
the statements after it.  `evalStack` has its `back()` first; `target` is the
local `variable` and `vars` the parameter `variables`. -/
def evalLoopVars (A : Arith) (target : String) :
    TokenQueue → List A.D → SyntaxError → VarTable A → Outcome (EvalResult A)
  | [], evalStack, err, vars =>
    if evalStack.length > 1 then .ok ⟨A.nan, redundantValues A evalStack, vars⟩
    else
      match evalStack with
      | [] => .emptyBack
      | top :: _ => .ok ⟨top, err, vars⟩
  | token :: rest, evalStack, err, vars =>
    let currSpec := token.spec
    let currVal := token.value
    if currSpec = .Equals then
      if evalStack.length > 1 then .ok ⟨A.nan, redundantValues A evalStack, vars⟩
      else if target = "" then
        .ok ⟨A.nan,
          SyntaxError.mk2 "Inapropriate use of = operator: trying to assign to \"\""
            ErrType.Evaluation,
          vars⟩
      else
        match evalStack with
        | [] => .emptyBack
        | top :: _ => .ok ⟨top, err, vars.assign target top⟩
    else if isBinaryFn currSpec ∨ isBinaryOp currSpec then
      match evalStack with
      | [] => .ok ⟨A.nan, evaluationError, vars⟩
      | b :: evalStack' =>
        match evalStack' with
        | [] => .ok ⟨A.nan, evaluationError, vars⟩
        | a :: evalStack'' =>
          evalLoopVars A target rest (performBinaryFn A currSpec a b :: evalStack'') err
            vars
    else if isUnaryFn currSpec ∨ isUnaryOp currSpec then
      match evalStack with
      | [] => .ok ⟨A.nan, evaluationError, vars⟩
      | a :: evalStack' =>
        evalLoopVars A target rest (performUnaryFn A currSpec a :: evalStack') err vars
    else if isConstant currSpec then
      evalLoopVars A target rest (getConstant A currSpec :: evalStack) err vars
    else if isGenerator currSpec then
      evalLoopVars A target rest (getGenerated A currSpec rest.length :: evalStack) err
        vars
    else if currSpec = .Number then
      evalLoopVars A target rest (A.parse currVal :: evalStack) err vars
    else if currSpec = .Variable then
      match vars currVal with
      | some value => evalLoopVars A target rest (value :: evalStack) err vars
      | Option.none =>
        .ok ⟨A.nan,
          SyntaxError.mk3 ("Unknown variable: [" ++ currVal ++ "]") ErrType.UnknownToken
            [currVal],
          vars⟩
    else .noProgress

/-- The statements of `eval(input, err, variables)` after `parse`. -/
def evalQueueVars (A : Arith) (tokenQueue : TokenQueue) (err : SyntaxError)
    (vars : VarTable A) : Outcome (EvalResult A) :=
  if err.isError then .ok ⟨A.nan, err, vars⟩
  else
    match tokenQueue with
    | [] => .ok ⟨A.nan, SyntaxError.mk2 "Empty expression" ErrType.Evaluation, vars⟩
    | front :: rest =>
      if front.spec = .Variable ∧ (front :: rest).getLast?.map Token.spec = some .Equals then
        evalLoopVars A front.value rest [] err vars
      else evalLoopVars A "" (front :: rest) [] err vars

/-- The function `eval(const std::string&, SyntaxError&, std::map<std::string, double>&)`. -/
def evalVars (A : Arith) (input : String) (err : SyntaxError) (vars : VarTable A) :
    Outcome (EvalResult A) :=
  match tokenize input with
  | .ok tokens =>
    match parse tokens err with
    | (tokenQueue, err') => evalQueueVars A tokenQueue err' vars
  | .emptyBack => .emptyBack
  | .noProgress => .noProgress

/-- The loop of the evaluator without variables and the statements after it; the
result is the returned `double` and the value of `err` on return. -/
def evalLoopPlain (A : Arith) :
    TokenQueue → List A.D → SyntaxError → Outcome (A.D × SyntaxError)
  | [], evalStack, err =>
    if evalStack.length > 1 then .ok (A.nan, redundantValues A evalStack)
    else
      match evalStack with
      | [] => .emptyBack
      | top :: _ => .ok (top, err)
  | token :: rest, evalStack, err =>
    let currSpec := token.spec
    let currVal := token.value
    if isBinaryFn currSpec ∨ isBinaryOp currSpec then
      match evalStack with
      | [] => .ok (A.nan, evaluationError)
      | b :: evalStack' =>
        match evalStack' with
        | [] => .ok (A.nan, evaluationError)
        | a :: evalStack'' =>
          evalLoopPlain A rest (performBinaryFn A currSpec a b :: evalStack'') err
    else if isUnaryFn currSpec ∨ isUnaryOp currSpec then
      match evalStack with
      | [] => .ok (A.nan, evaluationError)
      | a :: evalStack' => evalLoopPlain A rest (performUnaryFn A currSpec a :: evalStack') err
    else if isConstant currSpec then
      evalLoopPlain A rest (getConstant A currSpec :: evalStack) err
    else if isGenerator currSpec then
      evalLoopPlain A rest (getGenerated A currSpec rest.length :: evalStack) err
    else if currSpec = .Number then
      evalLoopPlain A rest (A.parse currVal :: evalStack) err
    else if currSpec = .Variable then
      .ok (A.nan,
        SyntaxError.mk3 ("Unknown variable (variables may be disabled): [" ++ currVal ++ "]")
          ErrType.UnknownToken [currVal])
    else .noProgress

/-- The function `eval(const std::string&, SyntaxError&)`. -/
def evalPlain (A : Arith) (input : String) (err : SyntaxError) : Outcome (A.D × SyntaxError) :=
  match tokenize input with
  | .ok tokens =>
    match parse tokens err with
    | (tokenQueue, err') =>
      if err'.isError then .ok (A.nan, err')
      else
        match tokenQueue with
        | [] => .ok (A.nan, SyntaxError.mk2 "Empty expression" ErrType.Evaluation)
        | front :: rest => evalLoopPlain A (front :: rest) [] err'
  | .emptyBack => .emptyBack
  | .noProgress => .noProgress

/-- The loop of the silent evaluator and the statements after it. -/
def evalLoopSilent (A : Arith) : TokenQueue → List A.D → Outcome A.D
  | [], evalStack =>
    if evalStack.length > 1 then .ok A.nan
    else
      match evalStack with
      | [] => .emptyBack
      | top :: _ => .ok top
  | token :: rest, evalStack =>
    let currSpec := token.spec
    let currVal := token.value
    if currSpec = .Equals then .ok A.nan
    else if isBinaryFn currSpec ∨ isBinaryOp currSpec then
      match evalStack with
      | [] => .ok A.nan
      | b :: evalStack' =>
        match evalStack' with
        | [] => .ok A.nan
        | a :: evalStack'' =>
          evalLoopSilent A rest (performBinaryFn A currSpec a b :: evalStack'')
    else if isUnaryFn currSpec ∨ isUnaryOp currSpec then
      match evalStack with
      | [] => .ok A.nan
      | a :: evalStack' => evalLoopSilent A rest (performUnaryFn A currSpec a :: evalStack')
    else if isConstant currSpec then
      evalLoopSilent A rest (getConstant A currSpec :: evalStack)
    else if isGenerator currSpec then
      evalLoopSilent A rest (getGenerated A currSpec rest.length :: evalStack)
    else if currSpec = .Number then
      evalLoopSilent A rest (A.parse currVal :: evalStack)
    else if currSpec = .Variable then .ok A.nan
    else .noProgress

/-- The function `eval(const std::string&)`. -/
def evalSilent (A : Arith) (input : String) : Outcome A.D :=
  match tokenize input with
  | .ok tokens =>
    match parse tokens SyntaxError.none with
    | (tokenQueue, err) =>
      if err.isError then .ok A.nan
      else
        match tokenQueue with
        | [] => .ok A.nan
        | front :: rest => evalLoopSilent A (front :: rest) []
  | .emptyBack => .emptyBack
  | .noProgress => .noProgress

/-! ## A computable instance of the floating-point environment -/

/-- An exact fraction `num / den`, kept in lowest terms with `den` positive. -/
structure Frac where
  num : Int
  den : Nat
  deriving DecidableEq, Repr

/-- The fraction `n / d` in lowest terms (`d` positive). -/
def Frac.reduce (n : Int) (d : Nat) : Frac :=
  ⟨n / (Nat.gcd n.natAbs d : Nat), d / Nat.gcd n.natAbs d⟩

def Frac.ofInt (n : Int) : Frac := ⟨n, 1⟩

def Frac.add (a b : Frac) : Frac := Frac.reduce (a.num * b.den + b.num * a.den) (a.den * b.den)
def Frac.neg (a : Frac) : Frac := ⟨-a.num, a.den⟩
def Frac.sub (a b : Frac) : Frac := Frac.add a (Frac.neg b)
def Frac.mul (a b : Frac) : Frac := Frac.reduce (a.num * b.num) (a.den * b.den)

/-- The inverse of a fraction other than zero. -/
def Frac.inv (a : Frac) : Frac :=
  if 0 ≤ a.num then ⟨a.den, a.num.natAbs⟩ else ⟨-(a.den : Int), a.num.natAbs⟩

def Frac.powNat (a : Frac) : Nat → Frac
  | 0 => Frac.ofInt 1
  | n + 1 => Frac.mul (Frac.powNat a n) a

def Frac.le (a b : Frac) : Bool := a.num * b.den ≤ b.num * a.den

def factorialNat : Nat → Nat
  | 0 => 1
  | n + 1 => (n + 1) * factorialNat n

/-- Lifts an exact binary operation; an absent operand gives an absent result. -/
def lift2 (f : Frac → Frac → Frac) (a b : Option Frac) : Option Frac :=
  match a, b with
  | some x, some y => some (f x y)
  | _, _ => Option.none

/-- Lifts an exact unary operation. -/
def lift1 (f : Frac → Frac) (a : Option Frac) : Option Frac :=
  match a with
  | some x => some (f x)
  | Option.none => Option.none

/-- Exact quotient, absent when the divisor is zero. -/
def exactDiv (a b : Option Frac) : Option Frac :=
  match a, b with
  | some x, some y => if y.num = 0 then Option.none else some (Frac.mul x (Frac.inv y))
  | _, _ => Option.none

/-- Exact power, present for natural exponents only; as for `std::pow`, the
exponent zero gives 1 for every base, NaN included. -/
def exactPow (a b : Option Frac) : Option Frac :=
  match a, b with
  | some x, some y =>
    if y.den = 1 ∧ 0 ≤ y.num then some (Frac.powNat x y.num.toNat) else Option.none
  | Option.none, some y => if y.num = 0 then some (Frac.ofInt 1) else Option.none
  | _, Option.none => Option.none

/-- The gamma function at positive integers, absent elsewhere. -/
def exactGamma (a : Option Frac) : Option Frac :=
  match a with
  | some x =>
    if x.den = 1 ∧ 0 < x.num then some (Frac.ofInt (factorialNat (x.num.toNat - 1)))
    else Option.none
  | Option.none => Option.none

/-- The value of a string of decimal digits. -/
def digitsValue (cs : List Char) : Nat :=
  cs.foldl (fun acc c => 10 * acc + (c.toNat - 48)) 0

/-- An unsigned decimal literal read exactly. -/
def parseUnsigned (cs : List Char) : Option Frac :=
  match cs.span Char.isDigit with
  | (ip, []) => if ip = [] then Option.none else some (Frac.ofInt (digitsValue ip))
  | (ip, '.' :: fp) =>
    if fp.all Char.isDigit ∧ (ip ≠ [] ∨ fp ≠ []) then
      some (Frac.add (Frac.ofInt (digitsValue ip)) (Frac.reduce (digitsValue fp) (10 ^ fp.length)))
    else Option.none
  | _ => Option.none

/-- A decimal literal with an optional leading minus sign read exactly. -/
def parseDecimal (s : String) : Option Frac :=
  match s.data with
  | '-' :: cs => lift1 Frac.neg (parseUnsigned cs)
  | cs => parseUnsigned cs

/-- An instance of `Arith` that computes: values are exact fractions, `none`
stands for NaN and for every result this instance does not determine.  On the
inputs it is used on (small integers and short decimals under `+ - * /`,
natural powers and factorials) the IEEE operations are exact as well. -/
@[reducible]
def exactArith : Arith where
  D := Option Frac
  nan := Option.none
  one := some (Frac.ofInt 1)
  add := lift2 Frac.add
  sub := lift2 Frac.sub
  mul := lift2 Frac.mul
  div := exactDiv
  fmod := fun _ _ => Option.none
  pow := exactPow
  fmin := lift2 (fun a b => if Frac.le b a then b else a)
  fmax := lift2 (fun a b => if Frac.le a b then b else a)
  gcd := fun _ _ => Option.none
  lcm := fun _ _ => Option.none
  sqrt := fun _ => Option.none
  cbrt := fun _ => Option.none
  fabs := lift1 (fun a => ⟨a.num.natAbs, a.den⟩)
  tgamma := exactGamma
  log := fun _ => Option.none
  log10 := fun _ => Option.none
  exp := fun _ => Option.none
  ceil := fun _ => Option.none
  floor := fun _ => Option.none
  round := fun _ => Option.none
  trunc := fun _ => Option.none
  sinc := fun _ => Option.none
  sin := fun _ => Option.none
  cos := fun _ => Option.none
  tan := fun _ => Option.none
  sinh := fun _ => Option.none
  cosh := fun _ => Option.none
  tanh := fun _ => Option.none
  asin := fun _ => Option.none
  acos := fun _ => Option.none
  atan := fun _ => Option.none
  asinh := fun _ => Option.none
  acosh := fun _ => Option.none
  atanh := fun _ => Option.none
  halfPi := Option.none
  e := Option.none
  pi := Option.none
  tau := Option.none
  phi := Option.none
  random := fun _ => Option.none
  time := fun _ => Option.none
  parse := parseDecimal
  join := fun _ => ""

/-- The number `n` as a value of `exactArith`. -/
def exactInt (n : Int) : exactArith.D := some (Frac.ofInt n)

/-- The empty variable table. -/
def noVars (A : Arith) : VarTable A := fun _ => Option.none

/-! ## Vocabulary of the statements -/

/-- Scanning `cs` takes the lexer from state `st` with tokens `ts` to state
`st'` with tokens `ts'`, whatever follows `cs` and whatever size the vector was
reserved to. -/
def Lex (st : State) (ts : TokenContainer) (cs : List Char) (st' : State)
    (ts' : TokenContainer) : Prop :=
  ∀ capacity rest, run capacity st ts (cs ++ rest) = run capacity st' ts' rest

def allDigits (cs : List Char) : Bool := cs.all Char.isDigit

/-- The rest of a literal after a digit of its integer part: more digits, then
possibly a dot and the digits of the fraction. -/
def literalTail : List Char → Bool
  | [] => true
  | c :: cs => if c.isDigit then literalTail cs else c = '.' && allDigits cs

/-- An unsigned numeric literal: a non-empty digit string, optionally followed
by a dot and further digits, or a dot followed by at least one digit. -/
def isLiteralChars : List Char → Bool
  | [] => false
  | c :: cs => if c.isDigit then literalTail cs else c = '.' && !cs.isEmpty && allDigits cs

def isUnsignedLiteral (n : String) : Bool := isLiteralChars n.data

/-- The lexer is inside a number. -/
abbrev AfterNum (st : State) : Prop := st = .NumberState ∨ st = .FractionState

/-- The states in which a digit or a dot starts a new `Number` token. -/
abbrev StartsToken (st : State) : Prop :=
  st = .BeginState ∨ st = .ReadState ∨ st = .OperatorState ∨ st = .UnaryOperatorState

/-- Whole-word lookup of an identifier: a function name, else a constant name,
else a generator name, else a variable. -/
def classify (w : String) : Spec :=
  match funcs w with
  | some s => s
  | Option.none =>
    match consts w with
    | some s => s
    | Option.none =>
      match gens w with
      | some s => s
      | Option.none => .Variable

/-- The state the lexer is in after an identifier of two or more letters. -/
def identState (w : String) : State :=
  if (funcs w).isSome then .FunctionState else .VariableState

/-- A variable name: letters only, and no name of a function, constant or generator. -/
def isPlainName (v : String) : Bool :=
  !v.data.isEmpty && v.data.all Char.isAlpha &&
    (funcs v).isNone && (consts v).isNone && (gens v).isNone

/-- The invariant of the lexer inside an identifier whose text so far is `w`. -/
abbrev InIdent (st : State) (w : String) : Prop :=
  st = .VariableState ∨ (st = .FunctionState ∧ funcs w ≠ Option.none)

/-- The number of `LeftPars` tokens left open by the tokens, with `depth` of
them open before: a `RightPars` closes the latest open `LeftPars`, if any. -/
def openPars : Nat → List Token → Nat
  | depth, [] => depth
  | depth, t :: rest =>
    if t.spec = .LeftPars then openPars (depth + 1) rest
    else if t.spec = .RightPars then openPars (depth - 1) rest
    else openPars depth rest

/-- The number of `LeftPars` tokens on the operator stack. -/
def countLeftPars : TokenStack → Nat
  | [] => 0
  | t :: rest => if t.spec = .LeftPars then countLeftPars rest + 1 else countLeftPars rest

/-- An error of kind `Parsing` is held. -/
abbrev IsParsingError (e : SyntaxError) : Prop := e.isError = true ∧ e.mType = ErrType.Parsing

/-- The kinds of token for which the evaluation loops have a branch. -/
def isEvaluable (s : Spec) : Bool :=
  isBinaryFn s || isBinaryOp s || isUnaryFn s || isUnaryOp s || isConstant s ||
    isGenerator s || s = .Number || s = .Variable

/-- The kinds of token `parse` pushes on the operator stack. -/
def isStackable (s : Spec) : Bool :=
  isFunction s || s = .LeftPars || isBinaryOp s

/-! ## Base conversion (`Converter.hpp`) -/

namespace Converter

/-- The enumeration `Spec` of `Converter.hpp`. -/
inductive Spec where
  | Bin | Oct | Dec | Hex
  deriving DecidableEq, Repr

/-- What `toBase` and `convert` call from the `my` library, which is not part of
the sources: `my::toLower`, `my::trimStart` and `my::join`. -/
structure Helpers where
  toLower : String → String
  trimStart : String → Char → String
  join : List String → String

/-- The test `std::isxdigit` in the C locale. -/
def isxdigit (c : Char) : Bool :=
  c.isDigit || (97 ≤ c.toNat && c.toNat ≤ 102) || (65 ≤ c.toNat && c.toNat ≤ 70)

/-- The value the extraction `ss >> num` gives to a digit character. -/
def digitValue (c : Char) : Nat :=
  if c.isDigit then c.toNat - 48
  else if 97 ≤ c.toNat ∧ c.toNat ≤ 102 then c.toNat - 87
  else c.toNat - 55

/-- The template `read`: `number` is written to a stream that carries the base
manipulator `m` and read back as a `size_t` of 64 bits.  On an empty string the
stream holds nothing, the extraction stores nothing, and `num`, declared
without an initializer, is returned as it is: `none`.  Otherwise the extraction
takes the leading digits of the base; without a digit it stores 0, and a value
that does not fit is stored as the largest one.  (`toBase` calls it on digit
strings only; signs, blanks and base prefixes are not modelled.) -/
def read (number : String) (m : Nat) : Option Nat :=
  if number.data = [] then Option.none
  else
    let digits := number.data.takeWhile (fun c => isxdigit c && decide (digitValue c < m))
    let num := digits.foldl (fun acc c => m * acc + digitValue c) 0
    some (if num < 2 ^ 64 then num else 2 ^ 64 - 1)

/-- The constructor `std::bitset<128>(number)` from a string of `0` and `1`, as
the number the bits spell: the first 128 characters are used, the last of them
being bit 0. -/
def bitsetOfString (number : String) : Nat :=
  (number.data.take 128).foldl (fun acc c => 2 * acc + (if c = '1' then 1 else 0)) 0

/-- The member `to_string()` of a bitset of `width` bits: one character for
each bit, the most significant first. -/
def bitsToString : Nat → Nat → List Char
  | 0, _ => []
  | width + 1, bits => bitsToString width (bits / 2) ++ [if bits % 2 = 1 then '1' else '0']

/-- The member `to_ullong()`: `none` stands for the `std::overflow_error` thrown
when a bit beyond the 64th is set. -/
def toUllong (bits : Nat) : Option Nat :=
  if bits < 2 ^ 64 then some bits else Option.none

/-- The digits of an unsigned number written to a stream in base `m`: no base
prefix, no leading zero, lowercase letters. -/
def showDigits (m : Nat) : Nat → Nat → List Char
  | 0, _ => []
  | fuel + 1, num =>
    if num < m then [Nat.digitChar num]
    else showDigits m fuel (num / m) ++ [Nat.digitChar (num % m)]

/-- The statements `ss << std::oct << num; return ss.str();` and the like, for
a number of 64 bits (which has at most 64 digits). -/
def showBase (m num : Nat) : String := ⟨showDigits m 64 num⟩

def invalidDigit (kind : String) (el : Char) : SyntaxError :=
  SyntaxError.mk2 ("Invalid " ++ kind ++ " digit [" ++ String.singleton el ++ "]")
    ErrType.Converting

/-- The function `toBase`: the returned string and the value of `error` on
return; `none` when `to_ullong` throws, and when the string returned is written
from a `num` that `read` left without a value.  Every case of the two `switch`
statements returns, so the statements after them are not reached. -/
def toBase (H : Helpers) (source target : Spec) (number : String) (error : SyntaxError) :
    Option (String × SyntaxError) :=
  match source with
  | .Bin =>
    match number.data.find? (fun el => decide (el ≠ '0' ∧ el ≠ '1')) with
    | some el => some ("", invalidDigit "binary" el)
    | Option.none =>
      let bits := bitsetOfString number
      match target with
      | .Bin => some (H.trimStart ⟨bitsToString 128 bits⟩ '0', error)
      | .Oct => (toUllong bits).map (fun num => (showBase 8 num, error))
      | .Dec => (toUllong bits).map (fun num => (showBase 10 num, error))
      | .Hex => (toUllong bits).map (fun num => (showBase 16 num, error))
  | .Oct =>
    match number.data.find? (fun el => !el.isDigit || decide (el.toNat - 48 ≥ 8)) with
    | some el => some ("", invalidDigit "octal" el)
    | Option.none =>
      let num := read number 8
      match target with
      | .Bin => num.map (fun num => (H.trimStart ⟨bitsToString 128 num⟩ '0', error))
      | .Oct => some (number, error)
      | .Dec => num.map (fun num => (showBase 10 num, error))
      | .Hex => num.map (fun num => (showBase 16 num, error))
  | .Dec =>
    match number.data.find? (fun el => !el.isDigit) with
    | some el => some ("", invalidDigit "decimal" el)
    | Option.none =>
      let num := read number 10
      match target with
      | .Bin => num.map (fun num => (H.trimStart ⟨bitsToString 128 num⟩ '0', error))
      | .Oct => num.map (fun num => (showBase 8 num, error))
      | .Dec => some (number, error)
      | .Hex => num.map (fun num => (showBase 16 num, error))
  | .Hex =>
    match number.data.find? (fun el => !isxdigit el) with
    | some el => some ("", invalidDigit "hexadecimal" el)
    | Option.none =>
      let num := read number 16
      match target with
      | .Bin => num.map (fun num => (H.trimStart ⟨bitsToString 128 num⟩ '0', error))
      | .Oct => num.map (fun num => (showBase 8 num, error))
      | .Dec => num.map (fun num => (showBase 10 num, error))
      | .Hex => some (number, error)

/-- The initializer list of the table `ops` of `convert`. -/
def opsTable : List (String × Spec) :=
  [("bin", .Bin), ("oct", .Oct), ("dec", .Dec), ("hex", .Hex)]

/-- The lookup `ops.find(name)` of `convert`. -/
def ops (name : String) : Option Spec := opsTable.lookup name

/-- The loop `for (auto&& el : input)` of `convert`: the pieces pushed to
`buffer` and the piece `curr` being read. -/
def split : List Char → List String → String → List String × String
  | [], buffer, curr => (buffer, curr)
  | el :: rest, buffer, curr =>
    if buffer.length < 2 ∧ (el = ' ' ∨ (el = ':' ∧ curr.length ≠ 0)) then
      split rest (buffer ++ [curr]) ""
    else split rest buffer (curr.push el)

/-- The function `convert`: the returned string and the value of `error` on
return; `none` when `toBase` has no result. -/
def convert (H : Helpers) (input : String) (error : SyntaxError) :
    Option (String × SyntaxError) :=
  match split input.data [] "" with
  | (pushed, curr) =>
    match pushed ++ [curr] with
    | [b0, b1, b2] =>
      match ops (H.toLower b0), ops (H.toLower b1) with
      | Option.none, _ =>
        some ("", SyntaxError.mk2 ("Unknown base: [" ++ b0 ++ "]") ErrType.Parsing)
      | some _, Option.none =>
        some ("", SyntaxError.mk2 ("Unknown base: [" ++ b1 ++ "]") ErrType.Parsing)
      | some source, some target => toBase H source target b2 error
    | buffer =>
      some ("", SyntaxError.mk2 ("Not enough arguments: [" ++ H.join buffer ++ "]")
        ErrType.Parsing)

/-- The base a `Spec` stands for. -/
def radix : Spec → Nat
  | .Bin => 2
  | .Oct => 8
  | .Dec => 10
  | .Hex => 16

/-- The name of a base in the input of `convert`. -/
def baseName : Spec → String
  | .Bin => "bin"
  | .Oct => "oct"
  | .Dec => "dec"
  | .Hex => "hex"

/-- The number the digits denote in base `m`, read from the left with `acc`
for the digits before them; `none` when a character is no digit of the base. -/
def numeralDigits (m : Nat) : List Char → Nat → Option Nat
  | [], acc => some acc
  | c :: cs, acc =>
    if isxdigit c = true ∧ digitValue c < m then numeralDigits m cs (m * acc + digitValue c)
    else Option.none

/-- The natural number a numeral denotes in base `m`: `none` for the empty
string and for a string with a character that is no digit of the base. -/
def numeralValue (m : Nat) (s : String) : Option Nat :=
  if s.data = [] then Option.none else numeralDigits m s.data 0

/-- Helpers that do what the names say: lowercase every character, strip the
leading run of a character, join with `, `. -/
def plainHelpers : Helpers where
  toLower := fun s => ⟨s.data.map Char.toLower⟩
  trimStart := fun s c => ⟨s.data.dropWhile (fun x => x = c)⟩
  join := fun l => ", ".intercalate l

end Converter

/-- The punctuation kinds: parentheses, brackets and the comma. -/
def isPunctuation (s : Spec) : Bool :=
  s = .LeftPars || s = .RightPars || s = .Comma || s = .LeftArrPars || s = .RightArrPars

/-- The operand kinds, which `parse` appends to the output as they come. -/
def isOperand (s : Spec) : Bool :=
  s = .Number || s = .Variable || isConstant s || isGenerator s

/-! ## Facts about characters and the lookup tables -/

theorem alpha_not_digit (c : Char) (h : c.isAlpha = true) : c.isDigit = false := by
  simp only [Char.isAlpha, Char.isUpper, Char.isLower, Char.isDigit, Bool.or_eq_true,
    Bool.and_eq_true, decide_eq_true_eq, Bool.and_eq_false_imp, decide_eq_false_iff_not] at *
  rcases c with ⟨⟨v, hv⟩, hc⟩
  simp only [UInt32.le_def, UInt32.lt_def, ge_iff_le, Fin.le_def] at *
  simp at *
  omega

theorem digit_ne_dot (c : Char) (h : c.isDigit = true) : c ≠ '.' := by
  rintro rfl
  revert h
  decide

theorem alpha_ne_dot (c : Char) (h : c.isAlpha = true) : c ≠ '.' := by
  rintro rfl
  revert h
  decide

theorem find_some_mem {α : Type} [DecidableEq α] (key : α) (v : Spec) :
    ∀ table : List (α × Spec), find key table = some v → (key, v) ∈ table
  | [], h => by simp [find] at h
  | (k, w) :: rest, h => by
    unfold find at h
    split at h
    · rename_i hk
      cases h
      simp [hk]
    · exact List.mem_cons_of_mem _ (find_some_mem key v rest h)

theorem find_none_of_forall {α : Type} [DecidableEq α] (key : α) :
    ∀ table : List (α × Spec), (∀ p ∈ table, p.1 ≠ key) → find key table = Option.none
  | [], _ => rfl
  | (k, w) :: rest, h => by
    unfold find
    have hk : key ≠ k := fun e => h (k, w) (List.mem_cons_self _ _) e.symm
    rw [if_neg hk]
    exact find_none_of_forall key rest (fun p hp => h p (List.mem_cons_of_mem _ hp))

/-- A character of the table `ops` is no digit, dot, letter, blank or apostrophe. -/
theorem ops_char (c : Char) (op : Spec) (h : ops c = some op) :
    c.isDigit = false ∧ c ≠ '.' ∧ c.isAlpha = false ∧ isblank c = false ∧ c ≠ '\'' := by
  have key : ∀ p ∈ opsTable, p.1.isDigit = false ∧ p.1 ≠ '.' ∧ p.1.isAlpha = false ∧
      isblank p.1 = false ∧ p.1 ≠ '\'' := by decide
  exact key (c, op) (find_some_mem c op opsTable h)

theorem conv_data (c : Char) : (conv c).data = [c] := rfl

theorem conv_eq (c : Char) : conv c = ⟨[c]⟩ := rfl

theorem push_eq (w : String) (c : Char) : w.push c = ⟨w.data ++ [c]⟩ := rfl

theorem pushToLast_snoc (ts : TokenContainer) (t : Token) (c : Char) :
    pushToLast (ts ++ [t]) c = .ok (ts ++ [⟨t.spec, ⟨t.value.data ++ [c]⟩⟩]) := by
  simp [pushToLast, push_eq]

/-! ## Runs of the lexer over a piece of the input -/

theorem Lex.nil (st : State) (ts : TokenContainer) : Lex st ts [] st ts := fun _ _ => rfl

theorem Lex.one {st st' : State} {ts ts' : TokenContainer} {c : Char}
    (h : ∀ capacity, step capacity st ts c = .ok (st', ts')) : Lex st ts [c] st' ts' := by
  intro capacity rest
  simp [run, h capacity]

theorem Lex.trans {s1 s2 s3 : State} {t1 t2 t3 : TokenContainer} {xs ys : List Char}
    (h1 : Lex s1 t1 xs s2 t2) (h2 : Lex s2 t2 ys s3 t3) : Lex s1 t1 (xs ++ ys) s3 t3 := by
  intro capacity rest
  rw [List.append_assoc, h1, h2]

theorem Lex.cons {s1 s2 s3 : State} {t1 t2 t3 : TokenContainer} {c : Char} {ys : List Char}
    (h1 : ∀ capacity, step capacity s1 t1 c = .ok (s2, t2)) (h2 : Lex s2 t2 ys s3 t3) :
    Lex s1 t1 (c :: ys) s3 t3 :=
  Lex.trans (Lex.one h1) h2

theorem Lex.finish {s : String} {st : State} {ts : TokenContainer}
    (h : Lex .BeginState [] s.data st ts) : tokenize s = .ok ts := by
  have h' := h s.data.length []
  rw [List.append_nil] at h'
  unfold tokenize
  rw [h']
  rfl

/-! ## Numeric literals -/

theorem lex_fraction (ts : TokenContainer) :
    ∀ (cs : List Char) (v : List Char), allDigits cs = true →
      Lex .FractionState (ts ++ [⟨.Number, ⟨v⟩⟩]) cs .FractionState
        (ts ++ [⟨.Number, ⟨v ++ cs⟩⟩])
  | [], v, _ => by simpa using Lex.nil _ _
  | c :: cs, v, h => by
    simp only [allDigits, List.all_cons, Bool.and_eq_true] at h
    have hs : ∀ capacity, step capacity .FractionState (ts ++ [⟨.Number, ⟨v⟩⟩]) c =
        .ok (.FractionState, ts ++ [⟨.Number, ⟨v ++ [c]⟩⟩]) := by
      intro capacity
      simp [step, h.1, pushToLast_snoc]
    have := Lex.cons hs (lex_fraction ts cs (v ++ [c]) h.2)
    simpa using this

theorem lex_number (ts : TokenContainer) :
    ∀ (cs : List Char) (v : List Char), literalTail cs = true →
      ∃ st, AfterNum st ∧
        Lex .NumberState (ts ++ [⟨.Number, ⟨v⟩⟩]) cs st (ts ++ [⟨.Number, ⟨v ++ cs⟩⟩])
  | [], v, _ => ⟨.NumberState, Or.inl rfl, by simpa using Lex.nil _ _⟩
  | c :: cs, v, h => by
    unfold literalTail at h
    by_cases hd : c.isDigit = true
    · rw [if_pos hd] at h
      have hs : ∀ capacity, step capacity .NumberState (ts ++ [⟨.Number, ⟨v⟩⟩]) c =
          .ok (.NumberState, ts ++ [⟨.Number, ⟨v ++ [c]⟩⟩]) := by
        intro capacity
        simp [step, hd, pushToLast_snoc]
      obtain ⟨st, hst, hl⟩ := lex_number ts cs (v ++ [c]) h
      exact ⟨st, hst, by simpa using Lex.cons hs hl⟩
    · rw [if_neg hd] at h
      simp only [Bool.and_eq_true, decide_eq_true_eq] at h
      obtain ⟨rfl, hcs⟩ := h
      have hs : ∀ capacity, step capacity .NumberState (ts ++ [⟨.Number, ⟨v⟩⟩]) '.' =
          .ok (.FractionState, ts ++ [⟨.Number, ⟨v ++ ['.']⟩⟩]) := by
        intro capacity
        simp [step, pushToLast_snoc]
      exact ⟨.FractionState, Or.inr rfl,
        by simpa using Lex.cons hs (lex_fraction ts cs (v ++ ['.']) hcs)⟩

/-- A literal met where a token may start becomes one `Number` token holding
its text, and leaves the lexer inside a number. -/
theorem lex_literal {st : State} (hst : StartsToken st) (ts : TokenContainer) (n : String)
    (hn : isUnsignedLiteral n = true) :
    ∃ st', AfterNum st' ∧ Lex st ts n.data st' (ts ++ [⟨.Number, n⟩]) := by
  obtain ⟨cs⟩ := n
  cases cs with
  | nil => simp [isUnsignedLiteral, isLiteralChars] at hn
  | cons c cs =>
    simp only [isUnsignedLiteral, isLiteralChars] at hn
    by_cases hd : c.isDigit = true
    · rw [if_pos hd] at hn
      have hs : ∀ capacity, step capacity st ts c = .ok (.NumberState, ts ++ [⟨.Number, ⟨[c]⟩⟩]) := by
        intro capacity
        rcases hst with rfl | rfl | rfl | rfl <;> simp [step, hd, conv_eq]
      obtain ⟨st', hst', hl⟩ := lex_number ts cs [c] hn
      exact ⟨st', hst', by simpa using Lex.cons hs hl⟩
    · rw [if_neg hd] at hn
      simp only [Bool.and_eq_true, decide_eq_true_eq] at hn
      obtain ⟨⟨rfl, _⟩, hcs⟩ := hn
      have hs : ∀ capacity, step capacity st ts '.' = .ok (.FractionState, ts ++ [⟨.Number, ⟨['.']⟩⟩]) := by
        intro capacity
        rcases hst with rfl | rfl | rfl | rfl <;> simp [step, conv_eq]
      exact ⟨.FractionState, Or.inr rfl,
        by simpa using Lex.cons hs (lex_fraction ts cs ['.'] hcs)⟩

/-! ## Operators after a number -/

theorem step_op_after_num {st : State} (hst : AfterNum st) (ts : TokenContainer) (c : Char)
    (op : Spec) (hop : ops c = some op) (hlp : op ≠ .LeftPars) :
    ∀ capacity, step capacity st ts c = .ok (.OperatorState, ts ++ [⟨op, conv c⟩]) := by
  intro capacity
  obtain ⟨h1, h2, h3, _, _⟩ := ops_char c op hop
  rcases hst with rfl | rfl <;> simp [step, h1, h2, h3, hop, hlp]

theorem step_leftPars_after_num {st : State} (hst : AfterNum st) (ts : TokenContainer) (c : Char)
    (hop : ops c = some .LeftPars) :
    ∀ capacity, step capacity st ts c = .ok (.OperatorState, ts ++ [⟨.Mul, "*"⟩, ⟨.LeftPars, conv c⟩]) := by
  intro capacity
  obtain ⟨h1, h2, h3, _, _⟩ := ops_char c .LeftPars hop
  rcases hst with rfl | rfl <;> simp [step, h1, h2, h3, hop]

theorem step_blank_after_num {st : State} (hst : AfterNum st) (ts : TokenContainer) :
    ∀ capacity, step capacity st ts ' ' = .ok (.ReadState, ts) := by
  intro capacity
  rcases hst with rfl | rfl <;> rfl

/-! ## Identifiers -/

theorem funcs_conv (c : Char) : funcs (conv c) = Option.none := by
  apply find_none_of_forall
  have key : ∀ p ∈ funcsTable, 2 ≤ p.1.length := by decide
  intro p hp e
  have h2 := key p hp
  have h1 : (conv c).length = 1 := rfl
  rw [e, h1] at h2
  omega

/-- No function name extended by one character is the name of a constant or of
a generator. -/
theorem func_push_not_reserved (w : String) (s : Spec) (c : Char) (h : funcs w = some s) :
    consts (w.push c) = Option.none ∧ gens (w.push c) = Option.none := by
  have hm := find_some_mem w s funcsTable h
  have key : ∀ f ∈ funcsTable, ∀ p ∈ constsTable ++ gensTable,
      f.1.data ≠ p.1.data.dropLast := by decide
  have aux : ∀ p ∈ constsTable ++ gensTable, p.1 ≠ w.push c := by
    intro p hp e
    apply key (w, s) hm p hp
    rw [e, push_eq]
    simp
  constructor
  · exact find_none_of_forall _ _ (fun p hp => aux p (List.mem_append_left _ hp))
  · exact find_none_of_forall _ _ (fun p hp => aux p (List.mem_append_right _ hp))

theorem step_letter_variable (ts : TokenContainer) (sp : Spec) (w : String) (c : Char)
    (hc : c.isAlpha = true) :
    ∀ capacity, step capacity .VariableState (ts ++ [⟨sp, w⟩]) c =
      .ok (identState (w.push c), ts ++ [⟨classify (w.push c), w.push c⟩]) := by
  intro capacity
  have hd := alpha_not_digit c hc
  simp only [step, hd, hc, List.getLast?_append, List.getLast?_singleton,
    List.dropLast_concat, if_true, Bool.false_eq_true, if_false]
  cases h1 : funcs (w.push c) <;> cases h2 : consts (w.push c) <;>
    cases h3 : gens (w.push c) <;> simp [classify, identState, h1, h2, h3]

theorem step_letter_function (ts : TokenContainer) (sp : Spec) (w : String) (c : Char)
    (hc : c.isAlpha = true) (hw : funcs w ≠ Option.none) :
    ∀ capacity, step capacity .FunctionState (ts ++ [⟨sp, w⟩]) c =
      .ok (identState (w.push c), ts ++ [⟨classify (w.push c), w.push c⟩]) := by
  intro capacity
  obtain ⟨s, hs⟩ := Option.ne_none_iff_exists'.mp hw
  obtain ⟨h2, h3⟩ := func_push_not_reserved w s c hs
  simp only [step, hc, or_true, List.getLast?_append, List.getLast?_singleton,
    List.dropLast_concat, if_true]
  cases h1 : funcs (w.push c) <;> simp [classify, identState, h1, h2, h3]

theorem inIdent_identState (w : String) : InIdent (identState w) w := by
  unfold InIdent identState
  cases h : funcs w <;> simp

theorem step_letter {st : State} {w : String} (h : InIdent st w) (ts : TokenContainer)
    (sp : Spec) (c : Char) (hc : c.isAlpha = true) :
    ∀ capacity, step capacity st (ts ++ [⟨sp, w⟩]) c =
      .ok (identState (w.push c), ts ++ [⟨classify (w.push c), w.push c⟩]) := by
  intro capacity
  rcases h with rfl | ⟨rfl, hw⟩
  · exact step_letter_variable ts sp w c hc capacity
  · exact step_letter_function ts sp w c hc hw capacity

/-- Letters read inside an identifier extend it, and when at least one is read
the token is classified by whole-word lookup. -/
theorem lex_letters (ts : TokenContainer) :
    ∀ (cs : List Char) (st : State) (sp : Spec) (w : List Char),
      cs ≠ [] → cs.all Char.isAlpha = true → InIdent st ⟨w⟩ →
      Lex st (ts ++ [⟨sp, ⟨w⟩⟩]) cs (identState ⟨w ++ cs⟩)
        (ts ++ [⟨classify ⟨w ++ cs⟩, ⟨w ++ cs⟩⟩])
  | [], _, _, _, h, _, _ => absurd rfl h
  | [c], st, sp, w, _, hc, hi => by
    simp only [List.all_cons, List.all_nil, Bool.and_true] at hc
    exact Lex.one (step_letter hi ts sp c hc)
  | c :: d :: cs, st, sp, w, _, hc, hi => by
    rw [List.all_cons, Bool.and_eq_true] at hc
    have hs := step_letter hi ts sp c hc.1
    have ih := lex_letters ts (d :: cs) (identState (String.push ⟨w⟩ c))
      (classify (String.push ⟨w⟩ c)) (w ++ [c]) (by simp) hc.2 (inIdent_identState _)
    have := Lex.cons hs ih
    simpa using this

theorem classify_plain (v : String) (h : isPlainName v = true) :
    classify v = .Variable ∧ identState v = .VariableState := by
  simp only [isPlainName, Bool.and_eq_true, Option.isNone_iff_eq_none] at h
  obtain ⟨⟨⟨_, h1⟩, h2⟩, h3⟩ := h
  simp [classify, identState, h1, h2, h3]

theorem startIdentifier_eq (ts : TokenContainer) (c : Char) :
    ∃ sp, startIdentifier ts c = ts ++ [⟨sp, ⟨[c]⟩⟩] := by
  unfold startIdentifier
  cases consts (conv c) with
  | some s => exact ⟨s, rfl⟩
  | none =>
    cases gens (conv c) with
    | some s => exact ⟨s, rfl⟩
    | none => exact ⟨.Variable, rfl⟩

/-- A variable name met where a token may start becomes one `Variable` token. -/
theorem lex_name {st : State} (hst : StartsToken st) (ts : TokenContainer) (v : String)
    (hv : isPlainName v = true) :
    Lex st ts v.data .VariableState (ts ++ [⟨.Variable, v⟩]) := by
  obtain ⟨hcl, hid⟩ := classify_plain v hv
  simp only [isPlainName, Bool.and_eq_true, Option.isNone_iff_eq_none] at hv
  obtain ⟨⟨⟨⟨hne, hal⟩, h1⟩, h2⟩, h3⟩ := hv
  obtain ⟨cs⟩ := v
  cases cs with
  | nil => simp at hne
  | cons c cs =>
    simp only [List.all_cons, Bool.and_eq_true] at hal
    have hd := alpha_not_digit c hal.1
    have hdot := alpha_ne_dot c hal.1
    cases cs with
    | nil =>
      have e : conv c = ⟨[c]⟩ := rfl
      apply Lex.one
      intro capacity
      rcases hst with rfl | rfl | rfl | rfl <;>
        simp [step, hd, hdot, hal.1, startIdentifier, e, h2, h3]
    | cons d cs =>
      have hs : ∃ sp, ∀ capacity,
          step capacity st ts c = .ok (.VariableState, ts ++ [⟨sp, ⟨[c]⟩⟩]) := by
        obtain ⟨sp, hsp⟩ := startIdentifier_eq ts c
        rcases hst with rfl | rfl | rfl | rfl
        · exact ⟨sp, fun _ => by simp [step, hd, hdot, hal.1, hsp]⟩
        · exact ⟨sp, fun _ => by simp [step, hd, hdot, hal.1, hsp]⟩
        · exact ⟨.Variable, fun _ => by simp [step, hd, hdot, hal.1, conv_eq]⟩
        · exact ⟨.Variable, fun _ => by simp [step, hd, hdot, hal.1, conv_eq]⟩
      obtain ⟨sp, hs⟩ := hs
      have hl := lex_letters ts (d :: cs) .VariableState sp [c] (by simp) hal.2 (Or.inl rfl)
      have := Lex.cons hs hl
      simp only [List.singleton_append] at this
      rw [hcl, hid] at this
      exact this

theorem plain_ne_empty (v : String) (h : isPlainName v = true) : v ≠ "" := by
  rintro rfl
  revert h
  decide

theorem assign_self {A : Arith} (vars : VarTable A) (v : String) (x : A.D) :
    vars.assign v x v = some x := by
  simp [VarTable.assign]

/-- The text `v = n` is the three tokens `v`, `=`, `n`. -/
theorem tokenize_assignment (v n : String) (hv : isPlainName v = true)
    (hn : isUnsignedLiteral n = true) :
    tokenize (v ++ " = " ++ n) = .ok [⟨.Variable, v⟩, ⟨.Equals, "="⟩, ⟨.Number, n⟩] := by
  obtain ⟨st, _, hl⟩ := lex_literal (Or.inr (Or.inr (Or.inl rfl)))
    [⟨.Variable, v⟩, ⟨.Equals, "="⟩] n hn
  have h1 := lex_name (Or.inl rfl) [] v hv
  have h2 : Lex .VariableState [⟨.Variable, v⟩] [' ', '=', ' '] .OperatorState
      [⟨.Variable, v⟩, ⟨.Equals, "="⟩] := fun _ _ => rfl
  have := Lex.trans (Lex.trans h1 h2) hl
  exact Lex.finish (by simpa [String.data_append] using this)

/-- C1. Assignment round trip: for a variable name `v` (letters only, no
function, constant or generator name) and an unsigned numeric literal `n`, the
evaluator with variables, started without a pending error on the text `v = n`,
reports no error, returns the value of `n` and leaves the table updated at `v`
with that value; on the resulting table the text `v * 2` returns the product of
that value and the value of `2`, again without error and with the table kept. -/
theorem assignment_round_trip (A : Arith) (v n : String) (err : SyntaxError) (vars : VarTable A)
    (hv : isPlainName v = true) (hn : isUnsignedLiteral n = true)
    (herr : err.isError = false) :
    evalVars A (v ++ " = " ++ n) err vars
        = .ok ⟨A.parse n, err, vars.assign v (A.parse n)⟩ ∧
      evalVars A (v ++ " * 2") err (vars.assign v (A.parse n))
        = .ok ⟨A.mul (A.parse n) (A.parse "2"), err, vars.assign v (A.parse n)⟩ := by
  have hne := plain_ne_empty v hv
  constructor
  · have hp : parse [⟨.Variable, v⟩, ⟨.Equals, "="⟩, ⟨.Number, n⟩] err =
        ([⟨.Variable, v⟩, ⟨.Number, n⟩, ⟨.Equals, "="⟩], err) := rfl
    have hl : evalLoopVars A v [⟨.Number, n⟩, ⟨.Equals, "="⟩] [] err vars =
        (if v = "" then .ok ⟨A.nan,
            SyntaxError.mk2 "Inapropriate use of = operator: trying to assign to \"\""
              ErrType.Evaluation, vars⟩
          else .ok ⟨A.parse n, err, vars.assign v (A.parse n)⟩) := rfl
    unfold evalVars
    rw [tokenize_assignment v n hv hn]
    simp only [hp, evalQueueVars, herr]
    simpa [hne] using hl
  · have ht : tokenize (v ++ " * 2") =
        .ok [⟨.Variable, v⟩, ⟨.Mul, "*"⟩, ⟨.Number, "2"⟩] := by
      have h1 := lex_name (Or.inl rfl) [] v hv
      have h2 : Lex .VariableState [⟨.Variable, v⟩] [' ', '*', ' ', '2'] .NumberState
          [⟨.Variable, v⟩, ⟨.Mul, "*"⟩, ⟨.Number, "2"⟩] := fun _ _ => rfl
      exact Lex.finish (by simpa [String.data_append] using Lex.trans h1 h2)
    have hp : parse [⟨.Variable, v⟩, ⟨.Mul, "*"⟩, ⟨.Number, "2"⟩] err =
        ([⟨.Variable, v⟩, ⟨.Number, "2"⟩, ⟨.Mul, "*"⟩], err) := rfl
    have hl : ∀ vars' : VarTable A,
        evalLoopVars A "" [⟨.Variable, v⟩, ⟨.Number, "2"⟩, ⟨.Mul, "*"⟩] [] err vars' =
        (match vars' v with
          | some value => .ok ⟨A.mul value (A.parse "2"), err, vars'⟩
          | Option.none => .ok ⟨A.nan,
              SyntaxError.mk3 ("Unknown variable: [" ++ v ++ "]") ErrType.UnknownToken [v],
              vars'⟩) := fun _ => rfl
    unfold evalVars
    rw [ht]
    simp only [hp, evalQueueVars, herr]
    simp [hl, assign_self]

/-- The round trip on `x = 10` followed by `x * 2`: 10, then 20. -/
theorem assignment_round_trip_witness :
    evalVars exactArith "x = 10" SyntaxError.none (noVars exactArith)
        = .ok ⟨exactInt 10, SyntaxError.none, (noVars exactArith).assign "x" (exactInt 10)⟩ ∧
      evalVars exactArith "x * 2" SyntaxError.none ((noVars exactArith).assign "x" (exactInt 10))
        = .ok ⟨exactInt 20, SyntaxError.none, (noVars exactArith).assign "x" (exactInt 10)⟩ :=
  assignment_round_trip exactArith "x" "10" SyntaxError.none (noVars exactArith)
    (by decide) (by decide) (by decide)

/-! ## Frame of the variable table -/

/-- The evaluation loop either leaves the table as it was or returns through the
assignment branch, with the pending target set. -/
theorem evalLoopVars_frame (A : Arith) (target : String) :
    ∀ (queue : TokenQueue) (evalStack : List A.D) (err : SyntaxError) (vars : VarTable A)
      (r : EvalResult A), evalLoopVars A target queue evalStack err vars = .ok r →
      r.vars = vars ∨ (target ≠ "" ∧ ∃ top, r = ⟨top, err, vars.assign target top⟩)
  | [], evalStack, err, vars, r, h => by
    unfold evalLoopVars at h
    repeat' split at h
    all_goals first
      | (cases h; exact Or.inl rfl)
      | cases h
  | token :: rest, evalStack, err, vars, r, h => by
    unfold evalLoopVars at h
    dsimp only at h
    repeat' split at h
    all_goals first
      | (cases h; exact Or.inl rfl)
      | (cases h; exact Or.inr ⟨by assumption, _, rfl⟩)
      | exact evalLoopVars_frame A target _ _ _ _ _ h
      | cases h

/-- C2. Frame of the variable table: whenever the evaluator with variables
returns, the table differs from the old one in at most one entry; it is
unchanged when an error is reported; and it is changed only on the assignment
path, where the postfix queue starts with a `Variable` token and ends with
`Equals`, no error is reported, and the one entry written is the pending target
with the returned value. -/
theorem variable_table_frame (A : Arith) (input : String) (err : SyntaxError)
    (vars : VarTable A) (r : EvalResult A) (h : evalVars A input err vars = .ok r) :
    (∃ name, ∀ key, key ≠ name → r.vars key = vars key) ∧
    (r.err.isError = true → r.vars = vars) ∧
    (r.vars = vars ∨
      ∃ tokens front rest, tokenize input = .ok tokens ∧
        (parse tokens err).1 = front :: rest ∧ front.spec = .Variable ∧
        (front :: rest).getLast?.map Token.spec = some .Equals ∧ front.value ≠ "" ∧
        r.err.isError = false ∧ r.vars = vars.assign front.value r.value) := by
  have key : r.vars = vars ∨
      ∃ tokens front rest, tokenize input = .ok tokens ∧
        (parse tokens err).1 = front :: rest ∧ front.spec = .Variable ∧
        (front :: rest).getLast?.map Token.spec = some .Equals ∧ front.value ≠ "" ∧
        r.err.isError = false ∧ r.vars = vars.assign front.value r.value := by
    unfold evalVars at h
    cases ht : tokenize input with
    | emptyBack => rw [ht] at h; cases h
    | noProgress => rw [ht] at h; cases h
    | ok tokens =>
      rw [ht] at h
      dsimp only at h
      unfold evalQueueVars at h
      by_cases he : (parse tokens err).2.isError = true
      · rw [if_pos he] at h
        cases h
        exact Or.inl rfl
      · rw [if_neg he] at h
        cases hq : (parse tokens err).1 with
        | nil =>
          rw [hq] at h
          cases h
          exact Or.inl rfl
        | cons front rest =>
          rw [hq] at h
          dsimp only at h
          split at h
          · rename_i hc
            rcases evalLoopVars_frame A _ _ _ _ _ _ h with h1 | ⟨hne, top, rfl⟩
            · exact Or.inl h1
            · exact Or.inr ⟨tokens, front, rest, rfl, hq, hc.1, hc.2, hne, by simpa using he, rfl⟩
          · rcases evalLoopVars_frame A _ _ _ _ _ _ h with h1 | ⟨hne, _⟩
            · exact Or.inl h1
            · exact absurd rfl hne
  refine ⟨?_, ?_, key⟩
  · rcases key with h1 | ⟨_, front, _, _, _, _, _, _, _, h2⟩
    · exact ⟨"", fun key _ => by rw [h1]⟩
    · refine ⟨front.value, fun key hk => ?_⟩
      rw [h2]
      simp [VarTable.assign, hk]
  · intro hr
    rcases key with h1 | ⟨_, _, _, _, _, _, _, _, h2, _⟩
    · exact h1
    · rw [hr] at h2
      cases h2

/-- The frame on `x = 10` from the empty table: only the entry `x` is written. -/
theorem variable_table_frame_witness :
    (∃ name, ∀ key, key ≠ name →
      ((noVars exactArith).assign "x" (exactInt 10)) key = noVars exactArith key) ∧
    (SyntaxError.none.isError = true →
      (noVars exactArith).assign "x" (exactInt 10) = noVars exactArith) ∧
    ((noVars exactArith).assign "x" (exactInt 10) = noVars exactArith ∨
      ∃ tokens front rest, tokenize "x = 10" = .ok tokens ∧
        (parse tokens SyntaxError.none).1 = front :: rest ∧ front.spec = .Variable ∧
        (front :: rest).getLast?.map Token.spec = some .Equals ∧ front.value ≠ "" ∧
        SyntaxError.none.isError = false ∧
        (noVars exactArith).assign "x" (exactInt 10) =
          (noVars exactArith).assign front.value (exactInt 10)) :=
  variable_table_frame exactArith "x = 10" SyntaxError.none (noVars exactArith)
    ⟨exactInt 10, SyntaxError.none, (noVars exactArith).assign "x" (exactInt 10)⟩ rfl

/-! ## Literals joined by operator characters -/

/-- The text `a c1 b` of two literals around an operator character is three tokens. -/
theorem tokenize_two (a b : String) (c1 : Char) (op1 : Spec)
    (ha : isUnsignedLiteral a = true) (hb : isUnsignedLiteral b = true)
    (h1 : ops c1 = some op1) (n1 : op1 ≠ .LeftPars) :
    tokenize (a ++ ⟨[c1]⟩ ++ b) = .ok [⟨.Number, a⟩, ⟨op1, conv c1⟩, ⟨.Number, b⟩] := by
  obtain ⟨sa, hsa, la⟩ := lex_literal (Or.inl rfl) [] a ha
  have s1 := Lex.one (step_op_after_num hsa [⟨.Number, a⟩] c1 op1 h1 n1)
  obtain ⟨sb, _, lb⟩ := lex_literal (Or.inr (Or.inr (Or.inl rfl)))
    [⟨.Number, a⟩, ⟨op1, conv c1⟩] b hb
  exact Lex.finish (by simpa [String.data_append] using Lex.trans (Lex.trans la s1) lb)

/-- The text `a c1 b c2 c` of three literals and two operator characters is five tokens. -/
theorem tokenize_three (a b c : String) (c1 c2 : Char) (op1 op2 : Spec)
    (ha : isUnsignedLiteral a = true) (hb : isUnsignedLiteral b = true)
    (hc : isUnsignedLiteral c = true)
    (h1 : ops c1 = some op1) (n1 : op1 ≠ .LeftPars)
    (h2 : ops c2 = some op2) (n2 : op2 ≠ .LeftPars) :
    tokenize (a ++ ⟨[c1]⟩ ++ b ++ ⟨[c2]⟩ ++ c) =
      .ok [⟨.Number, a⟩, ⟨op1, conv c1⟩, ⟨.Number, b⟩, ⟨op2, conv c2⟩, ⟨.Number, c⟩] := by
  obtain ⟨sa, hsa, la⟩ := lex_literal (Or.inl rfl) [] a ha
  have s1 := Lex.one (step_op_after_num hsa [⟨.Number, a⟩] c1 op1 h1 n1)
  obtain ⟨sb, hsb, lb⟩ := lex_literal (Or.inr (Or.inr (Or.inl rfl)))
    [⟨.Number, a⟩, ⟨op1, conv c1⟩] b hb
  have s2 := Lex.one (step_op_after_num hsb
    ([⟨.Number, a⟩, ⟨op1, conv c1⟩] ++ [⟨.Number, b⟩]) c2 op2 h2 n2)
  obtain ⟨sc, _, lc⟩ := lex_literal (Or.inr (Or.inr (Or.inl rfl)))
    ([⟨.Number, a⟩, ⟨op1, conv c1⟩] ++ [⟨.Number, b⟩] ++ [⟨op2, conv c2⟩]) c hc
  exact Lex.finish (by
    simpa [String.data_append] using
      Lex.trans (Lex.trans (Lex.trans (Lex.trans la s1) lb) s2) lc)

/-- C3. Precedence: for unsigned numeric literals `a`, `b`, `c` the text `a*b^c`
is parsed to the postfix sequence `a b c ^ *` and `a+b*c` to `a b c * +`, so
that the silent evaluator returns `a * (b ^ c)` and `a + (b * c)`; the text
`a+c` is parsed to `a c +` and evaluates to `a + c`. -/
theorem precedence (A : Arith) (a b c : String) (err : SyntaxError)
    (ha : isUnsignedLiteral a = true) (hb : isUnsignedLiteral b = true)
    (hc : isUnsignedLiteral c = true) :
    (∃ tokens, tokenize (a ++ "*" ++ b ++ "^" ++ c) = .ok tokens ∧
      parse tokens err =
        ([⟨.Number, a⟩, ⟨.Number, b⟩, ⟨.Number, c⟩, ⟨.Pow, "^"⟩, ⟨.Mul, "*"⟩], err)) ∧
    evalSilent A (a ++ "*" ++ b ++ "^" ++ c)
      = .ok (A.mul (A.parse a) (A.pow (A.parse b) (A.parse c))) ∧
    (∃ tokens, tokenize (a ++ "+" ++ b ++ "*" ++ c) = .ok tokens ∧
      parse tokens err =
        ([⟨.Number, a⟩, ⟨.Number, b⟩, ⟨.Number, c⟩, ⟨.Mul, "*"⟩, ⟨.Add, "+"⟩], err)) ∧
    evalSilent A (a ++ "+" ++ b ++ "*" ++ c)
      = .ok (A.add (A.parse a) (A.mul (A.parse b) (A.parse c))) ∧
    (∃ tokens, tokenize (a ++ "+" ++ c) = .ok tokens ∧
      parse tokens err = ([⟨.Number, a⟩, ⟨.Number, c⟩, ⟨.Add, "+"⟩], err)) ∧
    evalSilent A (a ++ "+" ++ c) = .ok (A.add (A.parse a) (A.parse c)) := by
  have t1 : tokenize (a ++ "*" ++ b ++ "^" ++ c) = _ :=
    tokenize_three a b c '*' '^' .Mul .Pow ha hb hc rfl (by decide) rfl (by decide)
  have t2 : tokenize (a ++ "+" ++ b ++ "*" ++ c) = _ :=
    tokenize_three a b c '+' '*' .Add .Mul ha hb hc rfl (by decide) rfl (by decide)
  have t3 : tokenize (a ++ "+" ++ c) = _ :=
    tokenize_two a c '+' .Add ha hc rfl (by decide)
  refine ⟨⟨_, t1, rfl⟩, ?_, ⟨_, t2, rfl⟩, ?_, ⟨_, t3, rfl⟩, ?_⟩
  · unfold evalSilent
    rw [t1]
    rfl
  · unfold evalSilent
    rw [t2]
    rfl
  · unfold evalSilent
    rw [t3]
    rfl

/-- The values 18 on `2*3^2`, 8 on `2+3*2` and 4 on `2+2`. -/
theorem precedence_witness :
    (∃ tokens, tokenize "2*3^2" = .ok tokens ∧
      parse tokens SyntaxError.none =
        ([⟨.Number, "2"⟩, ⟨.Number, "3"⟩, ⟨.Number, "2"⟩, ⟨.Pow, "^"⟩, ⟨.Mul, "*"⟩],
          SyntaxError.none)) ∧
    evalSilent exactArith "2*3^2" = .ok (exactInt 18) ∧
    (∃ tokens, tokenize "2+3*2" = .ok tokens ∧
      parse tokens SyntaxError.none =
        ([⟨.Number, "2"⟩, ⟨.Number, "3"⟩, ⟨.Number, "2"⟩, ⟨.Mul, "*"⟩, ⟨.Add, "+"⟩],
          SyntaxError.none)) ∧
    evalSilent exactArith "2+3*2" = .ok (exactInt 8) ∧
    (∃ tokens, tokenize "2+2" = .ok tokens ∧
      parse tokens SyntaxError.none =
        ([⟨.Number, "2"⟩, ⟨.Number, "2"⟩, ⟨.Add, "+"⟩], SyntaxError.none)) ∧
    evalSilent exactArith "2+2" = .ok (exactInt 4) :=
  precedence exactArith "2" "3" "2" SyntaxError.none (by decide) (by decide) (by decide)

theorem binaryOp_cases (op : Spec) (h : isBinaryOp op = true) :
    op = .Add ∨ op = .Sub ∨ op = .Div ∨ op = .Mul ∨ op = .Mod ∨ op = .Pow ∨ op = .Equals := by
  cases op <;> first | (exact absurd h (by decide)) | simp

/-- C4. Uniform left associativity: for unsigned numeric literals `a`, `b`, `c`
and operator characters `c1`, `c2` whose kinds are binary operators of equal
precedence (the power operator with itself included), the text `a c1 b c2 c` is
parsed to the postfix sequence `a b c1 c c2`, and (for operators other than `=`)
the silent evaluator returns `(a c1 b) c2 c`. -/
theorem left_associativity (A : Arith) (a b c : String) (c1 c2 : Char) (op1 op2 : Spec)
    (err : SyntaxError)
    (ha : isUnsignedLiteral a = true) (hb : isUnsignedLiteral b = true)
    (hc : isUnsignedLiteral c = true)
    (h1 : ops c1 = some op1) (h2 : ops c2 = some op2)
    (b1 : isBinaryOp op1 = true) (b2 : isBinaryOp op2 = true)
    (hp : getPrecedence op1 = getPrecedence op2) :
    (∃ tokens,
      tokenize (a ++ String.singleton c1 ++ b ++ String.singleton c2 ++ c) = .ok tokens ∧
      parse tokens err =
        ([⟨.Number, a⟩, ⟨.Number, b⟩, ⟨op1, String.singleton c1⟩, ⟨.Number, c⟩,
          ⟨op2, String.singleton c2⟩], err)) ∧
    (op1 ≠ .Equals →
      evalSilent A (a ++ String.singleton c1 ++ b ++ String.singleton c2 ++ c)
        = .ok (performBinaryFn A op2 (performBinaryFn A op1 (A.parse a) (A.parse b))
            (A.parse c))) := by
  have n1 : op1 ≠ .LeftPars := by rintro rfl; exact absurd b1 (by decide)
  have n2 : op2 ≠ .LeftPars := by rintro rfl; exact absurd b2 (by decide)
  have t : tokenize (a ++ String.singleton c1 ++ b ++ String.singleton c2 ++ c) = _ :=
    tokenize_three a b c c1 c2 op1 op2 ha hb hc h1 n1 h2 n2
  have hparse : parse [⟨.Number, a⟩, ⟨op1, conv c1⟩, ⟨.Number, b⟩, ⟨op2, conv c2⟩,
      ⟨.Number, c⟩] err =
      ([⟨.Number, a⟩, ⟨.Number, b⟩, ⟨op1, String.singleton c1⟩, ⟨.Number, c⟩,
        ⟨op2, String.singleton c2⟩], err) := by
    rcases binaryOp_cases op1 b1 with rfl | rfl | rfl | rfl | rfl | rfl | rfl <;>
      rcases binaryOp_cases op2 b2 with rfl | rfl | rfl | rfl | rfl | rfl | rfl <;>
      first
        | exact absurd hp (by decide)
        | rfl
  refine ⟨⟨_, t, hparse⟩, fun hne => ?_⟩
  unfold evalSilent
  rw [t]
  simp only [hparse]
  rcases binaryOp_cases op1 b1 with rfl | rfl | rfl | rfl | rfl | rfl | rfl <;>
    rcases binaryOp_cases op2 b2 with rfl | rfl | rfl | rfl | rfl | rfl | rfl <;>
    first
      | exact absurd hp (by decide)
      | exact absurd rfl hne
      | rfl

/-- The value 64 on `2^3^2`. -/
theorem left_associativity_witness :
    (∃ tokens, tokenize "2^3^2" = .ok tokens ∧
      parse tokens SyntaxError.none =
        ([⟨.Number, "2"⟩, ⟨.Number, "3"⟩, ⟨.Pow, "^"⟩, ⟨.Number, "2"⟩, ⟨.Pow, "^"⟩],
          SyntaxError.none)) ∧
    (Spec.Pow ≠ Spec.Equals → evalSilent exactArith "2^3^2" = .ok (exactInt 64)) :=
  left_associativity exactArith "2" "3" "2" '^' '^' .Pow .Pow SyntaxError.none
    (by decide) (by decide) (by decide) (by decide) (by decide) (by decide) (by decide)
    (by decide)

/-- C5. Unary minus: for an unsigned numeric literal `n` the text `-n` is the
tokens `Number "-1"`, `Mul`, `Number n` and the silent evaluator returns the
product of the values of `-1` and `n`, the negation of `n`; for literals `a`,
`b` the text `a - -b` is the tokens `a`, `Sub`, `Number "-1"`, `Mul`, `b` and
evaluates to `a - (-1 * b)`, which is `a + b`. -/
theorem unary_minus (A : Arith) (n a b : String)
    (hn : isUnsignedLiteral n = true) (ha : isUnsignedLiteral a = true)
    (hb : isUnsignedLiteral b = true) :
    tokenize ("-" ++ n) = .ok [⟨.Number, "-1"⟩, ⟨.Mul, "*"⟩, ⟨.Number, n⟩] ∧
    evalSilent A ("-" ++ n) = .ok (A.mul (A.parse "-1") (A.parse n)) ∧
    tokenize (a ++ " - -" ++ b) =
      .ok [⟨.Number, a⟩, ⟨.Sub, "-"⟩, ⟨.Number, "-1"⟩, ⟨.Mul, "*"⟩, ⟨.Number, b⟩] ∧
    evalSilent A (a ++ " - -" ++ b)
      = .ok (A.sub (A.parse a) (A.mul (A.parse "-1") (A.parse b))) := by
  have t1 : tokenize ("-" ++ n) = .ok [⟨.Number, "-1"⟩, ⟨.Mul, "*"⟩, ⟨.Number, n⟩] := by
    have s1 : Lex .BeginState [] ['-'] .OperatorState [⟨.Number, "-1"⟩, ⟨.Mul, "*"⟩] :=
      fun _ _ => rfl
    obtain ⟨sn, _, ln⟩ := lex_literal (Or.inr (Or.inr (Or.inl rfl)))
      [⟨.Number, "-1"⟩, ⟨.Mul, "*"⟩] n hn
    exact Lex.finish (by simpa [String.data_append] using Lex.trans s1 ln)
  have t2 : tokenize (a ++ " - -" ++ b) =
      .ok [⟨.Number, a⟩, ⟨.Sub, "-"⟩, ⟨.Number, "-1"⟩, ⟨.Mul, "*"⟩, ⟨.Number, b⟩] := by
    obtain ⟨sa, hsa, la⟩ := lex_literal (Or.inl rfl) [] a ha
    have s1 := Lex.one (step_blank_after_num hsa [⟨.Number, a⟩])
    have s2 : Lex .ReadState [⟨.Number, a⟩] ['-', ' ', '-'] .UnaryOperatorState
        [⟨.Number, a⟩, ⟨.Sub, "-"⟩, ⟨.Number, "-1"⟩, ⟨.Mul, "*"⟩] := fun _ _ => rfl
    obtain ⟨sb, _, lb⟩ := lex_literal (Or.inr (Or.inr (Or.inr rfl)))
      [⟨.Number, a⟩, ⟨.Sub, "-"⟩, ⟨.Number, "-1"⟩, ⟨.Mul, "*"⟩] b hb
    exact Lex.finish (by
      simpa [String.data_append] using Lex.trans (Lex.trans (Lex.trans la s1) s2) lb)
  refine ⟨t1, ?_, t2, ?_⟩
  · unfold evalSilent
    rw [t1]
    rfl
  · unfold evalSilent
    rw [t2]
    rfl

/-- The values -5 on `-5` and 8 on `3 - -5`. -/
theorem unary_minus_witness :
    tokenize "-5" = .ok [⟨.Number, "-1"⟩, ⟨.Mul, "*"⟩, ⟨.Number, "5"⟩] ∧
    evalSilent exactArith "-5" = .ok (exactInt (-5)) ∧
    tokenize "3 - -5" =
      .ok [⟨.Number, "3"⟩, ⟨.Sub, "-"⟩, ⟨.Number, "-1"⟩, ⟨.Mul, "*"⟩, ⟨.Number, "5"⟩] ∧
    evalSilent exactArith "3 - -5" = .ok (exactInt 8) :=
  unary_minus exactArith "5" "3" "5" (by decide) (by decide) (by decide)

/-! ## The push that reallocates the vector -/

/-- An operator character met in `VariableState` when the vector holds as many
tokens as were reserved: the operator token is pushed and the identifier keeps
the kind it has, also when it names a constant. -/
theorem step_op_full (ts : TokenContainer) (t : Token) (c : Char) (op : Spec)
    (hc : ops c = some op) :
    step (ts ++ [t]).length .VariableState (ts ++ [t]) c =
      .ok (.OperatorState, ts ++ [t] ++ [⟨op, conv c⟩]) := by
  obtain ⟨h1, _, h3, _, _⟩ := ops_char c op hc
  simp [step, h1, h3, hc]

/-- The same character met while the vector is not full: an identifier that
names a constant is retagged. -/
theorem step_op_retag (capacity : Nat) (ts : TokenContainer) (sp : Spec) (w : String)
    (c : Char) (op s : Spec) (hc : ops c = some op) (hw : consts w = some s)
    (hcap : (ts ++ [(⟨sp, w⟩ : Token)]).length ≠ capacity) :
    step capacity .VariableState (ts ++ [⟨sp, w⟩]) c =
      .ok (.OperatorState, ts ++ [⟨s, w⟩, ⟨op, conv c⟩]) := by
  obtain ⟨h1, _, h3, _, _⟩ := ops_char c op hc
  have hcap' : ¬ (ts.length + 1 = capacity) := by simpa using hcap
  simp [step, h1, h3, hc, hw, hcap']

/-- The operator after `e` is the push that reallocates on `-(e)`, `2(e)` and
`-2e+1`, where the token stays `Variable e`; on `(e)` and `e+1` it is not, and
the token becomes `EConst e`. -/
theorem tokenize_reallocating_push :
    tokenize "-(e)" = .ok [⟨.Number, "-1"⟩, ⟨.Mul, "*"⟩, ⟨.LeftPars, "("⟩,
      ⟨.Variable, "e"⟩, ⟨.RightPars, ")"⟩] ∧
    tokenize "2(e)" = .ok [⟨.Number, "2"⟩, ⟨.Mul, "*"⟩, ⟨.LeftPars, "("⟩,
      ⟨.Variable, "e"⟩, ⟨.RightPars, ")"⟩] ∧
    tokenize "-2e+1" = .ok [⟨.Number, "-1"⟩, ⟨.Mul, "*"⟩, ⟨.Number, "2"⟩, ⟨.Mul, "*"⟩,
      ⟨.Variable, "e"⟩, ⟨.Add, "+"⟩, ⟨.Number, "1"⟩] ∧
    tokenize "(e)" = .ok [⟨.LeftPars, "("⟩, ⟨.EConst, "e"⟩, ⟨.RightPars, ")"⟩] ∧
    tokenize "e+1" = .ok [⟨.EConst, "e"⟩, ⟨.Add, "+"⟩, ⟨.Number, "1"⟩] := by
  decide

/-- On `x = (-2*-2*-2*-2*-e+1)`, a text of 22 characters, the `+` after `e` is
the 23rd push: between the parentheses the token stays `Variable e`, while the
expression alone, whose 20th push it is into a vector that has grown already,
holds `EConst e`; the evaluators report the unknown variable `e`. -/
theorem reallocating_push_in_parentheses :
    tokenize "-2*-2*-2*-2*-e+1" =
      .ok [⟨.Number, "-1"⟩, ⟨.Mul, "*"⟩, ⟨.Number, "2"⟩, ⟨.Mul, "*"⟩,
        ⟨.Number, "-1"⟩, ⟨.Mul, "*"⟩, ⟨.Number, "2"⟩, ⟨.Mul, "*"⟩,
        ⟨.Number, "-1"⟩, ⟨.Mul, "*"⟩, ⟨.Number, "2"⟩, ⟨.Mul, "*"⟩,
        ⟨.Number, "-1"⟩, ⟨.Mul, "*"⟩, ⟨.Number, "2"⟩, ⟨.Mul, "*"⟩,
        ⟨.Number, "-1"⟩, ⟨.Mul, "*"⟩, ⟨.EConst, "e"⟩, ⟨.Add, "+"⟩, ⟨.Number, "1"⟩] ∧
    tokenize "x = (-2*-2*-2*-2*-e+1)" =
      .ok [⟨.Variable, "x"⟩, ⟨.Equals, "="⟩, ⟨.LeftPars, "("⟩,
        ⟨.Number, "-1"⟩, ⟨.Mul, "*"⟩, ⟨.Number, "2"⟩, ⟨.Mul, "*"⟩,
        ⟨.Number, "-1"⟩, ⟨.Mul, "*"⟩, ⟨.Number, "2"⟩, ⟨.Mul, "*"⟩,
        ⟨.Number, "-1"⟩, ⟨.Mul, "*"⟩, ⟨.Number, "2"⟩, ⟨.Mul, "*"⟩,
        ⟨.Number, "-1"⟩, ⟨.Mul, "*"⟩, ⟨.Number, "2"⟩, ⟨.Mul, "*"⟩,
        ⟨.Number, "-1"⟩, ⟨.Mul, "*"⟩, ⟨.Variable, "e"⟩, ⟨.Add, "+"⟩, ⟨.Number, "1"⟩,
        ⟨.RightPars, ")"⟩] ∧
    evalVars exactArith "x = (-2*-2*-2*-2*-e+1)" SyntaxError.none (noVars exactArith) =
      .ok ⟨exactArith.nan,
        SyntaxError.mk3 "Unknown variable: [e]" ErrType.UnknownToken ["e"],
        noVars exactArith⟩ ∧
    evalVars exactArith "-(e)" SyntaxError.none (noVars exactArith) =
      .ok ⟨exactArith.nan,
        SyntaxError.mk3 "Unknown variable: [e]" ErrType.UnknownToken ["e"],
        noVars exactArith⟩ ∧
    evalPlain exactArith "-(e)" SyntaxError.none =
      .ok (exactArith.nan,
        SyntaxError.mk3 "Unknown variable (variables may be disabled): [e]"
          ErrType.UnknownToken ["e"]) :=
  ⟨by decide, by decide, rfl, rfl, rfl⟩

/-! ## Tokens already pushed stay -/

/-- With a token already pushed, one step of the lexer succeeds and touches at
most the last token. -/
theorem step_extends (capacity : Nat) (st : State) (ts : TokenContainer) (t : Token)
    (c : Char) :
    ∃ st' more, step capacity st (ts ++ [t]) c = .ok (st', ts ++ more) ∧ more ≠ [] := by
  cases st <;>
    simp only [step, startIdentifier, pushToLast_snoc, List.getLast?_append,
      List.getLast?_singleton, List.dropLast_concat, Option.or_some] <;>
    (repeat' split) <;>
    (try simp only [List.append_assoc, List.singleton_append, List.cons_append,
      List.nil_append]) <;>
    exact ⟨_, _, rfl, List.cons_ne_nil _ _⟩

/-- With a token already pushed, the rest of the scan succeeds and keeps every
token before the last one. -/
theorem run_extends (capacity : Nat) :
    ∀ (cs : List Char) (st : State) (ts : TokenContainer) (t : Token),
      ∃ st' more, run capacity st (ts ++ [t]) cs = .ok (st', ts ++ more) ∧ more ≠ []
  | [], st, ts, t => ⟨st, [t], rfl, List.cons_ne_nil _ _⟩
  | c :: cs, st, ts, t => by
    obtain ⟨st1, more1, h1, hne⟩ := step_extends capacity st ts t c
    obtain ⟨st2, more2, h2, hne2⟩ :=
      run_extends capacity cs st1 (ts ++ more1.dropLast) (more1.getLast hne)
    refine ⟨st2, more1.dropLast ++ more2, ?_, by simp [hne2]⟩
    have e : ts ++ more1 = ts ++ more1.dropLast ++ [more1.getLast hne] := by
      rw [List.append_assoc, List.dropLast_append_getLast]
    simp only [run, h1]
    rw [e, h2, List.append_assoc]

theorem step_letter_after_num {st : State} (hst : AfterNum st) (ts : TokenContainer) (c : Char)
    (hc : c.isAlpha = true) :
    ∀ capacity, step capacity st ts c = .ok (.VariableState, ts ++ [⟨.Mul, "*"⟩, ⟨.Variable, conv c⟩]) := by
  intro capacity
  have hd := alpha_not_digit c hc
  have hdot := alpha_ne_dot c hc
  rcases hst with rfl | rfl <;> simp [step, hd, hdot, hc]

/-- A variable name written right after a number becomes `Mul` and a `Variable` token. -/
theorem lex_name_after_num {st : State} (hst : AfterNum st) (ts : TokenContainer) (v : String)
    (hv : isPlainName v = true) :
    Lex st ts v.data .VariableState (ts ++ [⟨.Mul, "*"⟩, ⟨.Variable, v⟩]) := by
  obtain ⟨hcl, hid⟩ := classify_plain v hv
  simp only [isPlainName, Bool.and_eq_true, Option.isNone_iff_eq_none] at hv
  obtain ⟨⟨⟨⟨hne, hal⟩, _⟩, _⟩, _⟩ := hv
  obtain ⟨cs⟩ := v
  cases cs with
  | nil => simp at hne
  | cons c cs =>
    simp only [List.all_cons, Bool.and_eq_true] at hal
    have hs := step_letter_after_num hst ts c hal.1
    cases cs with
    | nil => exact Lex.one hs
    | cons d cs =>
      have hl := lex_letters (ts ++ [⟨.Mul, "*"⟩]) (d :: cs) .VariableState .Variable [c]
        (by simp) hal.2 (Or.inl rfl)
      rw [conv_eq] at hs
      have := Lex.cons (by simpa using hs) hl
      simp only [List.singleton_append] at this
      rw [hcl, hid] at this
      simpa using this

/-- C6. Implicit multiplication after a number: a letter or an opening
parenthesis written right after an unsigned numeric literal `n` makes the lexer
put a `Mul` token after `Number n`, whatever follows; `n` followed by a variable
name `v` is the tokens `Number n`, `Mul`, `Variable v`, and with `v` bound to `x`
the evaluator with variables returns the product of `n` and `x`; `n(a+b)` is the
tokens `Number n`, `Mul`, `LeftPars`, ... and evaluates to `n * (a + b)`. -/
theorem implicit_mul_after_number (A : Arith) (n a b v : String) (x : A.D)
    (err : SyntaxError) (vars : VarTable A)
    (hn : isUnsignedLiteral n = true) (ha : isUnsignedLiteral a = true)
    (hb : isUnsignedLiteral b = true) (hv : isPlainName v = true)
    (herr : err.isError = false) (hx : vars v = some x) :
    (∀ (c : Char) (rest : String), c.isAlpha = true ∨ ops c = some .LeftPars →
      ∃ more, tokenize (n ++ String.singleton c ++ rest)
        = .ok (⟨.Number, n⟩ :: ⟨.Mul, "*"⟩ :: more) ∧ more ≠ []) ∧
    tokenize (n ++ v) = .ok [⟨.Number, n⟩, ⟨.Mul, "*"⟩, ⟨.Variable, v⟩] ∧
    evalVars A (n ++ v) err vars = .ok ⟨A.mul (A.parse n) x, err, vars⟩ ∧
    tokenize (n ++ "(" ++ a ++ "+" ++ b ++ ")") =
      .ok [⟨.Number, n⟩, ⟨.Mul, "*"⟩, ⟨.LeftPars, "("⟩, ⟨.Number, a⟩, ⟨.Add, "+"⟩,
        ⟨.Number, b⟩, ⟨.RightPars, ")"⟩] ∧
    evalSilent A (n ++ "(" ++ a ++ "+" ++ b ++ ")")
      = .ok (A.mul (A.parse n) (A.add (A.parse a) (A.parse b))) := by
  obtain ⟨sn, hsn, ln⟩ := lex_literal (Or.inl rfl) [] n hn
  have t2 : tokenize (n ++ v) = .ok [⟨.Number, n⟩, ⟨.Mul, "*"⟩, ⟨.Variable, v⟩] :=
    Lex.finish (by
      simpa [String.data_append] using Lex.trans ln (lex_name_after_num hsn _ v hv))
  have t3 : tokenize (n ++ "(" ++ a ++ "+" ++ b ++ ")") =
      .ok [⟨.Number, n⟩, ⟨.Mul, "*"⟩, ⟨.LeftPars, "("⟩, ⟨.Number, a⟩, ⟨.Add, "+"⟩,
        ⟨.Number, b⟩, ⟨.RightPars, ")"⟩] := by
    have s1 := Lex.one (step_leftPars_after_num hsn ([] ++ [⟨.Number, n⟩]) '(' rfl)
    obtain ⟨sa, hsa, la⟩ := lex_literal (Or.inr (Or.inr (Or.inl rfl)))
      [⟨.Number, n⟩, ⟨.Mul, "*"⟩, ⟨.LeftPars, "("⟩] a ha
    have s2 := Lex.one (step_op_after_num hsa
      ([⟨.Number, n⟩, ⟨.Mul, "*"⟩, ⟨.LeftPars, "("⟩] ++ [⟨.Number, a⟩]) '+' .Add rfl
      (by decide))
    obtain ⟨sb, hsb, lb⟩ := lex_literal (Or.inr (Or.inr (Or.inl rfl)))
      [⟨.Number, n⟩, ⟨.Mul, "*"⟩, ⟨.LeftPars, "("⟩, ⟨.Number, a⟩, ⟨.Add, "+"⟩] b hb
    have s3 := Lex.one (step_op_after_num hsb
      ([⟨.Number, n⟩, ⟨.Mul, "*"⟩, ⟨.LeftPars, "("⟩, ⟨.Number, a⟩, ⟨.Add, "+"⟩] ++
        [⟨.Number, b⟩]) ')' .RightPars rfl (by decide))
    have s1' : Lex sn [⟨.Number, n⟩] ['('] .OperatorState
        [⟨.Number, n⟩, ⟨.Mul, "*"⟩, ⟨.LeftPars, "("⟩] := s1
    have s2' : Lex sa [⟨.Number, n⟩, ⟨.Mul, "*"⟩, ⟨.LeftPars, "("⟩, ⟨.Number, a⟩] ['+']
        .OperatorState
        [⟨.Number, n⟩, ⟨.Mul, "*"⟩, ⟨.LeftPars, "("⟩, ⟨.Number, a⟩, ⟨.Add, "+"⟩] := s2
    have s3' : Lex sb [⟨.Number, n⟩, ⟨.Mul, "*"⟩, ⟨.LeftPars, "("⟩, ⟨.Number, a⟩,
        ⟨.Add, "+"⟩, ⟨.Number, b⟩] [')'] .OperatorState
        [⟨.Number, n⟩, ⟨.Mul, "*"⟩, ⟨.LeftPars, "("⟩, ⟨.Number, a⟩, ⟨.Add, "+"⟩,
          ⟨.Number, b⟩, ⟨.RightPars, ")"⟩] := s3
    have all := Lex.trans (Lex.trans (Lex.trans (Lex.trans (Lex.trans ln s1') la) s2') lb) s3'
    exact Lex.finish (by simpa [String.data_append] using all)
  refine ⟨?_, t2, ?_, t3, ?_⟩
  · intro c rest hc
    have hs : ∃ t, ∀ capacity, step capacity sn ([] ++ [⟨.Number, n⟩]) c =
        .ok (if c.isAlpha = true then .VariableState else .OperatorState,
          [⟨.Number, n⟩, ⟨.Mul, "*"⟩] ++ [t]) := by
      by_cases hal : c.isAlpha = true
      · exact ⟨_, fun capacity => by
          simpa [hal] using step_letter_after_num hsn [⟨.Number, n⟩] c hal capacity⟩
      · have hop := hc.resolve_left hal
        exact ⟨_, fun capacity => by
          simpa [hal] using step_leftPars_after_num hsn [⟨.Number, n⟩] c hop capacity⟩
    obtain ⟨t, hs⟩ := hs
    have e : (n ++ String.singleton c ++ rest).data = n.data ++ [c] ++ rest.data := by
      simp [String.data_append, String.singleton, push_eq]
    obtain ⟨st', more, hr, hne⟩ :=
      run_extends (n.data ++ [c] ++ rest.data).length rest.data
        (if c.isAlpha = true then .VariableState else .OperatorState)
        [⟨.Number, n⟩, ⟨.Mul, "*"⟩] t
    refine ⟨more, ?_, hne⟩
    have h1 := Lex.trans ln (Lex.one hs) (n.data ++ [c] ++ rest.data).length rest.data
    unfold tokenize
    rw [e, h1, hr]
    rfl
  · have hp : parse [⟨.Number, n⟩, ⟨.Mul, "*"⟩, ⟨.Variable, v⟩] err =
        ([⟨.Number, n⟩, ⟨.Variable, v⟩, ⟨.Mul, "*"⟩], err) := rfl
    have hl : evalLoopVars A "" [⟨.Number, n⟩, ⟨.Variable, v⟩, ⟨.Mul, "*"⟩] [] err vars =
        (match vars v with
          | some value => .ok ⟨A.mul (A.parse n) value, err, vars⟩
          | Option.none => .ok ⟨A.nan,
              SyntaxError.mk3 ("Unknown variable: [" ++ v ++ "]") ErrType.UnknownToken [v],
              vars⟩) := rfl
    unfold evalVars
    rw [t2]
    simp only [hp, evalQueueVars, herr]
    simp [hl, hx]
  · unfold evalSilent
    rw [t3]
    rfl

/-- The values 10 on `2x` with `x` bound to 5 and 14 on `2(3+4)`. -/
theorem implicit_mul_after_number_witness :
    (∀ (c : Char) (rest : String), c.isAlpha = true ∨ ops c = some .LeftPars →
      ∃ more, tokenize ("2" ++ String.singleton c ++ rest)
        = .ok (⟨.Number, "2"⟩ :: ⟨.Mul, "*"⟩ :: more) ∧ more ≠ []) ∧
    tokenize "2x" = .ok [⟨.Number, "2"⟩, ⟨.Mul, "*"⟩, ⟨.Variable, "x"⟩] ∧
    evalVars exactArith "2x" SyntaxError.none ((noVars exactArith).assign "x" (exactInt 5))
      = .ok ⟨exactInt 10, SyntaxError.none, (noVars exactArith).assign "x" (exactInt 5)⟩ ∧
    tokenize "2(3+4)" =
      .ok [⟨.Number, "2"⟩, ⟨.Mul, "*"⟩, ⟨.LeftPars, "("⟩, ⟨.Number, "3"⟩, ⟨.Add, "+"⟩,
        ⟨.Number, "4"⟩, ⟨.RightPars, ")"⟩] ∧
    evalSilent exactArith "2(3+4)" = .ok (exactInt 14) :=
  implicit_mul_after_number exactArith "2" "3" "4" "x" (exactInt 5) SyntaxError.none
    ((noVars exactArith).assign "x" (exactInt 5)) (by decide) (by decide) (by decide)
    (by decide) (by decide) rfl

/-- C7. Closing parenthesis followed by an opening one: on `(2)(3)` the lexer
pushes `Mul` after `RightPars` and drops the `LeftPars` itself, so the token
sequence is `( 2 ) * 3 )`; `parse` then reports `Mismatched parenthesis` at
index 5 and every evaluator fails instead of returning 6. -/
theorem adjacent_groups_drop_parenthesis :
    tokenize "(2)(3)" =
      .ok [⟨.LeftPars, "("⟩, ⟨.Number, "2"⟩, ⟨.RightPars, ")"⟩, ⟨.Mul, "*"⟩, ⟨.Number, "3"⟩,
        ⟨.RightPars, ")"⟩] ∧
    parse [⟨.LeftPars, "("⟩, ⟨.Number, "2"⟩, ⟨.RightPars, ")"⟩, ⟨.Mul, "*"⟩, ⟨.Number, "3"⟩,
        ⟨.RightPars, ")"⟩] SyntaxError.none =
      ([⟨.Number, "2"⟩, ⟨.Number, "3"⟩, ⟨.Mul, "*"⟩],
        SyntaxError.mk2 "Mismatched parenthesis (:5)" ErrType.Parsing) ∧
    evalSilent exactArith "(2)(3)" = .ok exactArith.nan ∧
    evalPlain exactArith "(2)(3)" SyntaxError.none =
      .ok (exactArith.nan, SyntaxError.mk2 "Mismatched parenthesis (:5)" ErrType.Parsing) := by
  decide

/-- C8, the claim as stated fails: `(2)x` is tokenized without a `Mul` token,
and with `x` bound to 5 the evaluator with variables does not return 10. -/
theorem mul_after_closing_parenthesis_counterexample :
    tokenize "(2)x" ≠
      .ok [⟨.LeftPars, "("⟩, ⟨.Number, "2"⟩, ⟨.RightPars, ")"⟩, ⟨.Mul, "*"⟩,
        ⟨.Variable, "x"⟩] ∧
    ¬ ∃ r, evalVars exactArith "(2)x" SyntaxError.none
        ((noVars exactArith).assign "x" (exactInt 5)) = .ok r ∧ r.value = exactInt 10 := by
  refine ⟨by decide, ?_⟩
  rintro ⟨r, h, hv⟩
  have e : evalVars exactArith "(2)x" SyntaxError.none
      ((noVars exactArith).assign "x" (exactInt 5)) =
      .ok ⟨exactArith.nan, redundantValues exactArith [exactInt 5, exactInt 2],
        (noVars exactArith).assign "x" (exactInt 5)⟩ := rfl
  rw [e] at h
  cases h
  exact absurd hv (by decide)

/-- C8, amended: a closing parenthesis followed by a letter starts a `Variable`
token with no `Mul` token before it: for an unsigned numeric literal `n` and a
variable name `v`, the text `(n)v` is the tokens `LeftPars`, `Number n`,
`RightPars`, `Variable v`, and with `v` bound to `x` the evaluator with variables
returns NaN with an `Evaluation` error "Redundant values" and leaves the table
unchanged. -/
theorem no_mul_after_closing_parenthesis (A : Arith) (n v : String) (x : A.D)
    (err : SyntaxError) (vars : VarTable A)
    (hn : isUnsignedLiteral n = true) (hv : isPlainName v = true)
    (herr : err.isError = false) (hx : vars v = some x) :
    tokenize ("(" ++ n ++ ")" ++ v) =
      .ok [⟨.LeftPars, "("⟩, ⟨.Number, n⟩, ⟨.RightPars, ")"⟩, ⟨.Variable, v⟩] ∧
    evalVars A ("(" ++ n ++ ")" ++ v) err vars =
      .ok ⟨A.nan,
        SyntaxError.mk2 ("Redundant values: " ++ A.join [A.parse n, x]) ErrType.Evaluation,
        vars⟩ := by
  have t : tokenize ("(" ++ n ++ ")" ++ v) =
      .ok [⟨.LeftPars, "("⟩, ⟨.Number, n⟩, ⟨.RightPars, ")"⟩, ⟨.Variable, v⟩] := by
    have s1 : Lex .BeginState [] ['('] .OperatorState [⟨.LeftPars, "("⟩] := fun _ _ => rfl
    obtain ⟨sn, hsn, ln⟩ := lex_literal (Or.inr (Or.inr (Or.inl rfl))) [⟨.LeftPars, "("⟩] n hn
    have s2 : Lex sn [⟨.LeftPars, "("⟩, ⟨.Number, n⟩] [')'] .OperatorState
        [⟨.LeftPars, "("⟩, ⟨.Number, n⟩, ⟨.RightPars, ")"⟩] :=
      Lex.one (step_op_after_num hsn _ ')' .RightPars rfl (by decide))
    have lv := lex_name (Or.inr (Or.inr (Or.inl rfl)))
      [⟨.LeftPars, "("⟩, ⟨.Number, n⟩, ⟨.RightPars, ")"⟩] v hv
    exact Lex.finish (by
      simpa [String.data_append] using Lex.trans (Lex.trans (Lex.trans s1 ln) s2) lv)
  refine ⟨t, ?_⟩
  have hp : parse [⟨.LeftPars, "("⟩, ⟨.Number, n⟩, ⟨.RightPars, ")"⟩, ⟨.Variable, v⟩] err =
      ([⟨.Number, n⟩, ⟨.Variable, v⟩], err) := rfl
  have hl : evalLoopVars A "" [⟨.Number, n⟩, ⟨.Variable, v⟩] [] err vars =
      (match vars v with
        | some value => .ok ⟨A.nan, redundantValues A [value, A.parse n], vars⟩
        | Option.none => .ok ⟨A.nan,
            SyntaxError.mk3 ("Unknown variable: [" ++ v ++ "]") ErrType.UnknownToken [v],
            vars⟩) := rfl
  unfold evalVars
  rw [t]
  simp only [hp, evalQueueVars, herr]
  simp [hl, hx, redundantValues]

/-- The tokens of `(2)x` and the error on it with `x` bound to 5. -/
theorem no_mul_after_closing_parenthesis_witness :
    tokenize "(2)x" =
      .ok [⟨.LeftPars, "("⟩, ⟨.Number, "2"⟩, ⟨.RightPars, ")"⟩, ⟨.Variable, "x"⟩] ∧
    evalVars exactArith "(2)x" SyntaxError.none ((noVars exactArith).assign "x" (exactInt 5)) =
      .ok ⟨exactArith.nan,
        SyntaxError.mk2 ("Redundant values: " ++ exactArith.join [exactInt 2, exactInt 5])
          ErrType.Evaluation,
        (noVars exactArith).assign "x" (exactInt 5)⟩ :=
  no_mul_after_closing_parenthesis exactArith "2" "x" (exactInt 5) SyntaxError.none
    ((noVars exactArith).assign "x" (exactInt 5)) (by decide) (by decide) (by decide) rfl

/-! ## Unclosed parentheses -/

theorem parseFlush_open (index : Nat) :
    ∀ (operators : TokenStack) (output : TokenQueue) (err : SyntaxError),
      0 < countLeftPars operators → IsParsingError (parseFlush index operators output err).2
  | [], _, _, h => by simp [countLeftPars] at h
  | top :: operators, output, err, h => by
    unfold parseFlush
    by_cases ht : top.spec = .LeftPars
    · rw [if_pos ht]
      exact ⟨rfl, rfl⟩
    · rw [if_neg ht]
      simp only [countLeftPars, if_neg ht] at h
      exact parseFlush_open index operators _ err h

theorem popWhilePrec_spec (prec : Nat) (hp : 1 ≤ prec) :
    ∀ (operators : TokenStack) (output : TokenQueue),
      countLeftPars (popWhilePrec prec operators output).1 = countLeftPars operators ∧
      ∀ t ∈ (popWhilePrec prec operators output).1, t ∈ operators
  | [], _ => by simp [popWhilePrec]
  | top :: operators, output => by
    unfold popWhilePrec
    by_cases h : getPrecedence top.spec ≥ prec
    · rw [if_pos h]
      have hne : top.spec ≠ .LeftPars := by
        intro e
        rw [e] at h
        simp [getPrecedence] at h
        omega
      obtain ⟨h1, h2⟩ := popWhilePrec_spec prec hp operators (output ++ [top])
      refine ⟨?_, fun t ht => List.mem_cons_of_mem _ (h2 t ht)⟩
      rw [h1]
      simp [countLeftPars, hne]
    · rw [if_neg h]
      exact ⟨rfl, fun t ht => ht⟩

theorem popUntil_leftPars :
    ∀ (operators : TokenStack) (output : TokenQueue) (operators' : TokenStack),
      (popUntil .LeftPars operators output).1 = some operators' →
      0 < countLeftPars operators ∧
      countLeftPars operators'.tail = countLeftPars operators - 1 ∧
      ∀ t ∈ operators', t ∈ operators
  | [], _, _, h => by simp [popUntil] at h
  | top :: operators, output, operators', h => by
    unfold popUntil at h
    by_cases ht : top.spec = .LeftPars
    · simp only [ne_eq, ht, not_true_eq_false, if_false, Option.some.injEq] at h
      subst h
      simp [countLeftPars, ht]
    · simp only [ne_eq, ht, not_false_eq_true, if_true] at h
      obtain ⟨h1, h2, h3⟩ := popUntil_leftPars operators _ operators' h
      refine ⟨?_, ?_, fun t hm => List.mem_cons_of_mem _ (h3 t hm)⟩
      · simpa [countLeftPars, ht] using h1
      · simpa [countLeftPars, ht] using h2

theorem popUntil_top (stop : Spec) :
    ∀ (operators : TokenStack) (output : TokenQueue) (operators' : TokenStack),
      (popUntil stop operators output).1 = some operators' →
      ∃ top rest, operators' = top :: rest ∧ top.spec = stop
  | [], _, _, h => by simp [popUntil] at h
  | top :: operators, output, operators', h => by
    unfold popUntil at h
    by_cases ht : top.spec = stop
    · simp only [ne_eq, ht, not_true_eq_false, if_false, Option.some.injEq] at h
      exact ⟨top, operators, h.symm, ht⟩
    · simp only [ne_eq, ht, not_false_eq_true, if_true] at h
      exact popUntil_top stop operators _ operators' h

theorem popUntil_absent (stop : Spec) :
    ∀ (operators : TokenStack) (output : TokenQueue),
      (∀ t ∈ operators, t.spec ≠ stop) → (popUntil stop operators output).1 = Option.none
  | [], _, _ => rfl
  | top :: operators, output, h => by
    unfold popUntil
    rw [if_pos (h top (List.mem_cons_self _ _))]
    exact popUntil_absent stop operators _ (fun t ht => h t (List.mem_cons_of_mem _ ht))

theorem closeBracket_spec (operators : TokenStack) (output : TokenQueue) :
    countLeftPars (closeBracket operators output).1 = countLeftPars operators.tail ∧
    ∀ t ∈ (closeBracket operators output).1, t ∈ operators := by
  unfold closeBracket
  cases operators with
  | nil => simp
  | cons top rest =>
    cases rest with
    | nil => simp
    | cons next rest =>
      simp only [List.tail_cons]
      by_cases hf : isFunction next.spec = true
      · rw [if_pos hf]
        have hne : next.spec ≠ .LeftPars := by
          intro e
          rw [e] at hf
          exact absurd hf (by decide)
        refine ⟨by simp [countLeftPars, hne], fun t ht => ?_⟩
        exact List.mem_cons_of_mem _ (List.mem_cons_of_mem _ ht)
      · rw [if_neg hf]
        exact ⟨rfl, fun t ht => List.mem_cons_of_mem _ ht⟩

theorem operand_spec (s : Spec)
    (h : s = .Number ∨ s = .Variable ∨ isConstant s = true ∨ isGenerator s = true) :
    s ≠ .LeftPars ∧ s ≠ .RightPars := by
  constructor <;> rintro rfl <;> revert h <;> decide

theorem unaryOp_spec (s : Spec) (h : isUnaryOp s = true) :
    s ≠ .LeftPars ∧ s ≠ .RightPars := by
  constructor <;> rintro rfl <;> revert h <;> decide

theorem function_spec (s : Spec) (h : isFunction s = true) :
    s ≠ .LeftPars ∧ s ≠ .RightPars ∧ s ≠ .LeftArrPars := by
  refine ⟨?_, ?_, ?_⟩ <;> rintro rfl <;> revert h <;> decide

theorem binaryOp_spec (s : Spec) (h : isBinaryOp s = true) :
    s ≠ .LeftPars ∧ s ≠ .RightPars ∧ s ≠ .LeftArrPars ∧ 1 ≤ getPrecedence s := by
  rcases binaryOp_cases s h with rfl | rfl | rfl | rfl | rfl | rfl | rfl <;> decide

/-- With an opening parenthesis left open by the stack and the remaining tokens,
the main loop of `parse` ends with a `Parsing` error. -/
theorem parseLoop_open :
    ∀ (tokens : List Token) (index : Nat) (output : TokenQueue) (operators : TokenStack)
      (err : SyntaxError), (∀ t ∈ operators, t.spec ≠ .LeftArrPars) →
      0 < openPars (countLeftPars operators) tokens →
      IsParsingError (parseLoop tokens index output operators err).2
  | [], index, output, operators, err, _, h => by
    unfold parseLoop
    exact parseFlush_open index operators output err (by simpa [openPars] using h)
  | token :: rest, index, output, operators, err, hna, h => by
    unfold parseLoop
    unfold openPars at h
    by_cases c1 : token.spec = .Number ∨ token.spec = .Variable ∨
        isConstant token.spec = true ∨ isGenerator token.spec = true
    · rw [if_pos c1]
      obtain ⟨n1, n2⟩ := operand_spec _ c1
      rw [if_neg n1, if_neg n2] at h
      exact parseLoop_open rest _ _ _ err hna h
    rw [if_neg c1]
    by_cases c2 : isUnaryOp token.spec = true
    · rw [if_pos c2]
      obtain ⟨n1, n2⟩ := unaryOp_spec _ c2
      rw [if_neg n1, if_neg n2] at h
      exact parseLoop_open rest _ _ _ err hna h
    rw [if_neg c2]
    by_cases c3 : isFunction token.spec = true ∨ token.spec = .LeftPars
    · rw [if_pos c3]
      have hna' : ∀ t ∈ token :: operators, t.spec ≠ .LeftArrPars := by
        intro t ht
        rcases List.mem_cons.mp ht with rfl | ht
        · rcases c3 with hf | hl
          · exact (function_spec _ hf).2.2
          · rw [hl]; decide
        · exact hna t ht
      apply parseLoop_open rest _ _ _ err hna'
      by_cases hl : token.spec = .LeftPars
      · rw [if_pos hl] at h
        simpa [countLeftPars, hl] using h
      · have hf := c3.resolve_right hl
        rw [if_neg hl, if_neg (function_spec _ hf).2.1] at h
        simpa [countLeftPars, hl] using h
    rw [if_neg c3]
    have nl : token.spec ≠ .LeftPars := fun e => c3 (Or.inr e)
    rw [if_neg nl] at h
    by_cases c4 : isBinaryOp token.spec = true
    · rw [if_pos c4]
      obtain ⟨_, n2, n3, hp⟩ := binaryOp_spec _ c4
      rw [if_neg n2] at h
      obtain ⟨h1, h2⟩ := popWhilePrec_spec (getPrecedence token.spec) hp operators output
      rcases hpw : popWhilePrec (getPrecedence token.spec) operators output with ⟨ops', out'⟩
      rw [hpw] at h1 h2
      dsimp only at h1 h2 ⊢
      apply parseLoop_open rest _ _ _ err
      · intro t ht
        rcases List.mem_cons.mp ht with rfl | ht
        · exact n3
        · exact hna t (h2 t ht)
      · simpa [countLeftPars, nl, h1] using h
    rw [if_neg c4]
    by_cases c5 : token.spec = .Comma
    · rw [if_pos c5]
      have n2 : token.spec ≠ .RightPars := by rw [c5]; decide
      rw [if_neg n2] at h
      rcases hpu : popUntil .LeftPars operators output with ⟨res, out'⟩
      cases res with
      | none => exact ⟨rfl, rfl⟩
      | some ops' =>
        dsimp only
        have hres : (popUntil .LeftPars operators output).1 = some ops' := by rw [hpu]
        obtain ⟨h0, h1, h2⟩ := popUntil_leftPars operators output ops' hres
        have hc : countLeftPars ops' = countLeftPars operators := by
          have hk := popUntil_top .LeftPars operators output ops' hres
          obtain ⟨top, tl, rfl, htop⟩ := hk
          simp only [List.tail_cons] at h1
          simp only [countLeftPars, htop, if_true]
          omega
        apply parseLoop_open rest _ _ _ err (fun t ht => hna t (h2 t ht))
        rw [hc]
        exact h
    rw [if_neg c5]
    by_cases c6 : token.spec = .RightPars
    · rw [if_pos c6]
      rw [if_pos c6] at h
      rcases hpu : popUntil .LeftPars operators output with ⟨res, out'⟩
      cases res with
      | none => exact ⟨rfl, rfl⟩
      | some ops' =>
        dsimp only
        have hres : (popUntil .LeftPars operators output).1 = some ops' := by rw [hpu]
        obtain ⟨_, h1, h2⟩ := popUntil_leftPars operators output ops' hres
        obtain ⟨g1, g2⟩ := closeBracket_spec ops' out'
        rcases hcb : closeBracket ops' out' with ⟨ops'', out''⟩
        rw [hcb] at g1 g2
        dsimp only at g1 g2 ⊢
        apply parseLoop_open rest _ _ _ err (fun t ht => hna t (h2 t (g2 t ht)))
        rw [g1, h1]
        exact h
    rw [if_neg c6]
    rw [if_neg c6] at h
    by_cases c7 : token.spec = .RightArrPars
    · rw [if_pos c7]
      have hnone := popUntil_absent .LeftArrPars operators output hna
      rcases hpu : popUntil .LeftArrPars operators output with ⟨res, out'⟩
      rw [hpu] at hnone
      dsimp only at hnone
      subst hnone
      exact ⟨rfl, rfl⟩
    rw [if_neg c7]
    exact parseLoop_open rest _ _ _ err hna h

theorem findUnknown_none :
    ∀ (tokens : List Token) (index : Nat), (∀ t ∈ tokens, t.spec ≠ .Unknown) →
      findUnknown tokens index = Option.none
  | [], _, _ => rfl
  | t :: rest, index, h => by
    unfold findUnknown
    rw [if_neg (h t (List.mem_cons_self _ _))]
    exact findUnknown_none rest _ (fun u hu => h u (List.mem_cons_of_mem _ hu))

/-- C9. Unbalanced opening parenthesis: for every token sequence without
`Unknown` tokens in which some `LeftPars` is left open (never closed by a later
`RightPars`), `parse` reports an error of kind `Parsing`; so on every input with
such a token sequence the evaluator with variables and the evaluator without
variables return NaN with that error and the table unchanged, and the silent
evaluator returns NaN. -/
theorem unbalanced_opening_parenthesis (tokens : TokenContainer)
    (hunk : ∀ t ∈ tokens, t.spec ≠ .Unknown) (hopen : 0 < openPars 0 tokens) :
    (∀ err, IsParsingError (parse tokens err).2) ∧
    ∀ (A : Arith) (input : String) (err : SyntaxError) (vars : VarTable A),
      tokenize input = .ok tokens →
      (∃ e, IsParsingError e ∧ evalVars A input err vars = .ok ⟨A.nan, e, vars⟩ ∧
        evalPlain A input err = .ok (A.nan, e)) ∧
      evalSilent A input = .ok A.nan := by
  have hp : ∀ err, IsParsingError (parse tokens err).2 := by
    intro err
    unfold parse
    rw [findUnknown_none tokens 0 hunk]
    exact parseLoop_open tokens 0 [] [] err (by simp) (by simpa [countLeftPars] using hopen)
  refine ⟨hp, fun A input err vars ht => ⟨⟨(parse tokens err).2, hp err, ?_, ?_⟩, ?_⟩⟩
  · unfold evalVars
    rw [ht]
    simp only [evalQueueVars, (hp err).1, if_true]
  · unfold evalPlain
    rw [ht]
    simp only [(hp err).1, if_true]
  · unfold evalSilent
    rw [ht]
    simp only [(hp SyntaxError.none).1, if_true]

/-- The `Parsing` error on `(2+3`. -/
theorem unbalanced_opening_parenthesis_witness :
    IsParsingError
      (parse [⟨.LeftPars, "("⟩, ⟨.Number, "2"⟩, ⟨.Add, "+"⟩, ⟨.Number, "3"⟩]
        SyntaxError.none).2 ∧
    (∃ e, IsParsingError e ∧
      evalVars exactArith "(2+3" SyntaxError.none (noVars exactArith)
        = .ok ⟨exactArith.nan, e, noVars exactArith⟩ ∧
      evalPlain exactArith "(2+3" SyntaxError.none = .ok (exactArith.nan, e)) ∧
    evalSilent exactArith "(2+3" = .ok exactArith.nan :=
  have h := unbalanced_opening_parenthesis
    [⟨.LeftPars, "("⟩, ⟨.Number, "2"⟩, ⟨.Add, "+"⟩, ⟨.Number, "3"⟩] (by decide) (by decide)
  ⟨h.1 SyntaxError.none,
    h.2 exactArith "(2+3" SyntaxError.none (noVars exactArith) (by decide)⟩

/-- C10. Unbound variable: when the evaluation loop of the evaluator with
variables reaches a `Variable` token whose name is not a key of the table, it
returns NaN with an error of kind `UnknownToken` whose params are the
one-element list holding the name, and the table is unchanged; so for an
unsigned numeric literal `n` and an unbound variable name `v` the text `n + v`
yields that error naming `v`. -/
theorem unbound_variable (A : Arith) (target : String) (token : Token) (rest : TokenQueue)
    (evalStack : List A.D) (err : SyntaxError) (vars : VarTable A) (n v : String)
    (hs : token.spec = .Variable) (hu : vars token.value = Option.none)
    (hn : isUnsignedLiteral n = true) (hv : isPlainName v = true)
    (hvu : vars v = Option.none) (herr : err.isError = false) :
    evalLoopVars A target (token :: rest) evalStack err vars =
      .ok ⟨A.nan,
        SyntaxError.mk3 ("Unknown variable: [" ++ token.value ++ "]") ErrType.UnknownToken
          [token.value],
        vars⟩ ∧
    evalVars A (n ++ " + " ++ v) err vars =
      .ok ⟨A.nan,
        SyntaxError.mk3 ("Unknown variable: [" ++ v ++ "]") ErrType.UnknownToken [v],
        vars⟩ := by
  constructor
  · obtain ⟨spec, value⟩ := token
    simp only at hs hu
    subst hs
    unfold evalLoopVars
    simp only [hu]
    rfl
  · have t : tokenize (n ++ " + " ++ v) =
        .ok [⟨.Number, n⟩, ⟨.Add, "+"⟩, ⟨.Variable, v⟩] := by
      obtain ⟨sn, hsn, ln⟩ := lex_literal (Or.inl rfl) [] n hn
      have s1 := Lex.one (step_blank_after_num hsn [⟨.Number, n⟩])
      have s2 : Lex .ReadState [⟨.Number, n⟩] ['+', ' '] .OperatorState
          [⟨.Number, n⟩, ⟨.Add, "+"⟩] := fun _ _ => rfl
      have lv := lex_name (Or.inr (Or.inr (Or.inl rfl))) [⟨.Number, n⟩, ⟨.Add, "+"⟩] v hv
      exact Lex.finish (by
        simpa [String.data_append] using Lex.trans (Lex.trans (Lex.trans ln s1) s2) lv)
    have hp : parse [⟨.Number, n⟩, ⟨.Add, "+"⟩, ⟨.Variable, v⟩] err =
        ([⟨.Number, n⟩, ⟨.Variable, v⟩, ⟨.Add, "+"⟩], err) := rfl
    have hl : evalLoopVars A "" [⟨.Number, n⟩, ⟨.Variable, v⟩, ⟨.Add, "+"⟩] [] err vars =
        (match vars v with
          | some value => .ok ⟨A.add (A.parse n) value, err, vars⟩
          | Option.none => .ok ⟨A.nan,
              SyntaxError.mk3 ("Unknown variable: [" ++ v ++ "]") ErrType.UnknownToken [v],
              vars⟩) := rfl
    unfold evalVars
    rw [t]
    simp only [hp, evalQueueVars, herr]
    simp [hl, hvu]

/-- The `UnknownToken` error naming `qq` on `2 + qq`. -/
theorem unbound_variable_witness :
    evalLoopVars exactArith "" [⟨.Variable, "qq"⟩, ⟨.Add, "+"⟩] [exactInt 2] SyntaxError.none
        (noVars exactArith) =
      .ok ⟨exactArith.nan,
        SyntaxError.mk3 "Unknown variable: [qq]" ErrType.UnknownToken ["qq"],
        noVars exactArith⟩ ∧
    evalVars exactArith "2 + qq" SyntaxError.none (noVars exactArith) =
      .ok ⟨exactArith.nan,
        SyntaxError.mk3 "Unknown variable: [qq]" ErrType.UnknownToken ["qq"],
        noVars exactArith⟩ :=
  unbound_variable exactArith "" ⟨.Variable, "qq"⟩ [⟨.Add, "+"⟩] [exactInt 2]
    SyntaxError.none (noVars exactArith) "2" "qq" rfl rfl (by decide) (by decide) rfl
    (by decide)

/-! ## Blank input -/

theorem step_blank_begin (ts : TokenContainer) (c : Char) (h : isblank c = true) :
    ∀ capacity, step capacity .BeginState ts c = .ok (.BeginState, ts) := by
  intro capacity
  simp only [isblank, Bool.or_eq_true, decide_eq_true_eq] at h
  rcases h with rfl | rfl <;> rfl

theorem run_blanks (capacity : Nat) (ts : TokenContainer) :
    ∀ cs : List Char, (∀ c ∈ cs, isblank c = true) →
      run capacity .BeginState ts cs = .ok (.BeginState, ts)
  | [], _ => rfl
  | c :: cs, h => by
    simp only [run, step_blank_begin ts c (h c (List.mem_cons_self _ _)) capacity]
    exact run_blanks capacity ts cs (fun d hd => h d (List.mem_cons_of_mem _ hd))

/-- C11. Empty input: for every input made of spaces and tabs only (the empty
input included) `tokenize` returns the empty sequence; the evaluator with
variables and the evaluator without variables, entered without a pending error,
return NaN with an error of kind `Evaluation` and message "Empty expression",
the table unchanged; the silent evaluator returns NaN. -/
theorem empty_input (A : Arith) (input : String) (err : SyntaxError) (vars : VarTable A)
    (hb : ∀ c ∈ input.data, isblank c = true) (herr : err.isError = false) :
    tokenize input = .ok [] ∧
    evalVars A input err vars =
      .ok ⟨A.nan, SyntaxError.mk2 "Empty expression" ErrType.Evaluation, vars⟩ ∧
    evalPlain A input err =
      .ok (A.nan, SyntaxError.mk2 "Empty expression" ErrType.Evaluation) ∧
    evalSilent A input = .ok A.nan := by
  have t : tokenize input = .ok [] := by
    unfold tokenize
    rw [run_blanks input.data.length [] input.data hb]
  have hp : parse [] err = ([], err) := rfl
  refine ⟨t, ?_, ?_, ?_⟩
  · unfold evalVars
    rw [t]
    simp [hp, evalQueueVars, herr]
  · unfold evalPlain
    rw [t]
    simp [hp, herr]
  · unfold evalSilent
    rw [t]
    rfl

/-- The error "Empty expression" on an input of two spaces around a tab. -/
theorem empty_input_witness :
    tokenize " \t " = .ok [] ∧
    evalVars exactArith " \t " SyntaxError.none (noVars exactArith) =
      .ok ⟨exactArith.nan, SyntaxError.mk2 "Empty expression" ErrType.Evaluation,
        noVars exactArith⟩ ∧
    evalPlain exactArith " \t " SyntaxError.none =
      .ok (exactArith.nan, SyntaxError.mk2 "Empty expression" ErrType.Evaluation) ∧
    evalSilent exactArith " \t " = .ok exactArith.nan :=
  empty_input exactArith " \t " SyntaxError.none (noVars exactArith) (by decide) (by decide)

/-! ## Numbers separated by blanks -/

/-- C12, the claim as stated fails: on `2 + 3 4` the silent evaluator does not
return 14. -/
theorem blank_separated_numbers_counterexample :
    evalSilent exactArith "2 + 3 4" ≠ .ok (exactInt 14) := by
  decide

/-- C12, amended: numbers separated only by blanks stay two `Number` tokens
with no `Mul` token between them: for unsigned numeric literals `a`, `b`, `c`
the text `a + b c` is the tokens `a`, `Add`, `b`, `c`, its postfix sequence is
`a b c +`, the silent evaluator returns NaN and the evaluator without variables
reports an `Evaluation` error "Redundant values". -/
theorem blank_separated_numbers (A : Arith) (a b c : String) (err : SyntaxError)
    (ha : isUnsignedLiteral a = true) (hb : isUnsignedLiteral b = true)
    (hc : isUnsignedLiteral c = true) (herr : err.isError = false) :
    tokenize (a ++ " + " ++ b ++ " " ++ c) =
      .ok [⟨.Number, a⟩, ⟨.Add, "+"⟩, ⟨.Number, b⟩, ⟨.Number, c⟩] ∧
    parse [⟨.Number, a⟩, ⟨.Add, "+"⟩, ⟨.Number, b⟩, ⟨.Number, c⟩] err =
      ([⟨.Number, a⟩, ⟨.Number, b⟩, ⟨.Number, c⟩, ⟨.Add, "+"⟩], err) ∧
    evalSilent A (a ++ " + " ++ b ++ " " ++ c) = .ok A.nan ∧
    evalPlain A (a ++ " + " ++ b ++ " " ++ c) err =
      .ok (A.nan,
        SyntaxError.mk2
          ("Redundant values: " ++ A.join [A.parse a, A.add (A.parse b) (A.parse c)])
          ErrType.Evaluation) := by
  have t : tokenize (a ++ " + " ++ b ++ " " ++ c) =
      .ok [⟨.Number, a⟩, ⟨.Add, "+"⟩, ⟨.Number, b⟩, ⟨.Number, c⟩] := by
    obtain ⟨sa, hsa, la⟩ := lex_literal (Or.inl rfl) [] a ha
    have s1 := Lex.one (step_blank_after_num hsa [⟨.Number, a⟩])
    have s2 : Lex .ReadState [⟨.Number, a⟩] ['+', ' '] .OperatorState
        [⟨.Number, a⟩, ⟨.Add, "+"⟩] := fun _ _ => rfl
    obtain ⟨sb, hsb, lb⟩ := lex_literal (Or.inr (Or.inr (Or.inl rfl)))
      [⟨.Number, a⟩, ⟨.Add, "+"⟩] b hb
    have s3 := Lex.one (step_blank_after_num hsb
      ([⟨.Number, a⟩, ⟨.Add, "+"⟩] ++ [⟨.Number, b⟩]))
    obtain ⟨sc, _, lc⟩ := lex_literal (Or.inr (Or.inl rfl))
      ([⟨.Number, a⟩, ⟨.Add, "+"⟩] ++ [⟨.Number, b⟩]) c hc
    have all := Lex.trans (Lex.trans (Lex.trans (Lex.trans (Lex.trans la s1) s2) lb) s3) lc
    exact Lex.finish (by simpa [String.data_append] using all)
  have hp : parse [⟨.Number, a⟩, ⟨.Add, "+"⟩, ⟨.Number, b⟩, ⟨.Number, c⟩] err =
      ([⟨.Number, a⟩, ⟨.Number, b⟩, ⟨.Number, c⟩, ⟨.Add, "+"⟩], err) := rfl
  refine ⟨t, hp, ?_, ?_⟩
  · unfold evalSilent
    rw [t]
    rfl
  · unfold evalPlain
    rw [t]
    simp only [hp, herr]
    rfl

/-- The tokens of `2 + 3 4` and the failure of both evaluators on it. -/
theorem blank_separated_numbers_witness :
    tokenize "2 + 3 4" =
      .ok [⟨.Number, "2"⟩, ⟨.Add, "+"⟩, ⟨.Number, "3"⟩, ⟨.Number, "4"⟩] ∧
    parse [⟨.Number, "2"⟩, ⟨.Add, "+"⟩, ⟨.Number, "3"⟩, ⟨.Number, "4"⟩] SyntaxError.none =
      ([⟨.Number, "2"⟩, ⟨.Number, "3"⟩, ⟨.Number, "4"⟩, ⟨.Add, "+"⟩], SyntaxError.none) ∧
    evalSilent exactArith "2 + 3 4" = .ok exactArith.nan ∧
    evalPlain exactArith "2 + 3 4" SyntaxError.none =
      .ok (exactArith.nan,
        SyntaxError.mk2 ("Redundant values: " ++ exactArith.join [exactInt 2, exactInt 7])
          ErrType.Evaluation) :=
  blank_separated_numbers exactArith "2" "3" "4" SyntaxError.none (by decide) (by decide)
    (by decide) (by decide)

/-! ## End of the evaluation loop -/

theorem redundant_message (s : String) :
    "Redundant values: " ++ s = "Redundant values" ++ (": " ++ s) := by
  rw [← String.append_assoc]
  rfl

/-- C13. Redundant values: when the evaluation loop of the evaluator with
variables or of the evaluator without variables has consumed the queue and more
than one value is left on the stack, the result is NaN with an error of kind
`Evaluation` whose message begins "Redundant values" (table unchanged); when
exactly one value is left it is returned with `err` as it was, holding no
error.  So for unsigned numeric literals `a`, `b` the text `a b` yields the
error in both evaluators. -/
theorem redundant_values (A : Arith) (target : String) (evalStack : List A.D) (x : A.D)
    (err : SyntaxError) (vars : VarTable A) (a b : String)
    (hlen : 1 < evalStack.length) (ha : isUnsignedLiteral a = true)
    (hb : isUnsignedLiteral b = true) (herr : err.isError = false) :
    (∃ tail,
      evalLoopVars A target [] evalStack err vars =
        .ok ⟨A.nan, SyntaxError.mk2 ("Redundant values" ++ tail) ErrType.Evaluation, vars⟩ ∧
      evalLoopPlain A [] evalStack err =
        .ok (A.nan, SyntaxError.mk2 ("Redundant values" ++ tail) ErrType.Evaluation)) ∧
    evalLoopVars A target [] [x] err vars = .ok ⟨x, err, vars⟩ ∧
    evalLoopPlain A [] [x] err = .ok (x, err) ∧
    (∃ tail,
      evalVars A (a ++ " " ++ b) err vars =
        .ok ⟨A.nan, SyntaxError.mk2 ("Redundant values" ++ tail) ErrType.Evaluation, vars⟩ ∧
      evalPlain A (a ++ " " ++ b) err =
        .ok (A.nan, SyntaxError.mk2 ("Redundant values" ++ tail) ErrType.Evaluation)) := by
  refine ⟨⟨": " ++ A.join evalStack.reverse, ?_, ?_⟩, rfl, rfl,
    ⟨": " ++ A.join [A.parse a, A.parse b], ?_, ?_⟩⟩
  · unfold evalLoopVars
    rw [if_pos (by simpa using hlen), redundantValues, redundant_message]
  · unfold evalLoopPlain
    rw [if_pos (by simpa using hlen), redundantValues, redundant_message]
  all_goals
    have t : tokenize (a ++ " " ++ b) = .ok [⟨.Number, a⟩, ⟨.Number, b⟩] := by
      obtain ⟨sa, hsa, la⟩ := lex_literal (Or.inl rfl) [] a ha
      have s1 := Lex.one (step_blank_after_num hsa [⟨.Number, a⟩])
      obtain ⟨sb, _, lb⟩ := lex_literal (Or.inr (Or.inl rfl)) [⟨.Number, a⟩] b hb
      exact Lex.finish (by
        simpa [String.data_append] using Lex.trans (Lex.trans la s1) lb)
    have hp : parse [⟨.Number, a⟩, ⟨.Number, b⟩] err =
        ([⟨.Number, a⟩, ⟨.Number, b⟩], err) := rfl
  · unfold evalVars
    rw [t]
    simp only [hp, evalQueueVars, herr]
    rw [← redundant_message]
    rfl
  · unfold evalPlain
    rw [t]
    simp only [hp, herr]
    rw [← redundant_message]
    rfl

/-- The error "Redundant values" on `2 3`, and the value of a stack of one. -/
theorem redundant_values_witness :
    (∃ tail,
      evalLoopVars exactArith "" [] [exactInt 3, exactInt 2] SyntaxError.none
          (noVars exactArith) =
        .ok ⟨exactArith.nan,
          SyntaxError.mk2 ("Redundant values" ++ tail) ErrType.Evaluation,
          noVars exactArith⟩ ∧
      evalLoopPlain exactArith [] [exactInt 3, exactInt 2] SyntaxError.none =
        .ok (exactArith.nan, SyntaxError.mk2 ("Redundant values" ++ tail) ErrType.Evaluation)) ∧
    evalLoopVars exactArith "" [] [exactInt 7] SyntaxError.none (noVars exactArith) =
      .ok ⟨exactInt 7, SyntaxError.none, noVars exactArith⟩ ∧
    evalLoopPlain exactArith [] [exactInt 7] SyntaxError.none =
      .ok (exactInt 7, SyntaxError.none) ∧
    (∃ tail,
      evalVars exactArith "2 3" SyntaxError.none (noVars exactArith) =
        .ok ⟨exactArith.nan,
          SyntaxError.mk2 ("Redundant values" ++ tail) ErrType.Evaluation,
          noVars exactArith⟩ ∧
      evalPlain exactArith "2 3" SyntaxError.none =
        .ok (exactArith.nan, SyntaxError.mk2 ("Redundant values" ++ tail) ErrType.Evaluation)) :=
  redundant_values exactArith "" [exactInt 3, exactInt 2] (exactInt 7) SyntaxError.none
    (noVars exactArith) "2" "3" (by decide) (by decide) (by decide) (by decide)

/-! ## Square brackets -/

/-- C14. Square brackets: `parse` never pushes `LeftArrPars`, so on `[2+3]` the
closing bracket empties the operator stack without finding it and `parse`
reports `Mismatched parenthesis` at index 4; the silent evaluator returns NaN,
while `(2+3)` evaluates to 5. -/
theorem square_brackets_rejected :
    tokenize "[2+3]" =
      .ok [⟨.LeftArrPars, "["⟩, ⟨.Number, "2"⟩, ⟨.Add, "+"⟩, ⟨.Number, "3"⟩,
        ⟨.RightArrPars, "]"⟩] ∧
    parse [⟨.LeftArrPars, "["⟩, ⟨.Number, "2"⟩, ⟨.Add, "+"⟩, ⟨.Number, "3"⟩,
        ⟨.RightArrPars, "]"⟩] SyntaxError.none =
      ([⟨.Number, "2"⟩, ⟨.Number, "3"⟩, ⟨.Add, "+"⟩],
        SyntaxError.mk2 "Mismatched parenthesis (:4)" ErrType.Parsing) ∧
    evalSilent exactArith "[2+3]" = .ok exactArith.nan ∧
    evalPlain exactArith "[2+3]" SyntaxError.none =
      .ok (exactArith.nan, SyntaxError.mk2 "Mismatched parenthesis (:4)" ErrType.Parsing) ∧
    evalSilent exactArith "(2+3)" = .ok (exactInt 5) := by
  decide

/-- C15. Unclosed square bracket: `parse` skips the `LeftArrPars` token, so on
`[2+3` it returns the postfix sequence `2 3 +` with no error and the evaluators
return 5. -/
theorem unclosed_square_bracket_accepted :
    tokenize "[2+3" =
      .ok [⟨.LeftArrPars, "["⟩, ⟨.Number, "2"⟩, ⟨.Add, "+"⟩, ⟨.Number, "3"⟩] ∧
    parse [⟨.LeftArrPars, "["⟩, ⟨.Number, "2"⟩, ⟨.Add, "+"⟩, ⟨.Number, "3"⟩]
        SyntaxError.none =
      ([⟨.Number, "2"⟩, ⟨.Number, "3"⟩, ⟨.Add, "+"⟩], SyntaxError.none) ∧
    evalSilent exactArith "[2+3" = .ok (exactInt 5) ∧
    evalPlain exactArith "[2+3" SyntaxError.none = .ok (exactInt 5, SyntaxError.none) ∧
    evalSilent exactArith "(2+3" = .ok exactArith.nan := by
  decide

/-! ## The pre-check of `parse` -/

theorem findUnknown_split :
    ∀ (tokens : List Token) (index : Nat), (∃ t ∈ tokens, t.spec = .Unknown) →
      ∃ pre t post, tokens = pre ++ t :: post ∧ (∀ u ∈ pre, u.spec ≠ .Unknown) ∧
        t.spec = .Unknown ∧ findUnknown tokens index = some (t, index + pre.length)
  | [], _, h => by simp at h
  | t :: rest, index, h => by
    by_cases ht : t.spec = .Unknown
    · exact ⟨[], t, rest, rfl, by simp, ht, by simp [findUnknown, ht]⟩
    · have h' : ∃ u ∈ rest, u.spec = .Unknown := by
        obtain ⟨u, hu, hs⟩ := h
        rcases List.mem_cons.mp hu with rfl | hu
        · exact absurd hs ht
        · exact ⟨u, hu, hs⟩
      obtain ⟨pre, u, post, e, hpre, hu, hf⟩ := findUnknown_split rest (index + 1) h'
      refine ⟨t :: pre, u, post, by rw [e]; rfl, ?_, hu, ?_⟩
      · intro w hw
        rcases List.mem_cons.mp hw with rfl | hw
        · exact ht
        · exact hpre w hw
      · unfold findUnknown
        rw [if_neg ht, hf, List.length_cons]
        congr 2
        omega

/-- C16. Unknown-token pre-check: on a token sequence holding an `Unknown`
token `parse` returns the empty output and an error of kind `UnknownToken`
whose params are the one-element list with the text of the first `Unknown`
token and whose message gives that text and the 0-based index of that token. -/
theorem unknown_token_precheck (tokens : TokenContainer) (err : SyntaxError)
    (h : ∃ t ∈ tokens, t.spec = .Unknown) :
    ∃ pre t post, tokens = pre ++ t :: post ∧ (∀ u ∈ pre, u.spec ≠ .Unknown) ∧
      t.spec = .Unknown ∧
      parse tokens err =
        ([], SyntaxError.mk3
          ("Unknown symbol: [" ++ t.value ++ "] (:" ++ toString pre.length ++ ")")
          ErrType.UnknownToken [t.value]) := by
  obtain ⟨pre, t, post, e, hpre, ht, hf⟩ := findUnknown_split tokens 0 h
  refine ⟨pre, t, post, e, hpre, ht, ?_⟩
  unfold parse
  rw [hf, Nat.zero_add]

/-- The pre-check on the tokens of `2 # 3 $`: the first `Unknown` token is at index 1. -/
theorem unknown_token_precheck_witness :
    ∃ (pre : List Token) (t : Token) (post : List Token),
      [⟨.Number, "2"⟩, ⟨.Unknown, "#"⟩, ⟨.Number, "3"⟩, ⟨.Unknown, "$"⟩] = pre ++ t :: post ∧
      (∀ u ∈ pre, u.spec ≠ .Unknown) ∧ t.spec = .Unknown ∧
      parse [⟨.Number, "2"⟩, ⟨.Unknown, "#"⟩, ⟨.Number, "3"⟩, ⟨.Unknown, "$"⟩]
          SyntaxError.none =
        ([], SyntaxError.mk3
          ("Unknown symbol: [" ++ t.value ++ "] (:" ++ toString pre.length ++ ")")
          ErrType.UnknownToken [t.value]) :=
  unknown_token_precheck [⟨.Number, "2"⟩, ⟨.Unknown, "#"⟩, ⟨.Number, "3"⟩, ⟨.Unknown, "$"⟩]
    SyntaxError.none ⟨⟨.Unknown, "#"⟩, by decide, rfl⟩

/-! ## A literal alone -/

/-- C18. Numeric literal identity: for every unsigned numeric literal `n` (a
non-empty digit string, optionally followed by a dot and further digits, or a
dot followed by digits) `tokenize` returns the single token `Number n`, `parse`
returns that token unchanged, and the silent evaluator returns the value
`my::parse<double>` gives to `n`. -/
theorem literal_identity (A : Arith) (n : String) (err : SyntaxError)
    (hn : isUnsignedLiteral n = true) :
    tokenize n = .ok [⟨.Number, n⟩] ∧
    parse [⟨.Number, n⟩] err = ([⟨.Number, n⟩], err) ∧
    evalSilent A n = .ok (A.parse n) := by
  obtain ⟨sn, _, ln⟩ := lex_literal (Or.inl rfl) [] n hn
  have t : tokenize n = .ok [⟨.Number, n⟩] := Lex.finish (by simpa using ln)
  refine ⟨t, rfl, ?_⟩
  unfold evalSilent
  rw [t]
  rfl

/-- The literal `3.14` is one token and evaluates to 157/50. -/
theorem literal_identity_witness :
    tokenize "3.14" = .ok [⟨.Number, "3.14"⟩] ∧
    parse [⟨.Number, "3.14"⟩] SyntaxError.none = ([⟨.Number, "3.14"⟩], SyntaxError.none) ∧
    evalSilent exactArith "3.14" = .ok (some ⟨157, 50⟩) :=
  literal_identity exactArith "3.14" SyntaxError.none (by decide)

/-! ## Reads of the last token -/

/-- C20. The lexer reads the last token of an empty token list: a leading `+`
moves `BeginState` to `OperatorState` without pushing a token, and an operator
character `-`, `+`, `*`, `(` right after it makes `OperatorState` compare
`last.spec`; so `tokenize` has no defined result on `+-5` and `+(`. -/
theorem lexer_reads_empty_token_list :
    (∀ capacity : Nat, step capacity .BeginState [] '+' = .ok (.OperatorState, [])) ∧
    (∀ capacity : Nat, step capacity .OperatorState [] '-' = .emptyBack) ∧
    (∀ capacity : Nat, step capacity .OperatorState [] '(' = .emptyBack) ∧
    tokenize "+-5" = .emptyBack ∧
    tokenize "+(" = .emptyBack ∧
    tokenize "+*2" = .emptyBack ∧
    tokenize "++1" = .emptyBack :=
  ⟨fun _ => rfl, fun _ => rfl, fun _ => rfl, by decide, by decide, by decide, by decide⟩

/-! ## What `parse` pops -/

/-- The binary-operator loop moves a top segment of the stack to the output. -/
theorem popWhilePrec_split (prec : Nat) :
    ∀ (operators : TokenStack) (output : TokenQueue),
      ∃ popped, (popWhilePrec prec operators output).2 = output ++ popped ∧
        operators = popped ++ (popWhilePrec prec operators output).1
  | [], output => ⟨[], by simp [popWhilePrec]⟩
  | top :: operators, output => by
    unfold popWhilePrec
    by_cases h : getPrecedence top.spec ≥ prec
    · rw [if_pos h]
      obtain ⟨popped, h1, h2⟩ := popWhilePrec_split prec operators (output ++ [top])
      refine ⟨top :: popped, ?_, ?_⟩
      · rw [h1]; simp
      · rw [List.cons_append, ← h2]
    · rw [if_neg h]
      exact ⟨[], by simp⟩

/-- The closing loops move a top segment of the stack to the output. -/
theorem popUntil_split (stop : Spec) :
    ∀ (operators : TokenStack) (output : TokenQueue),
      ∃ popped, (popUntil stop operators output).2 = output ++ popped ∧
        (∀ t ∈ popped, t.spec ≠ stop) ∧
        ((popUntil stop operators output).1 = Option.none ∧ operators = popped ∨
          ∃ top rest, (popUntil stop operators output).1 = some (top :: rest) ∧
            top.spec = stop ∧ operators = popped ++ top :: rest)
  | [], output => ⟨[], by simp [popUntil]⟩
  | top :: operators, output => by
    unfold popUntil
    by_cases h : top.spec ≠ stop
    · rw [if_pos h]
      obtain ⟨popped, h1, h2, h3⟩ := popUntil_split stop operators (output ++ [top])
      refine ⟨top :: popped, ?_, ?_, ?_⟩
      · rw [h1]; simp
      · intro t ht
        rcases List.mem_cons.mp ht with rfl | ht
        · exact h
        · exact h2 t ht
      · rcases h3 with ⟨h4, h5⟩ | ⟨t, r, h4, h5, h6⟩
        · exact Or.inl ⟨h4, by rw [h5]⟩
        · exact Or.inr ⟨t, r, h4, h5, by rw [h6]; rfl⟩
    · rw [if_neg h]
      exact ⟨[], by simp, by simp, Or.inr ⟨top, operators, rfl, not_not.mp h, rfl⟩⟩

/-- What `closeBracket` does to a stack with the bracket on top. -/
theorem closeBracket_cons (top : Token) (rest : TokenStack) (output : TokenQueue) :
    closeBracket (top :: rest) output = (rest, output) ∨
      ∃ f rest', rest = f :: rest' ∧ isFunction f.spec = true ∧
        closeBracket (top :: rest) output = (rest', output ++ [f]) := by
  unfold closeBracket
  cases rest with
  | nil => exact Or.inl rfl
  | cons f rest' =>
    simp only [List.tail_cons]
    by_cases hf : isFunction f.spec = true
    · rw [if_pos hf]
      exact Or.inr ⟨f, rest', rfl, hf, rfl⟩
    · rw [if_neg hf]
      exact Or.inl rfl

/-- The final loop either reports an error or moves the whole stack to the output. -/
theorem parseFlush_split (index : Nat) :
    ∀ (operators : TokenStack) (output : TokenQueue),
      (∃ q, ∀ err, parseFlush index operators output err = (q, mismatchedParenthesis index)) ∨
        ((∀ t ∈ operators, t.spec ≠ .LeftPars) ∧
          ∀ err, parseFlush index operators output err = (output ++ operators, err))
  | [], output => Or.inr ⟨by simp, fun err => by simp [parseFlush]⟩
  | top :: operators, output => by
    by_cases h : top.spec = .LeftPars
    · exact Or.inl ⟨output, fun err => by simp [parseFlush, h]⟩
    · rcases parseFlush_split index operators (output ++ [top]) with ⟨q, hq⟩ | ⟨h1, h2⟩
      · exact Or.inl ⟨q, fun err => by simp [parseFlush, h, hq]⟩
      · refine Or.inr ⟨?_, fun err => by simp [parseFlush, h, h2]⟩
        intro t ht
        rcases List.mem_cons.mp ht with rfl | ht
        · exact h
        · exact h1 t ht

/-- Every token of the output of the final loop comes from the output so far or
from the stack. -/
theorem parseFlush_mem (index : Nat) :
    ∀ (operators : TokenStack) (output : TokenQueue) (q : TokenQueue) {err e : SyntaxError},
      parseFlush index operators output err = (q, e) →
      ∀ t ∈ q, t ∈ output ∨ t ∈ operators
  | [], output, q, _, _, h => by
    simp only [parseFlush, Prod.mk.injEq] at h
    intro t ht
    exact Or.inl (h.1 ▸ ht)
  | top :: operators, output, q, err, e, h => by
    unfold parseFlush at h
    by_cases c : top.spec = .LeftPars
    · rw [if_pos c] at h
      simp only [Prod.mk.injEq] at h
      intro t ht
      exact Or.inl (h.1 ▸ ht)
    · rw [if_neg c] at h
      intro t ht
      rcases parseFlush_mem index operators (output ++ [top]) q h t ht with h1 | h1
      · rcases List.mem_append.mp h1 with h2 | h2
        · exact Or.inl h2
        · exact Or.inr (List.mem_singleton.mp h2 ▸ List.mem_cons_self _ _)
      · exact Or.inr (List.mem_cons_of_mem _ h1)

/-- The result of the main loop of `parse` does not depend on `err`, which is
returned as it came unless an error is raised; and every token of the output
comes from the output so far, the stack or the tokens. -/
theorem parseLoop_result :
    ∀ (tokens : List Token) (index : Nat) (output : TokenQueue) (operators : TokenStack),
      ∃ q, (∀ t ∈ q, t ∈ output ∨ t ∈ operators ∨ t ∈ tokens) ∧
        ((∀ err, parseLoop tokens index output operators err = (q, err)) ∨
          ∃ e, e.isError = true ∧ ∀ err, parseLoop tokens index output operators err = (q, e))
  | [], index, output, operators => by
    rcases parseFlush_split index operators output with ⟨q, hq⟩ | ⟨_, h2⟩
    · have hm := parseFlush_mem index operators output q (hq SyntaxError.none)
      exact ⟨q, fun t ht => (hm t ht).elim Or.inl (fun h => Or.inr (Or.inl h)),
        Or.inr ⟨mismatchedParenthesis index, rfl, fun err => by simp [parseLoop, hq]⟩⟩
    · refine ⟨output ++ operators, fun t ht => ?_, Or.inl (fun err => by simp [parseLoop, h2])⟩
      rcases List.mem_append.mp ht with h | h
      · exact Or.inl h
      · exact Or.inr (Or.inl h)
  | token :: rest, index, output, operators => by
    have lift : ∀ (out' : TokenQueue) (ops' : TokenStack),
        (∀ t ∈ out', t ∈ output ∨ t ∈ operators ∨ t = token) →
        (∀ t ∈ ops', t ∈ operators ∨ t = token) →
        (∀ err, parseLoop (token :: rest) index output operators err =
          parseLoop rest (index + 1) out' ops' err) →
        ∃ q, (∀ t ∈ q, t ∈ output ∨ t ∈ operators ∨ t ∈ token :: rest) ∧
          ((∀ err, parseLoop (token :: rest) index output operators err = (q, err)) ∨
            ∃ e, e.isError = true ∧
              ∀ err, parseLoop (token :: rest) index output operators err = (q, e)) := by
      intro out' ops' ho hs he
      obtain ⟨q, hm, hr⟩ := parseLoop_result rest (index + 1) out' ops'
      refine ⟨q, fun t ht => ?_, ?_⟩
      · rcases hm t ht with h | h | h
        · rcases ho t h with h | h | h
          · exact Or.inl h
          · exact Or.inr (Or.inl h)
          · exact Or.inr (Or.inr (h ▸ List.mem_cons_self _ _))
        · rcases hs t h with h | h
          · exact Or.inr (Or.inl h)
          · exact Or.inr (Or.inr (h ▸ List.mem_cons_self _ _))
        · exact Or.inr (Or.inr (List.mem_cons_of_mem _ h))
      · rcases hr with h | ⟨e, he1, he2⟩
        · exact Or.inl (fun err => by rw [he, h])
        · exact Or.inr ⟨e, he1, fun err => by rw [he, he2]⟩
    have fail : ∀ (q : TokenQueue) (e : SyntaxError), e.isError = true →
        (∀ t ∈ q, t ∈ output ∨ t ∈ operators) →
        (∀ err, parseLoop (token :: rest) index output operators err = (q, e)) →
        ∃ q, (∀ t ∈ q, t ∈ output ∨ t ∈ operators ∨ t ∈ token :: rest) ∧
          ((∀ err, parseLoop (token :: rest) index output operators err = (q, err)) ∨
            ∃ e, e.isError = true ∧
              ∀ err, parseLoop (token :: rest) index output operators err = (q, e)) := by
      intro q e he hm hr
      exact ⟨q, fun t ht => (hm t ht).elim Or.inl (fun h => Or.inr (Or.inl h)),
        Or.inr ⟨e, he, hr⟩⟩
    by_cases c1 : token.spec = .Number ∨ token.spec = .Variable ∨
        isConstant token.spec = true ∨ isGenerator token.spec = true
    · apply lift (output ++ [token]) operators
      · intro t ht
        rcases List.mem_append.mp ht with h | h
        · exact Or.inl h
        · exact Or.inr (Or.inr (List.mem_singleton.mp h))
      · exact fun t ht => Or.inl ht
      · intro err
        rw [parseLoop, if_pos c1]
    by_cases c2 : isUnaryOp token.spec = true
    · apply lift (output ++ [token]) operators
      · intro t ht
        rcases List.mem_append.mp ht with h | h
        · exact Or.inl h
        · exact Or.inr (Or.inr (List.mem_singleton.mp h))
      · exact fun t ht => Or.inl ht
      · intro err
        rw [parseLoop, if_neg c1, if_pos c2]
    by_cases c3 : isFunction token.spec = true ∨ token.spec = .LeftPars
    · apply lift output (token :: operators)
      · exact fun t ht => Or.inl ht
      · intro t ht
        rcases List.mem_cons.mp ht with h | h
        · exact Or.inr h
        · exact Or.inl h
      · intro err
        rw [parseLoop, if_neg c1, if_neg c2, if_pos c3]
    by_cases c4 : isBinaryOp token.spec = true
    · obtain ⟨popped, h1, h2⟩ := popWhilePrec_split (getPrecedence token.spec) operators output
      rcases hpw : popWhilePrec (getPrecedence token.spec) operators output with ⟨ops', out'⟩
      rw [hpw] at h1 h2
      dsimp only at h1 h2
      apply lift out' (token :: ops')
      · intro t ht
        rw [h1] at ht
        rcases List.mem_append.mp ht with h | h
        · exact Or.inl h
        · exact Or.inr (Or.inl (h2 ▸ List.mem_append_left _ h))
      · intro t ht
        rcases List.mem_cons.mp ht with h | h
        · exact Or.inr h
        · exact Or.inl (h2 ▸ List.mem_append_right _ h)
      · intro err
        rw [parseLoop, if_neg c1, if_neg c2, if_neg c3, if_pos c4, hpw]
    by_cases c5 : token.spec = .Comma
    · obtain ⟨popped, h1, _, h3⟩ := popUntil_split .LeftPars operators output
      rcases hpu : popUntil .LeftPars operators output with ⟨res, out'⟩
      rw [hpu] at h1 h3
      dsimp only at h1 h3
      have hout : ∀ t ∈ out', t ∈ output ∨ t ∈ operators := by
        intro t ht
        rw [h1] at ht
        rcases List.mem_append.mp ht with h | h
        · exact Or.inl h
        · rcases h3 with ⟨_, h5⟩ | ⟨_, _, _, _, h6⟩
          · exact Or.inr (h5 ▸ h)
          · exact Or.inr (h6 ▸ List.mem_append_left _ h)
      rcases h3 with ⟨h4, _⟩ | ⟨top, r, h4, _, h6⟩
      · subst h4
        apply fail out' (mismatchedSeparators index) rfl hout
        intro err
        rw [parseLoop, if_neg c1, if_neg c2, if_neg c3, if_neg c4, if_pos c5, hpu]
      · subst h4
        apply lift out' (top :: r)
        · exact fun t ht => (hout t ht).elim Or.inl (fun h => Or.inr (Or.inl h))
        · exact fun t ht => Or.inl (h6 ▸ List.mem_append_right _ ht)
        · intro err
          rw [parseLoop, if_neg c1, if_neg c2, if_neg c3, if_neg c4, if_pos c5, hpu]
    have closing : ∀ stop : Spec,
        (∀ err, parseLoop (token :: rest) index output operators err =
          match popUntil stop operators output with
          | (Option.none, output') => (output', mismatchedParenthesis index)
          | (some operators', output') =>
            match closeBracket operators' output' with
            | (operators'', output'') => parseLoop rest (index + 1) output'' operators'' err) →
        ∃ q, (∀ t ∈ q, t ∈ output ∨ t ∈ operators ∨ t ∈ token :: rest) ∧
          ((∀ err, parseLoop (token :: rest) index output operators err = (q, err)) ∨
            ∃ e, e.isError = true ∧
              ∀ err, parseLoop (token :: rest) index output operators err = (q, e)) := by
      intro stop hdef
      obtain ⟨popped, h1, _, h3⟩ := popUntil_split stop operators output
      rcases hpu : popUntil stop operators output with ⟨res, out'⟩
      rw [hpu] at h1 h3
      dsimp only at h1 h3
      have hout : ∀ t ∈ out', t ∈ output ∨ t ∈ operators := by
        intro t ht
        rw [h1] at ht
        rcases List.mem_append.mp ht with h | h
        · exact Or.inl h
        · rcases h3 with ⟨_, h5⟩ | ⟨_, _, _, _, h6⟩
          · exact Or.inr (h5 ▸ h)
          · exact Or.inr (h6 ▸ List.mem_append_left _ h)
      rcases h3 with ⟨h4, _⟩ | ⟨top, r, h4, _, h6⟩
      · subst h4
        apply fail out' (mismatchedParenthesis index) rfl hout
        intro err
        rw [hdef, hpu]
      · subst h4
        have hr : ∀ t ∈ r, t ∈ operators :=
          fun t ht => h6 ▸ List.mem_append_right _ (List.mem_cons_of_mem _ ht)
        rcases closeBracket_cons top r out' with hcb | ⟨f, r', hf1, _, hcb⟩
        · apply lift out' r
          · exact fun t ht => (hout t ht).elim Or.inl (fun h => Or.inr (Or.inl h))
          · exact fun t ht => Or.inl (hr t ht)
          · intro err
            rw [hdef, hpu]
            simp only [hcb]
        · apply lift (out' ++ [f]) r'
          · intro t ht
            rcases List.mem_append.mp ht with h | h
            · exact (hout t h).elim Or.inl (fun h => Or.inr (Or.inl h))
            · rw [List.mem_singleton.mp h]
              exact Or.inr (Or.inl (hr f (hf1 ▸ List.mem_cons_self _ _)))
          · exact fun t ht => Or.inl (hr t (hf1 ▸ List.mem_cons_of_mem _ ht))
          · intro err
            rw [hdef, hpu]
            simp only [hcb]
    by_cases c6 : token.spec = .RightPars
    · apply closing .LeftPars
      intro err
      rw [parseLoop, if_neg c1, if_neg c2, if_neg c3, if_neg c4, if_neg c5, if_pos c6]
    by_cases c7 : token.spec = .RightArrPars
    · apply closing .LeftArrPars
      intro err
      rw [parseLoop, if_neg c1, if_neg c2, if_neg c3, if_neg c4, if_neg c5, if_neg c6,
        if_pos c7]
    · apply lift output operators
      · exact fun t ht => Or.inl ht
      · exact fun t ht => Or.inl ht
      · intro err
        rw [parseLoop, if_neg c1, if_neg c2, if_neg c3, if_neg c4, if_neg c5, if_neg c6,
          if_neg c7]

/-- The result of `parse` does not depend on `err`, which is returned as it came
unless an error is raised; and every token of the output is one of the tokens. -/
theorem parse_result (tokens : TokenContainer) :
    ∃ q, (∀ t ∈ q, t ∈ tokens) ∧
      ((∀ err, parse tokens err = (q, err)) ∨
        ∃ e, e.isError = true ∧ ∀ err, parse tokens err = (q, e)) := by
  unfold parse
  cases hf : findUnknown tokens 0 with
  | some p =>
    exact ⟨[], by simp, Or.inr ⟨SyntaxError.mk3
      ("Unknown symbol: [" ++ p.1.value ++ "] (:" ++ toString p.2 ++ ")")
      ErrType.UnknownToken [p.1.value], rfl, fun _ => rfl⟩⟩
  | none =>
    obtain ⟨q, hm, hr⟩ := parseLoop_result tokens 0 [] []
    refine ⟨q, fun t ht => ?_, hr⟩
    rcases hm t ht with h | h | h
    · simp at h
    · simp at h
    · exact h

/-! ## The kinds of token in the postfix queue -/

theorem stackable_evaluable (s : Spec) (h : isStackable s = true) (hl : s ≠ .LeftPars) :
    isEvaluable s = true := by
  cases s <;> first | (exact absurd rfl hl) | (exact absurd h (by decide)) | decide

theorem operand_evaluable (s : Spec)
    (h : s = .Number ∨ s = .Variable ∨ isConstant s = true ∨ isGenerator s = true) :
    isEvaluable s = true := by
  cases s <;> first | decide | (exact absurd h (by decide))

theorem unaryOp_evaluable (s : Spec) (h : isUnaryOp s = true) : isEvaluable s = true := by
  cases s <;> first | decide | (exact absurd h (by decide))

theorem countLeftPars_append :
    ∀ (xs ys : TokenStack), countLeftPars (xs ++ ys) = countLeftPars xs + countLeftPars ys
  | [], ys => by simp [countLeftPars]
  | x :: xs, ys => by
    rw [List.cons_append]
    simp only [countLeftPars]
    rw [countLeftPars_append xs ys]
    split <;> omega

theorem countLeftPars_zero :
    ∀ (xs : TokenStack), countLeftPars xs = 0 → ∀ t ∈ xs, t.spec ≠ .LeftPars
  | [], _ => by simp
  | x :: xs, h => by
    simp only [countLeftPars] at h
    by_cases c : x.spec = .LeftPars
    · rw [if_pos c] at h
      omega
    · rw [if_neg c] at h
      intro t ht
      rcases List.mem_cons.mp ht with rfl | g
      · exact c
      · exact countLeftPars_zero xs h t g

/-- When `parse` raises no error its main loop, started with an output of
evaluable tokens and a stack of stackable ones, returns evaluable tokens only. -/
theorem parseLoop_evaluable :
    ∀ (tokens : List Token) (index : Nat) (output : TokenQueue) (operators : TokenStack)
      (err : SyntaxError) (q : TokenQueue) (e : SyntaxError),
      (∀ t ∈ output, isEvaluable t.spec = true) →
      (∀ t ∈ operators, isStackable t.spec = true) →
      parseLoop tokens index output operators err = (q, e) → e.isError = false →
      ∀ t ∈ q, isEvaluable t.spec = true
  | [], index, output, operators, err, q, e, ho, hs, h, he => by
    unfold parseLoop at h
    rcases parseFlush_split index operators output with ⟨q', hq⟩ | ⟨h1, h2⟩
    · rw [hq] at h
      simp only [Prod.mk.injEq] at h
      rw [← h.2] at he
      exact absurd he (by simp [mismatchedParenthesis, SyntaxError.mk2, SyntaxError.isError])
    · rw [h2] at h
      simp only [Prod.mk.injEq] at h
      intro t ht
      rw [← h.1] at ht
      rcases List.mem_append.mp ht with g | g
      · exact ho t g
      · exact stackable_evaluable _ (hs t g) (h1 t g)
  | token :: rest, index, output, operators, err, q, e, ho, hs, h, he => by
    have bad : ∀ (q' : TokenQueue) (e' : SyntaxError), e'.isError = true →
        parseLoop (token :: rest) index output operators err = (q', e') → False := by
      intro q' e' he' h'
      rw [h'] at h
      simp only [Prod.mk.injEq] at h
      rw [h.2, he] at he'
      exact absurd he' (by decide)
    have next : ∀ (out1 : TokenQueue) (ops1 : TokenStack),
        (∀ t ∈ out1, isEvaluable t.spec = true) → (∀ t ∈ ops1, isStackable t.spec = true) →
        parseLoop (token :: rest) index output operators err =
          parseLoop rest (index + 1) out1 ops1 err →
        ∀ t ∈ q, isEvaluable t.spec = true := by
      intro out1 ops1 h1 h2 h3
      rw [h3] at h
      exact parseLoop_evaluable rest (index + 1) out1 ops1 err q e h1 h2 h he
    have snoc : ∀ (out1 : TokenQueue) (extra : List Token),
        (∀ t ∈ out1, isEvaluable t.spec = true) → (∀ t ∈ extra, isEvaluable t.spec = true) →
        ∀ t ∈ out1 ++ extra, isEvaluable t.spec = true := by
      intro out1 extra h1 h2 t ht
      rcases List.mem_append.mp ht with g | g
      · exact h1 t g
      · exact h2 t g
    by_cases c1 : token.spec = .Number ∨ token.spec = .Variable ∨
        isConstant token.spec = true ∨ isGenerator token.spec = true
    · apply next (output ++ [token]) operators
        (snoc _ _ ho (by simpa using operand_evaluable _ c1)) hs
      rw [parseLoop, if_pos c1]
    by_cases c2 : isUnaryOp token.spec = true
    · apply next (output ++ [token]) operators
        (snoc _ _ ho (by simpa using unaryOp_evaluable _ c2)) hs
      rw [parseLoop, if_neg c1, if_pos c2]
    by_cases c3 : isFunction token.spec = true ∨ token.spec = .LeftPars
    · apply next output (token :: operators) ho
      · intro t ht
        rcases List.mem_cons.mp ht with rfl | g
        · rcases c3 with g | g
          · simp [isStackable, g]
          · simp [isStackable, g]
        · exact hs t g
      · rw [parseLoop, if_neg c1, if_neg c2, if_pos c3]
    by_cases c4 : isBinaryOp token.spec = true
    · obtain ⟨popped, h1, h2⟩ := popWhilePrec_split (getPrecedence token.spec) operators output
      obtain ⟨h3, _⟩ := popWhilePrec_spec (getPrecedence token.spec)
        (binaryOp_spec _ c4).2.2.2 operators output
      rcases hpw : popWhilePrec (getPrecedence token.spec) operators output with ⟨ops', out'⟩
      rw [hpw] at h1 h2 h3
      dsimp only at h1 h2 h3
      have hpop : ∀ t ∈ popped, t.spec ≠ .LeftPars := by
        have hc : countLeftPars popped = 0 := by
          have := countLeftPars_append popped ops'
          rw [← h2] at this
          omega
        exact countLeftPars_zero popped hc
      apply next out' (token :: ops')
      · rw [h1]
        exact snoc _ _ ho (fun t ht =>
          stackable_evaluable _ (hs t (h2 ▸ List.mem_append_left _ ht)) (hpop t ht))
      · intro t ht
        rcases List.mem_cons.mp ht with rfl | g
        · simp [isStackable, c4]
        · exact hs t (h2 ▸ List.mem_append_right _ g)
      · rw [parseLoop, if_neg c1, if_neg c2, if_neg c3, if_pos c4, hpw]
    by_cases c5 : token.spec = .Comma
    · obtain ⟨popped, h1, h2, h3⟩ := popUntil_split .LeftPars operators output
      rcases hpu : popUntil .LeftPars operators output with ⟨res, out'⟩
      rw [hpu] at h1 h3
      dsimp only at h1 h3
      rcases h3 with ⟨h4, _⟩ | ⟨top, r, h4, _, h6⟩
      · subst h4
        exact (bad out' (mismatchedSeparators index) rfl (by
          rw [parseLoop, if_neg c1, if_neg c2, if_neg c3, if_neg c4, if_pos c5, hpu])).elim
      · subst h4
        apply next out' (top :: r)
        · rw [h1]
          exact snoc _ _ ho (fun t ht =>
            stackable_evaluable _ (hs t (h6 ▸ List.mem_append_left _ ht)) (h2 t ht))
        · exact fun t ht => hs t (h6 ▸ List.mem_append_right _ ht)
        · rw [parseLoop, if_neg c1, if_neg c2, if_neg c3, if_neg c4, if_pos c5, hpu]
    by_cases c6 : token.spec = .RightPars
    · obtain ⟨popped, h1, h2, h3⟩ := popUntil_split .LeftPars operators output
      rcases hpu : popUntil .LeftPars operators output with ⟨res, out'⟩
      rw [hpu] at h1 h3
      dsimp only at h1 h3
      have hdef : parseLoop (token :: rest) index output operators err =
          match popUntil .LeftPars operators output with
          | (Option.none, output') => (output', mismatchedParenthesis index)
          | (some operators', output') =>
            match closeBracket operators' output' with
            | (operators'', output'') =>
              parseLoop rest (index + 1) output'' operators'' err := by
        rw [parseLoop, if_neg c1, if_neg c2, if_neg c3, if_neg c4, if_neg c5, if_pos c6]
      rcases h3 with ⟨h4, _⟩ | ⟨top, r, h4, _, h6⟩
      · subst h4
        exact (bad out' (mismatchedParenthesis index) rfl (by rw [hdef, hpu])).elim
      · subst h4
        have hout : ∀ t ∈ out', isEvaluable t.spec = true := by
          rw [h1]
          exact snoc _ _ ho (fun t ht =>
            stackable_evaluable _ (hs t (h6 ▸ List.mem_append_left _ ht)) (h2 t ht))
        have hr : ∀ t ∈ r, isStackable t.spec = true :=
          fun t ht => hs t (h6 ▸ List.mem_append_right _ (List.mem_cons_of_mem _ ht))
        rcases closeBracket_cons top r out' with hcb | ⟨f, r', hf1, hf2, hcb⟩
        · apply next out' r hout hr
          rw [hdef, hpu]
          simp only [hcb]
        · apply next (out' ++ [f]) r'
          · exact snoc _ _ hout (by
              intro t ht
              rw [List.mem_singleton.mp ht]
              exact stackable_evaluable _ (hr f (hf1 ▸ List.mem_cons_self _ _))
                (function_spec _ hf2).1)
          · exact fun t ht => hr t (hf1 ▸ List.mem_cons_of_mem _ ht)
          · rw [hdef, hpu]
            simp only [hcb]
    by_cases c7 : token.spec = .RightArrPars
    · have hna : ∀ t ∈ operators, t.spec ≠ .LeftArrPars := by
        intro t ht hsp
        have := hs t ht
        rw [hsp] at this
        exact absurd this (by decide)
      have hnone := popUntil_absent .LeftArrPars operators output hna
      rcases hpu : popUntil .LeftArrPars operators output with ⟨res, out'⟩
      rw [hpu] at hnone
      dsimp only at hnone
      subst hnone
      exact (bad out' (mismatchedParenthesis index) rfl (by
        rw [parseLoop, if_neg c1, if_neg c2, if_neg c3, if_neg c4, if_neg c5, if_neg c6,
          if_pos c7, hpu])).elim
    · apply next output operators ho hs
      rw [parseLoop, if_neg c1, if_neg c2, if_neg c3, if_neg c4, if_neg c5, if_neg c6,
        if_neg c7]

/-- When `parse` reports no error every token of its output has a branch in the
evaluation loops. -/
theorem parse_evaluable (tokens : TokenContainer) (err : SyntaxError) (q : TokenQueue)
    (e : SyntaxError) (h : parse tokens err = (q, e)) (he : e.isError = false) :
    ∀ t ∈ q, isEvaluable t.spec = true := by
  unfold parse at h
  cases hf : findUnknown tokens 0 with
  | some p =>
    rw [hf] at h
    simp only [Prod.mk.injEq] at h
    intro t ht
    rw [← h.1] at ht
    simp at ht
  | none =>
    rw [hf] at h
    exact parseLoop_evaluable tokens 0 [] [] err q e (by simp) (by simp) h he

/-- On evaluable tokens, with a token to read or a value on the stack, the loop
of the evaluator without variables returns. -/
theorem evalLoopPlain_returns (A : Arith) (err : SyntaxError) :
    ∀ (queue : TokenQueue) (evalStack : List A.D),
      (∀ t ∈ queue, isEvaluable t.spec = true) → (queue ≠ [] ∨ evalStack ≠ []) →
      ∃ r, evalLoopPlain A queue evalStack err = .ok r
  | [], evalStack, _, hne => by
    unfold evalLoopPlain
    by_cases hl : evalStack.length > 1
    · rw [if_pos hl]
      exact ⟨_, rfl⟩
    · rw [if_neg hl]
      cases evalStack with
      | nil => simp at hne
      | cons x xs => exact ⟨_, rfl⟩
  | token :: rest, evalStack, hq, _ => by
    have ih := fun (st : List A.D) (hst : st ≠ []) =>
      evalLoopPlain_returns A err rest st (fun t ht => hq t (List.mem_cons_of_mem _ ht))
        (Or.inr hst)
    have hk := hq token (List.mem_cons_self _ _)
    unfold evalLoopPlain
    dsimp only
    by_cases c1 : isBinaryFn token.spec = true ∨ isBinaryOp token.spec = true
    · rw [if_pos c1]
      cases evalStack with
      | nil => exact ⟨_, rfl⟩
      | cons b st =>
        cases st with
        | nil => exact ⟨_, rfl⟩
        | cons a st => exact ih _ (List.cons_ne_nil _ _)
    rw [if_neg c1]
    by_cases c2 : isUnaryFn token.spec = true ∨ isUnaryOp token.spec = true
    · rw [if_pos c2]
      cases evalStack with
      | nil => exact ⟨_, rfl⟩
      | cons a st => exact ih _ (List.cons_ne_nil _ _)
    rw [if_neg c2]
    by_cases c3 : isConstant token.spec = true
    · rw [if_pos c3]
      exact ih _ (List.cons_ne_nil _ _)
    rw [if_neg c3]
    by_cases c4 : isGenerator token.spec = true
    · rw [if_pos c4]
      exact ih _ (List.cons_ne_nil _ _)
    rw [if_neg c4]
    by_cases c5 : token.spec = .Number
    · rw [if_pos c5]
      exact ih _ (List.cons_ne_nil _ _)
    rw [if_neg c5]
    by_cases c6 : token.spec = .Variable
    · rw [if_pos c6]
      exact ⟨_, rfl⟩
    · exfalso
      simp only [isEvaluable, Bool.or_eq_true, decide_eq_true_eq] at hk
      tauto

/-! ## The silent evaluator and the evaluator without variables -/

/-- On a queue without `Equals` the loop of the silent evaluator ends as the
loop of the evaluator without variables does, with NaN in place of an error. -/
theorem evalLoop_agree (A : Arith) :
    ∀ (queue : TokenQueue) (evalStack : List A.D) (err : SyntaxError),
      err.isError = false → (∀ t ∈ queue, t.spec ≠ .Equals) →
      (∀ v e, evalLoopPlain A queue evalStack err = .ok (v, e) →
        evalLoopSilent A queue evalStack = .ok (if e.isError = true then A.nan else v)) ∧
      (evalLoopPlain A queue evalStack err = .emptyBack →
        evalLoopSilent A queue evalStack = .emptyBack) ∧
      (evalLoopPlain A queue evalStack err = .noProgress →
        evalLoopSilent A queue evalStack = .noProgress)
  | [], evalStack, err, herr, _ => by
    unfold evalLoopPlain evalLoopSilent
    by_cases h : evalStack.length > 1
    · simp [h, redundantValues, SyntaxError.mk2, SyntaxError.isError]
    · cases evalStack with
      | nil => simp
      | cons x xs =>
        have hx : ¬ 0 < xs.length := by simpa using h
        simp only [List.length_cons, gt_iff_lt, Nat.lt_add_left_iff_pos, hx, if_false]
        simp [herr]
  | token :: rest, evalStack, err, herr, hq => by
    have hne : token.spec ≠ .Equals := hq token (List.mem_cons_self _ _)
    have ih := fun st => evalLoop_agree A rest st err herr
      (fun t ht => hq t (List.mem_cons_of_mem _ ht))
    have hev : evaluationError.isError = true := rfl
    unfold evalLoopPlain evalLoopSilent
    simp only [hne, if_false]
    by_cases c1 : isBinaryFn token.spec = true ∨ isBinaryOp token.spec = true
    · simp only [if_pos c1]
      cases evalStack with
      | nil => simp [hev]
      | cons b st =>
        cases st with
        | nil => simp [hev]
        | cons a st => exact ih _
    simp only [if_neg c1]
    by_cases c2 : isUnaryFn token.spec = true ∨ isUnaryOp token.spec = true
    · simp only [if_pos c2]
      cases evalStack with
      | nil => simp [hev]
      | cons a st => exact ih _
    simp only [if_neg c2]
    by_cases c3 : isConstant token.spec = true
    · simp only [if_pos c3]
      exact ih _
    simp only [if_neg c3]
    by_cases c4 : isGenerator token.spec = true
    · simp only [if_pos c4]
      exact ih _
    simp only [if_neg c4]
    by_cases c5 : token.spec = .Number
    · simp only [if_pos c5]
      exact ih _
    simp only [if_neg c5]
    by_cases c6 : token.spec = .Variable
    · simp [if_pos c6, SyntaxError.mk3, SyntaxError.isError]
    · simp [if_neg c6]

/-- C17, the claim as stated fails: on `1=2^0`, whose tokens hold no generator,
the evaluator without variables takes `=` as a binary operator giving NaN and
returns `pow(NaN, 0)`, which is 1, with no error, while the silent evaluator
returns NaN at the `Equals` token. -/
theorem silent_agrees_with_plain_counterexample :
    tokenize "1=2^0" =
      .ok [⟨.Number, "1"⟩, ⟨.Equals, "="⟩, ⟨.Number, "2"⟩, ⟨.Pow, "^"⟩, ⟨.Number, "0"⟩] ∧
    evalPlain exactArith "1=2^0" SyntaxError.none = .ok (exactInt 1, SyntaxError.none) ∧
    evalSilent exactArith "1=2^0" = .ok exactArith.nan ∧
    exactInt 1 ≠ exactArith.nan := by
  decide

/-- C17, amended: for every input whose tokens hold no generator and no
`Equals`, entered without a pending error, the evaluator without variables
returns a value `v` and an error state `e`, and the silent evaluator returns
NaN if `e` holds an error and `v` otherwise.  (The embedding gives both
evaluators the same draws, so the proof does not use the hypothesis on
generators.) -/
theorem silent_agrees_with_plain (A : Arith) (input : String) (err : SyntaxError)
    (tokens : TokenContainer) (ht : tokenize input = .ok tokens)
    (hgen : ∀ t ∈ tokens, isGenerator t.spec = false)
    (heq : ∀ t ∈ tokens, t.spec ≠ .Equals) (herr : err.isError = false) :
    ∃ v e, evalPlain A input err = .ok (v, e) ∧
      evalSilent A input = .ok (if e.isError = true then A.nan else v) := by
  have _ := hgen
  obtain ⟨q, hm, hr⟩ := parse_result tokens
  unfold evalPlain evalSilent
  rw [ht]
  rcases hr with h | ⟨e, he, h⟩
  · have hk := parse_evaluable tokens err q err (h err) herr
    simp only [h, herr, (by rfl : SyntaxError.none.isError = false)]
    cases q with
    | nil =>
      exact ⟨A.nan, SyntaxError.mk2 "Empty expression" ErrType.Evaluation, rfl,
        by simp [SyntaxError.mk2, SyntaxError.isError]⟩
    | cons front rest =>
      obtain ⟨⟨v, e⟩, hv⟩ := evalLoopPlain_returns A err (front :: rest) [] hk
        (Or.inl (List.cons_ne_nil _ _))
      have hag := (evalLoop_agree A (front :: rest) [] err herr
        (fun t ht => heq t (hm t ht))).1 v e hv
      exact ⟨v, e, by simpa using hv, by simpa using hag⟩
  · exact ⟨A.nan, e, by simp [h, he], by simp [h, he]⟩

/-- Agreement of the two evaluators on `2*3+4`, which both evaluate to 10. -/
theorem silent_agrees_with_plain_witness :
    ∃ v e, evalPlain exactArith "2*3+4" SyntaxError.none = .ok (v, e) ∧
      evalSilent exactArith "2*3+4" = .ok (if e.isError = true then exactArith.nan else v) :=
  silent_agrees_with_plain exactArith "2*3+4" SyntaxError.none
    [⟨.Number, "2"⟩, ⟨.Mul, "*"⟩, ⟨.Number, "3"⟩, ⟨.Add, "+"⟩, ⟨.Number, "4"⟩]
    (by decide) (by decide) (by decide) (by decide)

/-! ## An expression between parentheses -/

theorem popWhilePrec_base (prec : Nat) (b : Token) (bs : TokenStack) (pre : TokenQueue)
    (hb : getPrecedence b.spec < prec) :
    ∀ (operators : TokenStack) (output : TokenQueue),
      popWhilePrec prec (operators ++ b :: bs) (pre ++ output) =
        ((popWhilePrec prec operators output).1 ++ b :: bs,
          pre ++ (popWhilePrec prec operators output).2)
  | [], output => by
    simp only [List.nil_append, popWhilePrec]
    rw [if_neg (by omega)]
  | top :: operators, output => by
    rw [List.cons_append]
    simp only [popWhilePrec]
    by_cases h : getPrecedence top.spec ≥ prec
    · rw [if_pos h, if_pos h, List.append_assoc]
      exact popWhilePrec_base prec b bs pre hb operators (output ++ [top])
    · rw [if_neg h, if_neg h]
      rfl

theorem popUntil_base (stop : Spec) (base : TokenStack) (pre : TokenQueue) :
    ∀ (operators : TokenStack) (output : TokenQueue) (operators' : TokenStack),
      (popUntil stop operators output).1 = some operators' →
      popUntil stop (operators ++ base) (pre ++ output) =
        (some (operators' ++ base), pre ++ (popUntil stop operators output).2)
  | [], _, _, h => by simp [popUntil] at h
  | top :: operators, output, operators', h => by
    rw [List.cons_append]
    simp only [popUntil] at h ⊢
    by_cases c : top.spec ≠ stop
    · rw [if_pos c] at h ⊢
      rw [if_pos c, List.append_assoc]
      exact popUntil_base stop base pre operators (output ++ [top]) operators' h
    · rw [if_neg c] at h ⊢
      rw [if_neg c]
      simp only [Option.some.injEq] at h
      subst h
      rfl

theorem popUntil_all (stop : Spec) (b : Token) (bs : TokenStack) (hb : b.spec = stop) :
    ∀ (operators : TokenStack) (output : TokenQueue),
      (∀ t ∈ operators, t.spec ≠ stop) →
      popUntil stop (operators ++ b :: bs) output = (some (b :: bs), output ++ operators)
  | [], output, _ => by simp [popUntil, hb]
  | top :: operators, output, h => by
    rw [List.cons_append]
    simp only [popUntil]
    rw [if_pos (h top (List.mem_cons_self _ _)),
      popUntil_all stop b bs hb operators _ (fun t ht => h t (List.mem_cons_of_mem _ ht))]
    simp

theorem closeBracket_base (top b : Token) (rest bs : TokenStack) (pre output : TokenQueue)
    (hb : isFunction b.spec = false) :
    closeBracket ((top :: rest) ++ b :: bs) (pre ++ output) =
      ((closeBracket (top :: rest) output).1 ++ b :: bs,
        pre ++ (closeBracket (top :: rest) output).2) := by
  unfold closeBracket
  cases rest with
  | nil => simp [hb]
  | cons f rest' =>
    simp only [List.cons_append, List.tail_cons]
    by_cases hf : isFunction f.spec = true
    · simp [hf]
    · simp [hf]

/-- A token sequence that `parse` handles alone without error is handled the
same way above an open `LeftPars`: the main loop reaches the same output and
stack, on top of what was there. -/
theorem parseLoop_inside (b : Token) (bs : TokenStack) (hb : b.spec = .LeftPars)
    (pre : TokenQueue) (err : SyntaxError) (herr : err.isError = false) :
    ∀ (tokens : List Token) (index index' : Nat) (output : TokenQueue) (operators : TokenStack)
      (q : TokenQueue) (e : SyntaxError),
      parseLoop tokens index output operators err = (q, e) → e.isError = false →
      ∃ output' operators', (∀ t ∈ operators', t.spec ≠ .LeftPars) ∧
        q = output' ++ operators' ∧
        ∀ suffix, parseLoop (tokens ++ suffix) index' (pre ++ output) (operators ++ b :: bs) err =
          parseLoop suffix (index' + tokens.length) (pre ++ output') (operators' ++ b :: bs) err
  | [], index, index', output, operators, q, e, h, he => by
    unfold parseLoop at h
    rcases parseFlush_split index operators output with ⟨q', hq⟩ | ⟨h1, h2⟩
    · rw [hq] at h
      simp only [Prod.mk.injEq] at h
      rw [← h.2] at he
      exact absurd he (by simp [mismatchedParenthesis, SyntaxError.mk2, SyntaxError.isError])
    · rw [h2] at h
      simp only [Prod.mk.injEq] at h
      exact ⟨output, operators, h1, h.1.symm, fun suffix => by simp⟩
  | token :: rest, index, index', output, operators, q, e, h, he => by
    have next : ∀ (out1 : TokenQueue) (ops1 : TokenStack),
        parseLoop (token :: rest) index output operators err =
          parseLoop rest (index + 1) out1 ops1 err →
        (∀ suffix, parseLoop (token :: rest ++ suffix) index' (pre ++ output)
            (operators ++ b :: bs) err =
          parseLoop (rest ++ suffix) (index' + 1) (pre ++ out1) (ops1 ++ b :: bs) err) →
        ∃ output' operators', (∀ t ∈ operators', t.spec ≠ .LeftPars) ∧
          q = output' ++ operators' ∧
          ∀ suffix, parseLoop (token :: rest ++ suffix) index' (pre ++ output)
              (operators ++ b :: bs) err =
            parseLoop suffix (index' + (token :: rest).length) (pre ++ output')
              (operators' ++ b :: bs) err := by
      intro out1 ops1 h1 h2
      rw [h1] at h
      obtain ⟨o', s', g1, g2, g3⟩ :=
        parseLoop_inside b bs hb pre err herr rest (index + 1) (index' + 1) out1 ops1 q e h he
      refine ⟨o', s', g1, g2, fun suffix => ?_⟩
      rw [h2, g3, List.length_cons]
      congr 1
      omega
    have bad : ∀ (q' : TokenQueue) (e' : SyntaxError), e'.isError = true →
        parseLoop (token :: rest) index output operators err = (q', e') → False := by
      intro q' e' he' h'
      rw [h'] at h
      simp only [Prod.mk.injEq] at h
      rw [h.2, he] at he'
      exact absurd he' (by decide)
    have hbf : isFunction b.spec = false := by rw [hb]; decide
    by_cases c1 : token.spec = .Number ∨ token.spec = .Variable ∨
        isConstant token.spec = true ∨ isGenerator token.spec = true
    · apply next (output ++ [token]) operators
      · rw [parseLoop, if_pos c1]
      · intro suffix
        rw [List.cons_append, parseLoop, if_pos c1, List.append_assoc]
    by_cases c2 : isUnaryOp token.spec = true
    · apply next (output ++ [token]) operators
      · rw [parseLoop, if_neg c1, if_pos c2]
      · intro suffix
        rw [List.cons_append, parseLoop, if_neg c1, if_pos c2, List.append_assoc]
    by_cases c3 : isFunction token.spec = true ∨ token.spec = .LeftPars
    · apply next output (token :: operators)
      · rw [parseLoop, if_neg c1, if_neg c2, if_pos c3]
      · intro suffix
        rw [List.cons_append, parseLoop, if_neg c1, if_neg c2, if_pos c3]
        rfl
    by_cases c4 : isBinaryOp token.spec = true
    · have hp : getPrecedence b.spec < getPrecedence token.spec := by
        rw [hb]
        exact (binaryOp_spec _ c4).2.2.2
      apply next (popWhilePrec (getPrecedence token.spec) operators output).2
        (token :: (popWhilePrec (getPrecedence token.spec) operators output).1)
      · rw [parseLoop, if_neg c1, if_neg c2, if_neg c3, if_pos c4]
      · intro suffix
        rw [List.cons_append, parseLoop, if_neg c1, if_neg c2, if_neg c3, if_pos c4,
          popWhilePrec_base _ b bs pre hp]
        rfl
    by_cases c5 : token.spec = .Comma
    · rcases hpu : popUntil .LeftPars operators output with ⟨res, out'⟩
      cases res with
      | none =>
        exact (bad out' (mismatchedSeparators index) rfl (by
          rw [parseLoop, if_neg c1, if_neg c2, if_neg c3, if_neg c4, if_pos c5, hpu])).elim
      | some ops' =>
        have hb' := popUntil_base .LeftPars (b :: bs) pre operators output ops' (by rw [hpu])
        rw [hpu] at hb'
        apply next out' ops'
        · rw [parseLoop, if_neg c1, if_neg c2, if_neg c3, if_neg c4, if_pos c5, hpu]
        · intro suffix
          rw [List.cons_append, parseLoop, if_neg c1, if_neg c2, if_neg c3, if_neg c4,
            if_pos c5, hb']
    have closing : ∀ stop : Spec,
        (∀ (toks : List Token) (idx : Nat) (out : TokenQueue) (ops : TokenStack),
          parseLoop (token :: toks) idx out ops err =
          match popUntil stop ops out with
          | (Option.none, output') => (output', mismatchedParenthesis idx)
          | (some operators', output') =>
            match closeBracket operators' output' with
            | (operators'', output'') => parseLoop toks (idx + 1) output'' operators'' err) →
        ∃ output' operators', (∀ t ∈ operators', t.spec ≠ .LeftPars) ∧
          q = output' ++ operators' ∧
          ∀ suffix, parseLoop (token :: rest ++ suffix) index' (pre ++ output)
              (operators ++ b :: bs) err =
            parseLoop suffix (index' + (token :: rest).length) (pre ++ output')
              (operators' ++ b :: bs) err := by
      intro stop hdef
      obtain ⟨popped, _, _, h3⟩ := popUntil_split stop operators output
      rcases hpu : popUntil stop operators output with ⟨res, out'⟩
      rw [hpu] at h3
      dsimp only at h3
      rcases h3 with ⟨h4, _⟩ | ⟨top, r, h4, _, _⟩
      · subst h4
        exact (bad out' (mismatchedParenthesis index) rfl (by rw [hdef, hpu])).elim
      · subst h4
        have hb' := popUntil_base stop (b :: bs) pre operators output (top :: r) (by rw [hpu])
        rw [hpu] at hb'
        have hcb := closeBracket_base top b r bs pre out' hbf
        apply next (closeBracket (top :: r) out').2 (closeBracket (top :: r) out').1
        · rw [hdef, hpu]
        · intro suffix
          rw [List.cons_append, hdef, hb']
          simp only [hcb]
    by_cases c6 : token.spec = .RightPars
    · apply closing .LeftPars
      intro toks idx out ops
      rw [parseLoop, if_neg c1, if_neg c2, if_neg c3, if_neg c4, if_neg c5, if_pos c6]
    by_cases c7 : token.spec = .RightArrPars
    · apply closing .LeftArrPars
      intro toks idx out ops
      rw [parseLoop, if_neg c1, if_neg c2, if_neg c3, if_neg c4, if_neg c5, if_neg c6,
        if_pos c7]
    · apply next output operators
      · rw [parseLoop, if_neg c1, if_neg c2, if_neg c3, if_neg c4, if_neg c5, if_neg c6,
          if_neg c7]
      · intro suffix
        rw [List.cons_append, parseLoop, if_neg c1, if_neg c2, if_neg c3, if_neg c4,
          if_neg c5, if_neg c6, if_neg c7]

/-- A queue without `Equals` and generators that the loop of the evaluator with
variables consumes alone without error leaves one value `x`, which is the
result; followed by more tokens, the loop goes on from the stack holding `x`. -/
theorem evalLoopVars_prefix (A : Arith) (err : SyntaxError) (vars : VarTable A)
    (herr : err.isError = false) :
    ∀ (queue : TokenQueue) (evalStack : List A.D) (res : EvalResult A),
      (∀ t ∈ queue, t.spec ≠ .Equals) → (∀ t ∈ queue, isGenerator t.spec = false) →
      evalLoopVars A "" queue evalStack err vars = .ok res → res.err.isError = false →
      ∃ x, res = ⟨x, err, vars⟩ ∧
        ∀ target rest, evalLoopVars A target (queue ++ rest) evalStack err vars =
          evalLoopVars A target rest [x] err vars
  | [], evalStack, res, _, _, h, he => by
    unfold evalLoopVars at h
    by_cases hl : evalStack.length > 1
    · rw [if_pos hl] at h
      cases h
      exact absurd he (by simp [redundantValues, SyntaxError.mk2, SyntaxError.isError])
    · rw [if_neg hl] at h
      cases evalStack with
      | nil => cases h
      | cons x xs =>
        cases xs with
        | nil =>
          cases h
          exact ⟨x, rfl, fun _ _ => rfl⟩
        | cons y ys => simp at hl
  | token :: queue, evalStack, res, hq, hg, h, he => by
    have hne : token.spec ≠ .Equals := hq token (List.mem_cons_self _ _)
    have hng : ¬ isGenerator token.spec = true := by
      rw [hg token (List.mem_cons_self _ _)]
      decide
    have ih := fun st (h' : evalLoopVars A "" queue st err vars = .ok res) =>
      evalLoopVars_prefix A err vars herr queue st res
        (fun t ht => hq t (List.mem_cons_of_mem _ ht))
        (fun t ht => hg t (List.mem_cons_of_mem _ ht)) h' he
    have hev : ¬ evaluationError.isError = false := by decide
    unfold evalLoopVars at h
    simp only [hne, if_false] at h
    by_cases c1 : isBinaryFn token.spec = true ∨ isBinaryOp token.spec = true
    · simp only [if_pos c1] at h
      cases evalStack with
      | nil => cases h; exact absurd he hev
      | cons b st =>
        cases st with
        | nil => cases h; exact absurd he hev
        | cons a st =>
          obtain ⟨x, hx, hr⟩ := ih _ h
          refine ⟨x, hx, fun target rest => ?_⟩
          simp only [List.cons_append, evalLoopVars, hne, if_false, if_pos c1]
          exact hr target rest
    simp only [if_neg c1] at h
    by_cases c2 : isUnaryFn token.spec = true ∨ isUnaryOp token.spec = true
    · simp only [if_pos c2] at h
      cases evalStack with
      | nil => cases h; exact absurd he hev
      | cons a st =>
        obtain ⟨x, hx, hr⟩ := ih _ h
        refine ⟨x, hx, fun target rest => ?_⟩
        simp only [List.cons_append, evalLoopVars, hne, if_false, if_neg c1, if_pos c2]
        exact hr target rest
    simp only [if_neg c2] at h
    by_cases c3 : isConstant token.spec = true
    · simp only [if_pos c3] at h
      obtain ⟨x, hx, hr⟩ := ih _ h
      refine ⟨x, hx, fun target rest => ?_⟩
      simp only [List.cons_append, evalLoopVars, hne, if_false, if_neg c1, if_neg c2,
        if_pos c3]
      exact hr target rest
    simp only [if_neg c3, if_neg hng] at h
    by_cases c5 : token.spec = .Number
    · simp only [if_pos c5] at h
      obtain ⟨x, hx, hr⟩ := ih _ h
      refine ⟨x, hx, fun target rest => ?_⟩
      simp only [List.cons_append, evalLoopVars, hne, if_false, if_neg c1, if_neg c2,
        if_neg c3, if_neg hng, if_pos c5]
      exact hr target rest
    simp only [if_neg c5] at h
    by_cases c6 : token.spec = .Variable
    · simp only [if_pos c6] at h
      cases hv : vars token.value with
      | none =>
        rw [hv] at h
        cases h
        exact absurd he (by simp [SyntaxError.mk3, SyntaxError.isError])
      | some value =>
        rw [hv] at h
        obtain ⟨x, hx, hr⟩ := ih _ h
        refine ⟨x, hx, fun target rest => ?_⟩
        simp only [List.cons_append, evalLoopVars, hne, if_false, if_neg c1, if_neg c2,
          if_neg c3, if_neg hng, if_neg c5,
          if_pos c6, hv]
        exact hr target rest
    · simp only [if_neg c6] at h
      cases h

theorem findUnknown_none_mem (tokens : List Token) (index : Nat)
    (h : findUnknown tokens index = Option.none) : ∀ t ∈ tokens, t.spec ≠ .Unknown := by
  intro t ht hs
  obtain ⟨_, _, _, _, _, _, hf⟩ := findUnknown_split tokens index ⟨t, ht, hs⟩
  rw [hf] at h
  cases h

/-- C19, the claim as stated fails: `--5` alone evaluates to 5 with no error,
but `x = (--5)` yields an `Evaluation` error and leaves the table unchanged;
and `y = 3` alone returns 3 with no error, but `x = (y = 3)` yields an
`UnknownToken` error. -/
theorem parenthesised_assignment_counterexample :
    evalVars exactArith "--5" SyntaxError.none (noVars exactArith) =
      .ok ⟨exactInt 5, SyntaxError.none, noVars exactArith⟩ ∧
    evalVars exactArith "x = (--5)" SyntaxError.none (noVars exactArith) =
      .ok ⟨exactArith.nan, SyntaxError.mk2 "Evaluation error" ErrType.Evaluation,
        noVars exactArith⟩ ∧
    evalVars exactArith "y = 3" SyntaxError.none (noVars exactArith) =
      .ok ⟨exactInt 3, SyntaxError.none, (noVars exactArith).assign "y" (exactInt 3)⟩ ∧
    evalVars exactArith "x = (y = 3)" SyntaxError.none (noVars exactArith) =
      .ok ⟨exactArith.nan,
        SyntaxError.mk3 "Unknown variable: [y]" ErrType.UnknownToken ["y"],
        noVars exactArith⟩ :=
  ⟨rfl, rfl, rfl, rfl⟩

/-- C19, amended: for every variable name `v` and every expression text `E`
whose tokens hold no generator and no `Equals` and stand unchanged between the
parentheses of `v = (E)`: if `E` evaluated alone against a table returns value
`r` with no error, then the evaluator with variables on `v = (E)` against that
table returns `r` with no error and leaves the table updated at `v` with `r`. -/
theorem parenthesised_assignment (A : Arith) (v E : String) (tokensE : TokenContainer)
    (err : SyntaxError) (vars : VarTable A) (res : EvalResult A)
    (hv : isPlainName v = true) (herr : err.isError = false)
    (htE : tokenize E = .ok tokensE)
    (hctx : tokenize (v ++ " = (" ++ E ++ ")") =
      .ok (⟨.Variable, v⟩ :: ⟨.Equals, "="⟩ :: ⟨.LeftPars, "("⟩ ::
        (tokensE ++ [⟨.RightPars, ")"⟩])))
    (hgen : ∀ t ∈ tokensE, isGenerator t.spec = false)
    (heq : ∀ t ∈ tokensE, t.spec ≠ .Equals)
    (halone : evalVars A E err vars = .ok res) (hres : res.err.isError = false) :
    evalVars A (v ++ " = (" ++ E ++ ")") err vars =
      .ok ⟨res.value, err, vars.assign v res.value⟩ := by
  have hne := plain_ne_empty v hv
  obtain ⟨q, hm, hr⟩ := parse_result tokensE
  unfold evalVars at halone
  rw [htE] at halone
  dsimp only at halone
  rcases hr with hp | ⟨e, he, hp⟩
  swap
  · rw [hp] at halone
    simp only [evalQueueVars, he, if_true] at halone
    cases halone
    rw [he] at hres
    exact absurd hres (by decide)
  rw [hp] at halone
  simp only [evalQueueVars, herr] at halone
  have hqe : ∀ t ∈ q, t.spec ≠ .Equals := fun t ht => heq t (hm t ht)
  have hqg : ∀ t ∈ q, isGenerator t.spec = false := fun t ht => hgen t (hm t ht)
  have hloop : evalLoopVars A "" q [] err vars = .ok res := by
    cases q with
    | nil =>
      simp only [Bool.false_eq_true, if_false] at halone
      cases halone
      exact absurd hres (by simp [SyntaxError.mk2, SyntaxError.isError])
    | cons front rest =>
      simp only [Bool.false_eq_true, if_false] at halone
      split at halone
      · rename_i hc
        obtain ⟨t, ht, hts⟩ := Option.map_eq_some'.mp hc.2
        exact absurd hts (hqe t (List.mem_of_getLast?_eq_some ht))
      · exact halone
  obtain ⟨x, hx, hcont⟩ := evalLoopVars_prefix A err vars herr q [] res hqe hqg hloop hres
  -- the tokens of `E` hold no `Unknown`
  have hunk : ∀ t ∈ tokensE, t.spec ≠ .Unknown := by
    apply findUnknown_none_mem tokensE 0
    cases hf : findUnknown tokensE 0 with
    | none => rfl
    | some p =>
      have := hp err
      unfold parse at this
      rw [hf] at this
      simp only [Prod.mk.injEq] at this
      rw [← this.2] at herr
      exact absurd herr (by simp [SyntaxError.mk3, SyntaxError.isError])
  have hploop : parseLoop tokensE 0 [] [] err = (q, err) := by
    have := hp err
    unfold parse at this
    rw [findUnknown_none tokensE 0 hunk] at this
    exact this
  obtain ⟨out', ops', hnl, hq, hsim⟩ :=
    parseLoop_inside ⟨.LeftPars, "("⟩ [⟨.Equals, "="⟩] rfl [⟨.Variable, v⟩] err herr
      tokensE 0 3 [] [] q err hploop herr
  have hparse : parse (⟨.Variable, v⟩ :: ⟨.Equals, "="⟩ :: ⟨.LeftPars, "("⟩ ::
      (tokensE ++ [⟨.RightPars, ")"⟩])) err =
      (⟨.Variable, v⟩ :: (q ++ [⟨.Equals, "="⟩]), err) := by
    unfold parse
    rw [findUnknown_none _ 0 (by
      intro t ht
      simp only [List.mem_cons, List.mem_append, List.mem_singleton, List.not_mem_nil,
        or_false] at ht
      rcases ht with rfl | rfl | rfl | ht | rfl
      · simp
      · simp
      · simp
      · exact hunk t ht
      · simp)]
    have h3 : parseLoop (⟨.Variable, v⟩ :: ⟨.Equals, "="⟩ :: ⟨.LeftPars, "("⟩ ::
        (tokensE ++ [⟨.RightPars, ")"⟩])) 0 [] [] err =
        parseLoop (tokensE ++ [⟨.RightPars, ")"⟩]) 3 ([⟨.Variable, v⟩] ++ [])
          ([] ++ [⟨.LeftPars, "("⟩, ⟨.Equals, "="⟩]) err := rfl
    rw [h3, hsim]
    have hpu := popUntil_all .LeftPars ⟨.LeftPars, "("⟩ [⟨.Equals, "="⟩] rfl ops'
      ([⟨.Variable, v⟩] ++ out') hnl
    have hcb : closeBracket [⟨.LeftPars, "("⟩, ⟨.Equals, "="⟩]
        ([⟨.Variable, v⟩] ++ out' ++ ops') =
        ([⟨.Equals, "="⟩], [⟨.Variable, v⟩] ++ out' ++ ops') := rfl
    have hrp : ∀ (idx : Nat), parseLoop [⟨.RightPars, ")"⟩] idx ([⟨.Variable, v⟩] ++ out')
        (ops' ++ [⟨.LeftPars, "("⟩, ⟨.Equals, "="⟩]) err =
        (match popUntil .LeftPars (ops' ++ [⟨.LeftPars, "("⟩, ⟨.Equals, "="⟩])
            ([⟨.Variable, v⟩] ++ out') with
          | (Option.none, output') => (output', mismatchedParenthesis idx)
          | (some operators', output') =>
            match closeBracket operators' output' with
            | (operators'', output'') => parseLoop [] (idx + 1) output'' operators'' err) :=
      fun _ => rfl
    rw [hrp, hpu]
    simp only [hcb]
    rw [hq]
    simp [parseLoop, parseFlush]
  unfold evalVars
  rw [hctx]
  simp only [hparse, evalQueueVars, herr]
  have hlast : (⟨.Variable, v⟩ :: (q ++ [⟨.Equals, "="⟩]) : List Token).getLast?.map
      Token.spec = some .Equals := by
    rw [← List.cons_append, List.getLast?_concat]
    rfl
  simp only [Bool.false_eq_true, if_false, hlast, and_self, if_true]
  rw [hcont, hx]
  simp [evalLoopVars, hne]

/-- The documented form `x = (x * 42)` with `x` bound to 2: the value 84 is
returned and written at `x`. -/
theorem parenthesised_assignment_witness :
    evalVars exactArith "x = (x * 42)" SyntaxError.none
        ((noVars exactArith).assign "x" (exactInt 2)) =
      .ok ⟨exactInt 84, SyntaxError.none,
        ((noVars exactArith).assign "x" (exactInt 2)).assign "x" (exactInt 84)⟩ :=
  parenthesised_assignment exactArith "x" "x * 42"
    [⟨.Variable, "x"⟩, ⟨.Mul, "*"⟩, ⟨.Number, "42"⟩] SyntaxError.none
    ((noVars exactArith).assign "x" (exactInt 2))
    ⟨exactInt 84, SyntaxError.none, (noVars exactArith).assign "x" (exactInt 2)⟩
    (by decide) (by decide) (by decide) (by decide) (by decide) (by decide) rfl (by decide)

/-! ## The power operator spelled with two stars -/

theorem step_second_star (ts : TokenContainer) :
    ∀ capacity, step capacity .OperatorState (ts ++ [⟨.Mul, "*"⟩]) '*' = .ok (.OperatorState, ts ++ [⟨.Pow, "**"⟩]) := by
  intro capacity
  simp [step, ops, opsTable, find]
  rfl

theorem tokenize_double_star (a b : String)
    (ha : isUnsignedLiteral a = true) (hb : isUnsignedLiteral b = true) :
    tokenize (a ++ "**" ++ b) = .ok [⟨.Number, a⟩, ⟨.Pow, "**"⟩, ⟨.Number, b⟩] := by
  obtain ⟨sa, hsa, la⟩ := lex_literal (Or.inl rfl) [] a ha
  have s1 := Lex.one (step_op_after_num hsa [⟨.Number, a⟩] '*' .Mul rfl (by decide))
  have s2 := Lex.one (step_second_star [⟨.Number, a⟩])
  obtain ⟨sb, _, lb⟩ := lex_literal (Or.inr (Or.inr (Or.inl rfl)))
    [⟨.Number, a⟩, ⟨.Pow, "**"⟩] b hb
  have h12 : Lex sa ([] ++ [⟨.Number, a⟩]) ['*', '*'] .OperatorState
      [⟨.Number, a⟩, ⟨.Pow, "**"⟩] := Lex.trans s1 s2
  have hd : ("**" : String).data = ['*', '*'] := rfl
  exact Lex.finish (by
    simpa [String.data_append, hd] using Lex.trans (Lex.trans la h12) lb)

/-- C21. Power spelled with two stars: for unsigned numeric literals `a`, `b` the
text `a**b` is tokenized to `Number a`, one `Pow` token with text `**`, `Number b`
(no `Mul` token); `a**b` and `a^b` are parsed to postfix sequences with the same
kinds of token, `Number Number Pow`, and each of the three evaluators returns the
same value on both, the power of `a` to `b`. -/
theorem double_star_is_pow (A : Arith) (a b : String) (err : SyntaxError) (vars : VarTable A)
    (ha : isUnsignedLiteral a = true) (hb : isUnsignedLiteral b = true)
    (herr : err.isError = false) :
    tokenize (a ++ "**" ++ b) = .ok [⟨.Number, a⟩, ⟨.Pow, "**"⟩, ⟨.Number, b⟩] ∧
    tokenize (a ++ "^" ++ b) = .ok [⟨.Number, a⟩, ⟨.Pow, "^"⟩, ⟨.Number, b⟩] ∧
    parse [⟨.Number, a⟩, ⟨.Pow, "**"⟩, ⟨.Number, b⟩] err =
      ([⟨.Number, a⟩, ⟨.Number, b⟩, ⟨.Pow, "**"⟩], err) ∧
    parse [⟨.Number, a⟩, ⟨.Pow, "^"⟩, ⟨.Number, b⟩] err =
      ([⟨.Number, a⟩, ⟨.Number, b⟩, ⟨.Pow, "^"⟩], err) ∧
    evalSilent A (a ++ "**" ++ b) = .ok (A.pow (A.parse a) (A.parse b)) ∧
    evalSilent A (a ++ "^" ++ b) = .ok (A.pow (A.parse a) (A.parse b)) ∧
    evalPlain A (a ++ "**" ++ b) err = .ok (A.pow (A.parse a) (A.parse b), err) ∧
    evalPlain A (a ++ "^" ++ b) err = .ok (A.pow (A.parse a) (A.parse b), err) ∧
    evalVars A (a ++ "**" ++ b) err vars = .ok ⟨A.pow (A.parse a) (A.parse b), err, vars⟩ ∧
    evalVars A (a ++ "^" ++ b) err vars = .ok ⟨A.pow (A.parse a) (A.parse b), err, vars⟩ := by
  have t1 := tokenize_double_star a b ha hb
  have t2 : tokenize (a ++ "^" ++ b) = _ := tokenize_two a b '^' .Pow ha hb rfl (by decide)
  have p1 : parse [⟨.Number, a⟩, ⟨.Pow, "**"⟩, ⟨.Number, b⟩] err =
      ([⟨.Number, a⟩, ⟨.Number, b⟩, ⟨.Pow, "**"⟩], err) := rfl
  have p2 : parse [⟨.Number, a⟩, ⟨.Pow, conv '^'⟩, ⟨.Number, b⟩] err =
      ([⟨.Number, a⟩, ⟨.Number, b⟩, ⟨.Pow, conv '^'⟩], err) := rfl
  have lp : ∀ w : String, evalLoopPlain A [⟨.Number, a⟩, ⟨.Number, b⟩, ⟨.Pow, w⟩] [] err =
      .ok (A.pow (A.parse a) (A.parse b), err) := fun _ => rfl
  have lv : ∀ w : String,
      evalLoopVars A "" [⟨.Number, a⟩, ⟨.Number, b⟩, ⟨.Pow, w⟩] [] err vars =
        .ok ⟨A.pow (A.parse a) (A.parse b), err, vars⟩ := fun _ => rfl
  refine ⟨t1, t2, rfl, rfl, ?_, ?_, ?_, ?_, ?_, ?_⟩
  · unfold evalSilent
    rw [t1]
    rfl
  · unfold evalSilent
    rw [t2]
    rfl
  · unfold evalPlain
    rw [t1]
    simp only [p1, herr]
    exact lp _
  · unfold evalPlain
    rw [t2]
    simp only [p2, herr]
    exact lp _
  · unfold evalVars
    rw [t1]
    simp only [p1, evalQueueVars, herr]
    simpa using lv _
  · unfold evalVars
    rw [t2]
    simp only [p2, evalQueueVars, herr]
    simpa using lv _

/-- The values 8 on `2**3` and on `2^3`. -/
theorem double_star_is_pow_witness :
    tokenize "2**3" = .ok [⟨.Number, "2"⟩, ⟨.Pow, "**"⟩, ⟨.Number, "3"⟩] ∧
    evalSilent exactArith "2**3" = .ok (exactInt 8) ∧
    evalSilent exactArith "2^3" = .ok (exactInt 8) :=
  have h := double_star_is_pow exactArith "2" "3" SyntaxError.none (noVars exactArith)
    (by decide) (by decide) (by decide)
  ⟨h.1, h.2.2.2.2.1, h.2.2.2.2.2.1⟩
/-! ## Unknown tokens -/

/-- C23. An `Unknown` token of more than one character: inside a number or an
identifier the unrecognized character is pushed as an `Unknown` token without
leaving the state, and the digits that follow are appended to that token; so
`1#2` gives the `Unknown` token `#2`, which the pre-check of `parse` names as
one symbol.  At the start of the input the digit after `#` begins a `Number`
token of its own. -/
theorem unknown_token_grows :
    (∀ (capacity : Nat) (ts : TokenContainer),
      step capacity .NumberState ts '#' = .ok (.NumberState, ts ++ [⟨.Unknown, "#"⟩])) ∧
    (∀ (capacity : Nat) (ts : TokenContainer),
      step capacity .NumberState (ts ++ [⟨.Unknown, "#"⟩]) '2' =
        .ok (.NumberState, ts ++ [⟨.Unknown, "#2"⟩])) ∧
    tokenize "1#2" = .ok [⟨.Number, "1"⟩, ⟨.Unknown, "#2"⟩] ∧
    tokenize "x#2" = .ok [⟨.Variable, "x"⟩, ⟨.Unknown, "#2"⟩] ∧
    tokenize "#2" = .ok [⟨.Unknown, "#"⟩, ⟨.Number, "2"⟩] ∧
    parse [⟨.Number, "1"⟩, ⟨.Unknown, "#2"⟩] SyntaxError.none =
      ([], SyntaxError.mk3 "Unknown symbol: [#2] (:1)" ErrType.UnknownToken ["#2"]) := by
  refine ⟨fun _ ts => rfl, fun capacity ts => ?_, by decide, by decide, by decide, by decide⟩
  have h : ('2' : Char).isDigit = true := by decide
  simp only [step, h, if_true, pushToLast_snoc]
  rfl

/-! ## Blanks after a function name -/

/-- C24. A blank after a function name does not end the token: `FunctionState`
stays `FunctionState` on a blank (`VariableState` goes to `ReadState`), so the
letter or digit after the blank is appended to the name; `sin x` is the single
token `Variable sinx` and `sin 1` the single token `Variable sin1`, while `si x`
is two tokens. -/
theorem blank_after_function_name :
    (∀ (capacity : Nat) (ts : TokenContainer),
      step capacity .FunctionState ts ' ' = .ok (.FunctionState, ts)) ∧
    (∀ (capacity : Nat) (ts : TokenContainer),
      step capacity .VariableState ts ' ' = .ok (.ReadState, ts)) ∧
    tokenize "sin x" = .ok [⟨.Variable, "sinx"⟩] ∧
    tokenize "sin 1" = .ok [⟨.Variable, "sin1"⟩] ∧
    tokenize "si x" = .ok [⟨.Variable, "si"⟩, ⟨.Variable, "x"⟩] ∧
    tokenize "2 x" = .ok [⟨.Number, "2"⟩, ⟨.Variable, "x"⟩] ∧
    (∀ A : Arith, evalSilent A "sin 1" = .ok A.nan) := by
  refine ⟨fun _ ts => rfl, fun _ ts => rfl, by decide, by decide, by decide, by decide,
    fun A => ?_⟩
  have t : tokenize "sin 1" = .ok [⟨.Variable, "sin1"⟩] := by decide
  unfold evalSilent
  rw [t]
  rfl

/-! ## The digit-group separator -/

/-- C28. A one-letter constant after an operator: `OperatorState` pushes a letter
as `Variable` without looking it up in `consts` (`BeginState` and `ReadState`
look it up), and the token is retagged only when another letter or an operator
character follows; so `1+e` ends with `Variable e` and the silent evaluator
returns NaN, while `e+1`, `1+e+1`, `1 e` and `1+pi` hold a constant token. -/
theorem constant_after_operator :
    (∀ (capacity : Nat) (ts : TokenContainer),
      step capacity .OperatorState ts 'e' = .ok (.VariableState, ts ++ [⟨.Variable, "e"⟩])) ∧
    (∀ (capacity : Nat) (ts : TokenContainer),
      step capacity .ReadState ts 'e' = .ok (.VariableState, ts ++ [⟨.EConst, "e"⟩])) ∧
    tokenize "1+e" = .ok [⟨.Number, "1"⟩, ⟨.Add, "+"⟩, ⟨.Variable, "e"⟩] ∧
    tokenize "2e" = .ok [⟨.Number, "2"⟩, ⟨.Mul, "*"⟩, ⟨.Variable, "e"⟩] ∧
    tokenize "e+1" = .ok [⟨.EConst, "e"⟩, ⟨.Add, "+"⟩, ⟨.Number, "1"⟩] ∧
    tokenize "1+e+1" =
      .ok [⟨.Number, "1"⟩, ⟨.Add, "+"⟩, ⟨.EConst, "e"⟩, ⟨.Add, "+"⟩, ⟨.Number, "1"⟩] ∧
    tokenize "1 e" = .ok [⟨.Number, "1"⟩, ⟨.EConst, "e"⟩] ∧
    tokenize "1+pi" = .ok [⟨.Number, "1"⟩, ⟨.Add, "+"⟩, ⟨.PiConst, "pi"⟩] ∧
    (∀ A : Arith, evalSilent A "1+e" = .ok A.nan) ∧
    (∀ A : Arith, evalSilent A "e+1" = .ok (A.add A.e (A.parse "1"))) := by
  refine ⟨fun _ ts => rfl, fun _ ts => rfl, by decide, by decide, by decide, by decide,
    by decide, by decide, fun A => ?_, fun A => ?_⟩
  · have t : tokenize "1+e" = .ok [⟨.Number, "1"⟩, ⟨.Add, "+"⟩, ⟨.Variable, "e"⟩] := by decide
    unfold evalSilent
    rw [t]
    rfl
  · have t : tokenize "e+1" = .ok [⟨.EConst, "e"⟩, ⟨.Add, "+"⟩, ⟨.Number, "1"⟩] := by decide
    unfold evalSilent
    rw [t]
    rfl
/-! ## A second decimal point -/

/-- In the fraction part, digits are appended to the last token whatever its kind. -/
theorem lex_fraction_digits (ts : TokenContainer) (sp : Spec) :
    ∀ (cs : List Char) (v : List Char), allDigits cs = true →
      Lex .FractionState (ts ++ [⟨sp, ⟨v⟩⟩]) cs .FractionState (ts ++ [⟨sp, ⟨v ++ cs⟩⟩])
  | [], v, _ => by simpa using Lex.nil _ _
  | c :: cs, v, h => by
    simp only [allDigits, List.all_cons, Bool.and_eq_true] at h
    have hs : ∀ capacity, step capacity .FractionState (ts ++ [⟨sp, ⟨v⟩⟩]) c =
        .ok (.FractionState, ts ++ [⟨sp, ⟨v ++ [c]⟩⟩]) := by
      intro capacity
      simp [step, h.1, pushToLast_snoc]
    have := Lex.cons hs (lex_fraction_digits ts sp cs (v ++ [c]) h.2)
    simpa using this

/-- After the digits of the integer part, a literal with a dot leaves the lexer
in the fraction part. -/
theorem lex_number_dot (ts : TokenContainer) :
    ∀ (cs : List Char) (v : List Char), literalTail cs = true → '.' ∈ cs →
      Lex .NumberState (ts ++ [⟨.Number, ⟨v⟩⟩]) cs .FractionState
        (ts ++ [⟨.Number, ⟨v ++ cs⟩⟩])
  | [], _, _, hdot => by simp at hdot
  | c :: cs, v, h, hdot => by
    unfold literalTail at h
    by_cases hd : c.isDigit = true
    · rw [if_pos hd] at h
      have hs : ∀ capacity, step capacity .NumberState (ts ++ [⟨.Number, ⟨v⟩⟩]) c =
          .ok (.NumberState, ts ++ [⟨.Number, ⟨v ++ [c]⟩⟩]) := by
        intro capacity
        simp [step, hd, pushToLast_snoc]
      have hc : c ≠ '.' := digit_ne_dot c hd
      have hdot' : '.' ∈ cs := by
        rcases List.mem_cons.mp hdot with h1 | h1
        · exact absurd h1.symm hc
        · exact h1
      simpa using Lex.cons hs (lex_number_dot ts cs (v ++ [c]) h hdot')
    · rw [if_neg hd] at h
      simp only [Bool.and_eq_true, decide_eq_true_eq] at h
      obtain ⟨rfl, hcs⟩ := h
      have hs : ∀ capacity, step capacity .NumberState (ts ++ [⟨.Number, ⟨v⟩⟩]) '.' =
          .ok (.FractionState, ts ++ [⟨.Number, ⟨v ++ ['.']⟩⟩]) := by
        intro capacity
        simp [step, pushToLast_snoc]
      simpa using Lex.cons hs (lex_fraction ts cs (v ++ ['.']) hcs)

/-- A literal with a dot, met where a token may start, leaves the lexer in the
fraction part. -/
theorem lex_literal_dot {st : State} (hst : StartsToken st) (ts : TokenContainer) (n : String)
    (hn : isUnsignedLiteral n = true) (hdot : '.' ∈ n.data) :
    Lex st ts n.data .FractionState (ts ++ [⟨.Number, n⟩]) := by
  obtain ⟨cs⟩ := n
  cases cs with
  | nil => simp [isUnsignedLiteral, isLiteralChars] at hn
  | cons c cs =>
    simp only [isUnsignedLiteral, isLiteralChars] at hn
    by_cases hd : c.isDigit = true
    · rw [if_pos hd] at hn
      have hs : ∀ capacity, step capacity st ts c = .ok (.NumberState, ts ++ [⟨.Number, ⟨[c]⟩⟩]) := by
        intro capacity
        rcases hst with rfl | rfl | rfl | rfl <;> simp [step, hd, conv_eq]
      have hc : c ≠ '.' := digit_ne_dot c hd
      have hdot' : '.' ∈ cs := by
        rcases List.mem_cons.mp hdot with h1 | h1
        · exact absurd h1.symm hc
        · exact h1
      simpa using Lex.cons hs (lex_number_dot ts cs [c] hn hdot')
    · rw [if_neg hd] at hn
      simp only [Bool.and_eq_true, decide_eq_true_eq] at hn
      obtain ⟨⟨rfl, _⟩, hcs⟩ := hn
      have hs : ∀ capacity, step capacity st ts '.' = .ok (.FractionState, ts ++ [⟨.Number, ⟨['.']⟩⟩]) := by
        intro capacity
        rcases hst with rfl | rfl | rfl | rfl <;> simp [step, conv_eq]
      simpa using Lex.cons hs (lex_fraction ts cs ['.'] hcs)

/-- C26, as stated, fails on `1.2.3`: the second dot is not appended to the
`Number` token; the tokens are `Number 1.2` and an `Unknown` token, and the
pre-check of `parse` fires. -/
theorem second_decimal_point_counterexample :
    tokenize "1.2.3" = .ok [⟨.Number, "1.2"⟩, ⟨.Unknown, ".3"⟩] ∧
    tokenize "1.2.3" ≠ .ok [⟨.Number, "1.2.3"⟩] ∧
    parse [⟨.Number, "1.2"⟩, ⟨.Unknown, ".3"⟩] SyntaxError.none =
      ([], SyntaxError.mk3 "Unknown symbol: [.3] (:1)" ErrType.UnknownToken [".3"]) := by
  decide

/-- C26, amended. Second decimal point: a dot met in the fraction part of a
number is not appended to the `Number` token; it is pushed as an `Unknown`
token.  For every unsigned numeric literal `n` with a dot and every digit
string `d`, the text `n.d` is tokenized to `Number n` followed by one `Unknown`
token whose text begins with the dot, and the pre-check of `parse` reports that
token, at index 1, as an unknown symbol. -/
theorem second_decimal_point (n d : String) (err : SyntaxError)
    (hn : isUnsignedLiteral n = true) (hdot : '.' ∈ n.data) (hd : allDigits d.data = true) :
    (∀ (capacity : Nat) (ts : TokenContainer),
      step capacity .FractionState ts '.' = .ok (.FractionState, ts ++ [⟨.Unknown, "."⟩])) ∧
    ∃ u : String, u.data.head? = some '.' ∧
      tokenize (n ++ "." ++ d) = .ok [⟨.Number, n⟩, ⟨.Unknown, u⟩] ∧
      parse [⟨.Number, n⟩, ⟨.Unknown, u⟩] err =
        ([], SyntaxError.mk3 ("Unknown symbol: [" ++ u ++ "] (:1)") ErrType.UnknownToken [u]) := by
  have hm : ∀ u : String,
      "Unknown symbol: [" ++ u ++ "] (:" ++ toString (1 : Nat) ++ ")" =
        "Unknown symbol: [" ++ u ++ "] (:1)" := by
    intro u
    rw [String.append_assoc, String.append_assoc]
    rfl
  have hp : ∀ u : String, parse [⟨.Number, n⟩, ⟨.Unknown, u⟩] err =
      ([], SyntaxError.mk3 ("Unknown symbol: [" ++ u ++ "] (:" ++ toString (1 : Nat) ++ ")")
        ErrType.UnknownToken [u]) := fun _ => rfl
  refine ⟨fun _ ts => rfl, ⟨'.' :: d.data⟩, rfl, ?_, by rw [hp, hm]⟩
  have l1 := lex_literal_dot (Or.inl rfl) [] n hn hdot
  have l2 : Lex .FractionState ([] ++ [⟨.Number, n⟩]) ['.'] .FractionState
      ([⟨.Number, n⟩] ++ [⟨.Unknown, ⟨['.']⟩⟩]) := Lex.one (fun _ => rfl)
  have l3 := lex_fraction_digits [⟨.Number, n⟩] .Unknown d.data ['.'] hd
  have hdd : (".": String).data = ['.'] := rfl
  exact Lex.finish (by
    simpa [String.data_append, hdd] using Lex.trans (Lex.trans l1 l2) l3)

/-- The text `1.2.3`: `Number 1.2`, then an `Unknown` token. -/
theorem second_decimal_point_witness :
    ∃ u : String, u.data.head? = some '.' ∧
      tokenize "1.2.3" = .ok [⟨.Number, "1.2"⟩, ⟨.Unknown, u⟩] ∧
      parse [⟨.Number, "1.2"⟩, ⟨.Unknown, u⟩] SyntaxError.none =
        ([], SyntaxError.mk3 ("Unknown symbol: [" ++ u ++ "] (:1)") ErrType.UnknownToken [u]) :=
  (second_decimal_point "1.2" "3" SyntaxError.none (by decide) (by decide) (by decide)).2

/-! ## Identifiers of two or more letters -/

/-- C27. Identifier classification equals whole-word table lookup: an input of
two or more letters is tokenized to one token whose text is the input and whose
kind is the one the whole word has in the function table, else in the constant
table, else in the generator table, else `Variable`. -/
theorem identifier_whole_word_lookup (w : String)
    (hl : w.data.all Char.isAlpha = true) (h2 : 2 ≤ w.length) :
    tokenize w = .ok [⟨classify w, w⟩] := by
  obtain ⟨cs⟩ := w
  match cs, hl, h2 with
  | [], _, h2 => simp [String.length] at h2
  | [_], _, h2 => simp [String.length] at h2
  | c :: d :: cs, hl, _ =>
    simp only [List.all_cons, Bool.and_eq_true] at hl
    have hd := alpha_not_digit c hl.1
    have hdot := alpha_ne_dot c hl.1
    obtain ⟨sp, hsp⟩ := startIdentifier_eq [] c
    have hs : ∀ capacity, step capacity .BeginState [] c = .ok (.VariableState, [] ++ [⟨sp, ⟨[c]⟩⟩]) := by
      intro capacity
      simp [step, hd, hdot, hl.1, hsp]
    have hrest : (d :: cs).all Char.isAlpha = true := by
      simp only [List.all_cons, Bool.and_eq_true]
      exact hl.2
    have hlex := lex_letters [] (d :: cs) .VariableState sp [c] (by simp) hrest (Or.inl rfl)
    exact Lex.finish (by simpa using Lex.cons hs hlex)

/-- The words `sin`, `sine`, `sinc`, `exp`, `tau`. -/
theorem identifier_whole_word_lookup_witness :
    tokenize "sin" = .ok [⟨.Sin, "sin"⟩] ∧
    tokenize "sine" = .ok [⟨.Variable, "sine"⟩] ∧
    tokenize "sinc" = .ok [⟨.Sinc, "sinc"⟩] ∧
    tokenize "exp" = .ok [⟨.Exp, "exp"⟩] ∧
    tokenize "tau" = .ok [⟨.TauConst, "tau"⟩] :=
  ⟨identifier_whole_word_lookup "sin" (by decide) (by decide),
    identifier_whole_word_lookup "sine" (by decide) (by decide),
    identifier_whole_word_lookup "sinc" (by decide) (by decide),
    identifier_whole_word_lookup "exp" (by decide) (by decide),
    identifier_whole_word_lookup "tau" (by decide) (by decide)⟩

/-! ## Operands of a binary operation -/

theorem tokenize_log_call (x y : String)
    (hx : isUnsignedLiteral x = true) (hy : isUnsignedLiteral y = true) :
    tokenize ("log(" ++ x ++ "," ++ y ++ ")") =
      .ok [⟨.Log, "log"⟩, ⟨.LeftPars, "("⟩, ⟨.Number, x⟩, ⟨.Comma, ","⟩, ⟨.Number, y⟩,
        ⟨.RightPars, ")"⟩] := by
  have l0 : Lex .BeginState [] ['l', 'o', 'g', '('] .OperatorState
      [⟨.Log, "log"⟩, ⟨.LeftPars, "("⟩] := fun _ _ => rfl
  obtain ⟨sx, hsx, lx⟩ := lex_literal (Or.inr (Or.inr (Or.inl rfl)))
    [⟨.Log, "log"⟩, ⟨.LeftPars, "("⟩] x hx
  have s1 := Lex.one (step_op_after_num hsx
    ([⟨.Log, "log"⟩, ⟨.LeftPars, "("⟩] ++ [⟨.Number, x⟩]) ',' .Comma rfl (by decide))
  obtain ⟨sy, hsy, ly⟩ := lex_literal (Or.inr (Or.inr (Or.inl rfl)))
    ([⟨.Log, "log"⟩, ⟨.LeftPars, "("⟩] ++ [⟨.Number, x⟩] ++ [⟨.Comma, conv ','⟩]) y hy
  have s2 := Lex.one (step_op_after_num hsy
    ([⟨.Log, "log"⟩, ⟨.LeftPars, "("⟩] ++ [⟨.Number, x⟩] ++ [⟨.Comma, conv ','⟩] ++
      [⟨.Number, y⟩]) ')' .RightPars rfl (by decide))
  have h0 : ("log(" : String).data = ['l', 'o', 'g', '('] := rfl
  have h1 : ("," : String).data = [','] := rfl
  have h2 : (")" : String).data = [')'] := rfl
  exact Lex.finish (by
    simpa [String.data_append, h0, h1, h2] using
      Lex.trans (Lex.trans (Lex.trans (Lex.trans l0 lx) s1) ly) s2)

/-- C30, as stated, fails for the binary operator `Equals` in the silent
evaluator: dequeued with the stack `1, 2` it ends the evaluation with NaN,
whereas going on with the stack `f(1, 2)` gives 1 on the rest `0 ^`; so the text
`(1=2)^0` is NaN for the silent evaluator and 1 for the evaluator without
variables, which has no branch for `Equals`. -/
theorem binary_operand_order_counterexample :
    isBinaryOp .Equals = true ∧
    evalLoopSilent exactArith [⟨.Equals, "="⟩, ⟨.Number, "0"⟩, ⟨.Pow, "^"⟩]
      [exactInt 2, exactInt 1] = .ok exactArith.nan ∧
    evalLoopSilent exactArith [⟨.Number, "0"⟩, ⟨.Pow, "^"⟩]
      [performBinaryFn exactArith .Equals (exactInt 1) (exactInt 2)] = .ok (exactInt 1) ∧
    evalSilent exactArith "(1=2)^0" = .ok exactArith.nan ∧
    evalPlain exactArith "(1=2)^0" SyntaxError.none = .ok (exactInt 1, SyntaxError.none) := by
  decide

/-- C30, amended. Operand order of binary operations: when a binary function or
a binary operator other than `Equals` is dequeued with the value stack ending in
`a`, `b` (`b` on top), each of the three evaluators goes on with the stack ending
in `performBinaryFn(f, a, b)`, `a` being the left and `b` the right operand (the
evaluator without variables does so for `Equals` as well); so for unsigned
numeric literals `x`, `y` the text `x-y` evaluates to `x - y`, `x/y` to `x / y`
and `log(x,y)` to `log(y) / log(x)`. -/
theorem binary_operand_order (A : Arith) (token : Token) (rest : TokenQueue) (a b : A.D)
    (evalStack : List A.D) (target x y : String) (err : SyntaxError) (vars : VarTable A)
    (hf : isBinaryFn token.spec = true ∨ isBinaryOp token.spec = true)
    (hx : isUnsignedLiteral x = true) (hy : isUnsignedLiteral y = true)
    (herr : err.isError = false) :
    (token.spec ≠ .Equals →
      evalLoopVars A target (token :: rest) (b :: a :: evalStack) err vars =
        evalLoopVars A target rest (performBinaryFn A token.spec a b :: evalStack) err vars) ∧
    evalLoopPlain A (token :: rest) (b :: a :: evalStack) err =
      evalLoopPlain A rest (performBinaryFn A token.spec a b :: evalStack) err ∧
    (token.spec ≠ .Equals →
      evalLoopSilent A (token :: rest) (b :: a :: evalStack) =
        evalLoopSilent A rest (performBinaryFn A token.spec a b :: evalStack)) ∧
    performBinaryFn A .Sub a b = A.sub a b ∧
    performBinaryFn A .Div a b = A.div a b ∧
    performBinaryFn A .Log a b = A.div (A.log b) (A.log a) ∧
    evalSilent A (x ++ "-" ++ y) = .ok (A.sub (A.parse x) (A.parse y)) ∧
    evalSilent A (x ++ "/" ++ y) = .ok (A.div (A.parse x) (A.parse y)) ∧
    evalSilent A ("log(" ++ x ++ "," ++ y ++ ")") =
      .ok (A.div (A.log (A.parse y)) (A.log (A.parse x))) ∧
    evalPlain A (x ++ "-" ++ y) err = .ok (A.sub (A.parse x) (A.parse y), err) ∧
    evalPlain A (x ++ "/" ++ y) err = .ok (A.div (A.parse x) (A.parse y), err) ∧
    evalPlain A ("log(" ++ x ++ "," ++ y ++ ")") err =
      .ok (A.div (A.log (A.parse y)) (A.log (A.parse x)), err) ∧
    evalVars A (x ++ "-" ++ y) err vars = .ok ⟨A.sub (A.parse x) (A.parse y), err, vars⟩ ∧
    evalVars A (x ++ "/" ++ y) err vars = .ok ⟨A.div (A.parse x) (A.parse y), err, vars⟩ ∧
    evalVars A ("log(" ++ x ++ "," ++ y ++ ")") err vars =
      .ok ⟨A.div (A.log (A.parse y)) (A.log (A.parse x)), err, vars⟩ := by
  have hf' : isBinaryFn token.spec = true ∨ isBinaryOp token.spec = true := hf
  have t1 : tokenize (x ++ "-" ++ y) = _ := tokenize_two x y '-' .Sub hx hy rfl (by decide)
  have t2 : tokenize (x ++ "/" ++ y) = _ := tokenize_two x y '/' .Div hx hy rfl (by decide)
  have t3 := tokenize_log_call x y hx hy
  have p1 : parse [⟨.Number, x⟩, ⟨.Sub, conv '-'⟩, ⟨.Number, y⟩] err =
      ([⟨.Number, x⟩, ⟨.Number, y⟩, ⟨.Sub, conv '-'⟩], err) := rfl
  have p2 : parse [⟨.Number, x⟩, ⟨.Div, conv '/'⟩, ⟨.Number, y⟩] err =
      ([⟨.Number, x⟩, ⟨.Number, y⟩, ⟨.Div, conv '/'⟩], err) := rfl
  have p3 : parse [⟨.Log, "log"⟩, ⟨.LeftPars, "("⟩, ⟨.Number, x⟩, ⟨.Comma, ","⟩,
      ⟨.Number, y⟩, ⟨.RightPars, ")"⟩] err =
      ([⟨.Number, x⟩, ⟨.Number, y⟩, ⟨.Log, "log"⟩], err) := rfl
  refine ⟨fun hne => ?_, ?_, fun hne => ?_, rfl, rfl, rfl, ?_, ?_, ?_, ?_, ?_, ?_, ?_, ?_, ?_⟩
  · simp only [evalLoopVars, hne, if_false, hf', if_true]
  · simp only [evalLoopPlain, hf', if_true]
  · simp only [evalLoopSilent, hne, if_false, hf', if_true]
  · unfold evalSilent
    rw [t1]
    rfl
  · unfold evalSilent
    rw [t2]
    rfl
  · unfold evalSilent
    rw [t3]
    rfl
  · unfold evalPlain
    rw [t1]
    simp only [p1, herr]
    rfl
  · unfold evalPlain
    rw [t2]
    simp only [p2, herr]
    rfl
  · unfold evalPlain
    rw [t3]
    simp only [p3, herr]
    rfl
  · unfold evalVars
    rw [t1]
    simp only [p1, evalQueueVars, herr]
    rfl
  · unfold evalVars
    rw [t2]
    simp only [p2, evalQueueVars, herr]
    rfl
  · unfold evalVars
    rw [t3]
    simp only [p3, evalQueueVars, herr]
    rfl

/-- The values 5 - 3 = 2 and 6 / 3 = 2, and the step of the loops on `Sub`. -/
theorem binary_operand_order_witness :
    evalLoopSilent exactArith [⟨.Sub, "-"⟩] [exactInt 3, exactInt 5] = .ok (exactInt 2) ∧
    evalSilent exactArith "5-3" = .ok (exactInt 2) ∧
    evalSilent exactArith "6/3" = .ok (exactInt 2) :=
  have h := binary_operand_order exactArith ⟨.Sub, "-"⟩ [] (exactInt 5) (exactInt 3) [] ""
    "5" "3" SyntaxError.none (noVars exactArith) (by decide) (by decide) (by decide)
    (by decide)
  have h6 := binary_operand_order exactArith ⟨.Sub, "-"⟩ [] (exactInt 5) (exactInt 3) [] ""
    "6" "3" SyntaxError.none (noVars exactArith) (by decide) (by decide) (by decide)
    (by decide)
  ⟨(h.2.2.1 (by decide)).trans (by decide), h.2.2.2.2.2.2.1.trans (by decide),
    h6.2.2.2.2.2.2.2.1.trans (by decide)⟩
/-! ## Positions of the parsing errors -/

/-- One iteration of the main loop of `parse`: it goes on with the next index
and a stack made of tokens of the old stack and the current token, or it
returns with one of the two errors at the current index. -/
theorem parseLoop_step (token : Token) (rest : List Token) (index : Nat)
    (output : TokenQueue) (operators : TokenStack) :
    (∃ out' ops', (∀ t ∈ ops', t ∈ operators ∨ t = token) ∧
      ∀ err, parseLoop (token :: rest) index output operators err =
        parseLoop rest (index + 1) out' ops' err) ∨
    (token.spec = .Comma ∧ ∃ q, ∀ err,
      parseLoop (token :: rest) index output operators err = (q, mismatchedSeparators index)) ∨
    ((token.spec = .RightPars ∨ token.spec = .RightArrPars) ∧ ∃ q, ∀ err,
      parseLoop (token :: rest) index output operators err =
        (q, mismatchedParenthesis index)) := by
  by_cases c1 : token.spec = .Number ∨ token.spec = .Variable ∨
      isConstant token.spec = true ∨ isGenerator token.spec = true
  · exact Or.inl ⟨output ++ [token], operators, fun t ht => Or.inl ht,
      fun err => by rw [parseLoop, if_pos c1]⟩
  by_cases c2 : isUnaryOp token.spec = true
  · exact Or.inl ⟨output ++ [token], operators, fun t ht => Or.inl ht,
      fun err => by rw [parseLoop, if_neg c1, if_pos c2]⟩
  by_cases c3 : isFunction token.spec = true ∨ token.spec = .LeftPars
  · refine Or.inl ⟨output, token :: operators, fun t ht => ?_,
      fun err => by rw [parseLoop, if_neg c1, if_neg c2, if_pos c3]⟩
    rcases List.mem_cons.mp ht with h | h
    · exact Or.inr h
    · exact Or.inl h
  by_cases c4 : isBinaryOp token.spec = true
  · obtain ⟨popped, _, h2⟩ := popWhilePrec_split (getPrecedence token.spec) operators output
    rcases hpw : popWhilePrec (getPrecedence token.spec) operators output with ⟨ops', out'⟩
    rw [hpw] at h2
    dsimp only at h2
    refine Or.inl ⟨out', token :: ops', fun t ht => ?_,
      fun err => by rw [parseLoop, if_neg c1, if_neg c2, if_neg c3, if_pos c4, hpw]⟩
    rcases List.mem_cons.mp ht with h | h
    · exact Or.inr h
    · exact Or.inl (h2 ▸ List.mem_append_right _ h)
  by_cases c5 : token.spec = .Comma
  · obtain ⟨popped, _, _, h3⟩ := popUntil_split .LeftPars operators output
    rcases hpu : popUntil .LeftPars operators output with ⟨res, out'⟩
    rw [hpu] at h3
    dsimp only at h3
    rcases h3 with ⟨h4, _⟩ | ⟨top, r, h4, _, h6⟩
    · subst h4
      exact Or.inr (Or.inl ⟨c5, out', fun err => by
        rw [parseLoop, if_neg c1, if_neg c2, if_neg c3, if_neg c4, if_pos c5, hpu]⟩)
    · subst h4
      exact Or.inl ⟨out', top :: r, fun t ht => Or.inl (h6 ▸ List.mem_append_right _ ht),
        fun err => by
          rw [parseLoop, if_neg c1, if_neg c2, if_neg c3, if_neg c4, if_pos c5, hpu]⟩
  have closing : ∀ stop : Spec,
      (token.spec = .RightPars ∨ token.spec = .RightArrPars) →
      (∀ err, parseLoop (token :: rest) index output operators err =
        match popUntil stop operators output with
        | (Option.none, output') => (output', mismatchedParenthesis index)
        | (some operators', output') =>
          match closeBracket operators' output' with
          | (operators'', output'') => parseLoop rest (index + 1) output'' operators'' err) →
      (∃ out' ops', (∀ t ∈ ops', t ∈ operators ∨ t = token) ∧
        ∀ err, parseLoop (token :: rest) index output operators err =
          parseLoop rest (index + 1) out' ops' err) ∨
      (token.spec = .Comma ∧ ∃ q, ∀ err,
        parseLoop (token :: rest) index output operators err =
          (q, mismatchedSeparators index)) ∨
      ((token.spec = .RightPars ∨ token.spec = .RightArrPars) ∧ ∃ q, ∀ err,
        parseLoop (token :: rest) index output operators err =
          (q, mismatchedParenthesis index)) := by
    intro stop hk hdef
    obtain ⟨popped, _, _, h3⟩ := popUntil_split stop operators output
    rcases hpu : popUntil stop operators output with ⟨res, out'⟩
    rw [hpu] at h3
    dsimp only at h3
    rcases h3 with ⟨h4, _⟩ | ⟨top, r, h4, _, h6⟩
    · subst h4
      exact Or.inr (Or.inr ⟨hk, out', fun err => by rw [hdef, hpu]⟩)
    · subst h4
      have hr : ∀ t ∈ r, t ∈ operators :=
        fun t ht => h6 ▸ List.mem_append_right _ (List.mem_cons_of_mem _ ht)
      rcases closeBracket_cons top r out' with hcb | ⟨f, r', hf1, _, hcb⟩
      · exact Or.inl ⟨out', r, fun t ht => Or.inl (hr t ht), fun err => by
          rw [hdef, hpu]
          simp only [hcb]⟩
      · exact Or.inl ⟨out' ++ [f], r',
          fun t ht => Or.inl (hr t (hf1 ▸ List.mem_cons_of_mem _ ht)), fun err => by
            rw [hdef, hpu]
            simp only [hcb]⟩
  by_cases c6 : token.spec = .RightPars
  · exact closing .LeftPars (Or.inl c6) (fun err => by
      rw [parseLoop, if_neg c1, if_neg c2, if_neg c3, if_neg c4, if_neg c5, if_pos c6])
  by_cases c7 : token.spec = .RightArrPars
  · exact closing .LeftArrPars (Or.inr c7) (fun err => by
      rw [parseLoop, if_neg c1, if_neg c2, if_neg c3, if_neg c4, if_neg c5, if_neg c6,
        if_pos c7])
  · exact Or.inl ⟨output, operators, fun t ht => Or.inl ht, fun err => by
      rw [parseLoop, if_neg c1, if_neg c2, if_neg c3, if_neg c4, if_neg c5, if_neg c6,
        if_neg c7]⟩

/-- The final loop returns `err` as it came, or reports the error at `index`
because a `LeftPars` is on the stack. -/
theorem parseFlush_position (index : Nat) :
    ∀ (operators : TokenStack) (output : TokenQueue) (err : SyntaxError),
      (parseFlush index operators output err).2 = err ∨
        ((∃ t ∈ operators, t.spec = .LeftPars) ∧
          (parseFlush index operators output err).2 = mismatchedParenthesis index)
  | [], _, _ => Or.inl rfl
  | top :: operators, output, err => by
    by_cases h : top.spec = .LeftPars
    · exact Or.inr ⟨⟨top, List.mem_cons_self _ _, h⟩, by simp [parseFlush, h]⟩
    · rcases parseFlush_position index operators (output ++ [top]) err with h1 | ⟨⟨t, ht, hs⟩, h1⟩
      · exact Or.inl (by simpa [parseFlush, h] using h1)
      · exact Or.inr ⟨⟨t, List.mem_cons_of_mem _ ht, hs⟩, by simpa [parseFlush, h] using h1⟩

/-- Where the errors of the loops of `parse` point: at the closing bracket or
comma being read, or past the last token when a `LeftPars` stays open. -/
theorem parseLoop_position :
    ∀ (tokens : List Token) (index : Nat) (output : TokenQueue) (operators : TokenStack)
      (err : SyntaxError),
      (parseLoop tokens index output operators err).2 = err ∨
      (∃ k t, tokens[k]? = some t ∧
        ((t.spec = .RightPars ∨ t.spec = .RightArrPars) ∧
            (parseLoop tokens index output operators err).2 =
              mismatchedParenthesis (index + k) ∨
          t.spec = .Comma ∧
            (parseLoop tokens index output operators err).2 =
              mismatchedSeparators (index + k))) ∨
      ((∃ t, (t ∈ operators ∨ t ∈ tokens) ∧ t.spec = .LeftPars) ∧
        (parseLoop tokens index output operators err).2 =
          mismatchedParenthesis (index + tokens.length))
  | [], index, output, operators, err => by
    rcases parseFlush_position index operators output err with h | ⟨⟨t, ht, hs⟩, h⟩
    · exact Or.inl (by simpa [parseLoop] using h)
    · exact Or.inr (Or.inr ⟨⟨t, Or.inl ht, hs⟩, by simpa [parseLoop] using h⟩)
  | token :: rest, index, output, operators, err => by
    rcases parseLoop_step token rest index output operators with
      ⟨out', ops', hops, hstep⟩ | ⟨hc, q, hq⟩ | ⟨hc, q, hq⟩
    · rw [hstep]
      rcases parseLoop_position rest (index + 1) out' ops' err with
        h | ⟨k, t, hk, h⟩ | ⟨⟨t, ht, hs⟩, h⟩
      · exact Or.inl h
      · refine Or.inr (Or.inl ⟨k + 1, t, by simpa using hk, ?_⟩)
        have e : index + (k + 1) = index + 1 + k := by omega
        rw [e]
        exact h
      · refine Or.inr (Or.inr ⟨⟨t, ?_, hs⟩, ?_⟩)
        · rcases ht with ht | ht
          · rcases hops t ht with h1 | h1
            · exact Or.inl h1
            · exact Or.inr (h1 ▸ List.mem_cons_self _ _)
          · exact Or.inr (List.mem_cons_of_mem _ ht)
        · have e : index + (token :: rest).length = index + 1 + rest.length := by
            simp only [List.length_cons]
            omega
          rw [e]
          exact h
    · exact Or.inr (Or.inl ⟨0, token, by simp, Or.inr ⟨hc, by rw [hq]; rfl⟩⟩)
    · exact Or.inr (Or.inl ⟨0, token, by simp, Or.inl ⟨hc, by rw [hq]; rfl⟩⟩)

/-- C29, as stated, fails on the tokens of `(2+3`: the position reported for the
unclosed parenthesis is 4, the number of tokens, not an index of a token. -/
theorem error_position_counterexample :
    tokenize "(2+3" = .ok [⟨.LeftPars, "("⟩, ⟨.Number, "2"⟩, ⟨.Add, "+"⟩, ⟨.Number, "3"⟩] ∧
    (parse [⟨.LeftPars, "("⟩, ⟨.Number, "2"⟩, ⟨.Add, "+"⟩, ⟨.Number, "3"⟩]
        SyntaxError.none).2 =
      SyntaxError.mk2 "Mismatched parenthesis (:4)" ErrType.Parsing ∧
    [⟨.LeftPars, "("⟩, ⟨.Number, "2"⟩, ⟨.Add, "+"⟩, (⟨.Number, "3"⟩ : Token)].length = 4 ∧
    ∀ p, p < 4 →
      (parse [⟨.LeftPars, "("⟩, ⟨.Number, "2"⟩, ⟨.Add, "+"⟩, ⟨.Number, "3"⟩]
          SyntaxError.none).2 ≠ mismatchedParenthesis p := by
  decide

/-- C29, amended. Error positions: when `parse`, entered without a pending
error, reports a `Parsing` error on a token sequence, either the reported
position `p` is the index of a token (`p` is less than the length) and that
token is the `RightPars` or `RightArrPars` (message `Mismatched parenthesis`) or
the `Comma` (message `Mismatched parenthesis or function argument separators`)
that found no `LeftPars` below it; or the error is raised at the end of the
input for a `LeftPars` left open, the sequence holds a `LeftPars` token and the
reported position is the length of the sequence. -/
theorem error_position (tokens : TokenContainer) (err : SyntaxError)
    (herr : err.isError = false) (hp : IsParsingError (parse tokens err).2) :
    (∃ p t, p < tokens.length ∧ tokens[p]? = some t ∧
      ((t.spec = .RightPars ∨ t.spec = .RightArrPars) ∧
          (parse tokens err).2 = mismatchedParenthesis p ∨
        t.spec = .Comma ∧ (parse tokens err).2 = mismatchedSeparators p)) ∨
    ((∃ t ∈ tokens, t.spec = .LeftPars) ∧
      (parse tokens err).2 = mismatchedParenthesis tokens.length) := by
  unfold parse at hp ⊢
  cases hf : findUnknown tokens 0 with
  | some p =>
    rw [hf] at hp
    exact absurd hp.2 (by simp [SyntaxError.mk3])
  | none =>
    rw [hf] at hp
    simp only
    rcases parseLoop_position tokens 0 [] [] err with h | ⟨k, t, hk, h⟩ | ⟨⟨t, ht, hs⟩, h⟩
    · rw [h] at hp
      rw [hp.1] at herr
      exact absurd herr (by simp)
    · refine Or.inl ⟨k, t, ?_, hk, ?_⟩
      · by_contra hlt
        rw [List.getElem?_eq_none (by omega)] at hk
        exact absurd hk (by simp)
      · simpa using h
    · refine Or.inr ⟨⟨t, ?_, hs⟩, by simpa using h⟩
      rcases ht with ht | ht
      · simp at ht
      · exact ht

/-- The tokens of `2+3)` and of `(2+3`: position 3 for the closing parenthesis,
the length 4 for the open one. -/
theorem error_position_witness :
    ((∃ p t, p < 4 ∧
        [⟨.Number, "2"⟩, ⟨.Add, "+"⟩, ⟨.Number, "3"⟩, (⟨.RightPars, ")"⟩ : Token)][p]? = some t ∧
        ((t.spec = .RightPars ∨ t.spec = .RightArrPars) ∧
            (parse [⟨.Number, "2"⟩, ⟨.Add, "+"⟩, ⟨.Number, "3"⟩, ⟨.RightPars, ")"⟩]
              SyntaxError.none).2 = mismatchedParenthesis p ∨
          t.spec = .Comma ∧
            (parse [⟨.Number, "2"⟩, ⟨.Add, "+"⟩, ⟨.Number, "3"⟩, ⟨.RightPars, ")"⟩]
              SyntaxError.none).2 = mismatchedSeparators p)) ∨
      ((∃ t ∈ [⟨.Number, "2"⟩, ⟨.Add, "+"⟩, ⟨.Number, "3"⟩, (⟨.RightPars, ")"⟩ : Token)],
          t.spec = .LeftPars) ∧
        (parse [⟨.Number, "2"⟩, ⟨.Add, "+"⟩, ⟨.Number, "3"⟩, ⟨.RightPars, ")"⟩]
          SyntaxError.none).2 = mismatchedParenthesis 4)) ∧
    (parse [⟨.Number, "2"⟩, ⟨.Add, "+"⟩, ⟨.Number, "3"⟩, ⟨.RightPars, ")"⟩]
      SyntaxError.none).2 = mismatchedParenthesis 3 :=
  ⟨error_position [⟨.Number, "2"⟩, ⟨.Add, "+"⟩, ⟨.Number, "3"⟩, ⟨.RightPars, ")"⟩]
    SyntaxError.none (by decide) (by decide), by decide⟩

/-! ## Base conversion -/

namespace Converter

theorem isDigit_bounds (c : Char) (h : c.isDigit = true) : 48 ≤ c.toNat ∧ c.toNat ≤ 57 := by
  simp only [Char.isDigit, Bool.and_eq_true, decide_eq_true_eq, ge_iff_le, UInt32.le_def,
    BitVec.le_def] at h
  exact h

theorem digitChar_value (d : Nat) (h : d < 16) :
    isxdigit (Nat.digitChar d) = true ∧ digitValue (Nat.digitChar d) = d := by
  interval_cases d <;> decide

/-- A digit of a base up to ten is a decimal digit below the base. -/
theorem digit_of_valid (m : Nat) (hm : m ≤ 10) (c : Char)
    (h : isxdigit c = true ∧ digitValue c < m) : c.isDigit = true ∧ c.toNat - 48 < m := by
  obtain ⟨hx, hv⟩ := h
  unfold digitValue at hv
  unfold isxdigit at hx
  by_cases hd : c.isDigit = true
  · rw [if_pos hd] at hv
    exact ⟨hd, hv⟩
  · rw [if_neg hd] at hv
    simp only [hd, Bool.false_or, Bool.or_eq_true, Bool.and_eq_true, decide_eq_true_eq] at hx
    exfalso
    rcases hx with hx | hx
    · rw [if_pos hx] at hv
      omega
    · have hno : ¬ (97 ≤ c.toNat ∧ c.toNat ≤ 102) := by omega
      rw [if_neg hno] at hv
      omega

/-- The digits of base two are the characters `0` and `1`. -/
theorem binary_of_valid (c : Char) (h : isxdigit c = true ∧ digitValue c < 2) :
    c = '0' ∨ c = '1' := by
  obtain ⟨hd, hv⟩ := digit_of_valid 2 (by omega) c h
  obtain ⟨h1, _⟩ := isDigit_bounds c hd
  have hc : c.toNat = 48 ∨ c.toNat = 49 := by omega
  rcases hc with hc | hc
  · left
    rw [← Char.ofNat_toNat c, hc]
  · right
    rw [← Char.ofNat_toNat c, hc]

theorem numeralDigits_snoc (m : Nat) (c : Char) :
    ∀ (cs : List Char) (acc : Nat),
      numeralDigits m (cs ++ [c]) acc =
        (numeralDigits m cs acc).bind (fun v =>
          if isxdigit c = true ∧ digitValue c < m then some (m * v + digitValue c)
          else Option.none)
  | [], acc => by
    simp only [List.nil_append, numeralDigits, Option.some_bind]
  | x :: cs, acc => by
    simp only [List.cons_append, numeralDigits]
    by_cases hx : isxdigit x = true ∧ digitValue x < m
    · rw [if_pos hx, if_pos hx]
      exact numeralDigits_snoc m c cs _
    · rw [if_neg hx, if_neg hx]
      rfl

theorem numeralDigits_valid (m : Nat) :
    ∀ (cs : List Char) (acc n : Nat), numeralDigits m cs acc = some n →
      ∀ c ∈ cs, isxdigit c = true ∧ digitValue c < m
  | [], _, _, _ => by simp
  | x :: cs, acc, n, h => by
    unfold numeralDigits at h
    by_cases hx : isxdigit x = true ∧ digitValue x < m
    · rw [if_pos hx] at h
      intro c hc
      rcases List.mem_cons.mp hc with rfl | hc
      · exact hx
      · exact numeralDigits_valid m cs _ n h c hc
    · rw [if_neg hx] at h
      exact absurd h (by simp)

theorem numeralDigits_foldl (m : Nat) :
    ∀ (cs : List Char) (acc n : Nat), numeralDigits m cs acc = some n →
      cs.foldl (fun acc c => m * acc + digitValue c) acc = n
  | [], acc, n, h => by
    simpa [numeralDigits] using h
  | x :: cs, acc, n, h => by
    unfold numeralDigits at h
    by_cases hx : isxdigit x = true ∧ digitValue x < m
    · rw [if_pos hx] at h
      simpa using numeralDigits_foldl m cs _ n h
    · rw [if_neg hx] at h
      exact absurd h (by simp)

/-- The extraction reads a numeral that fits 64 bits as the number it denotes. -/
theorem read_value (m : Nat) (s : String) (n : Nat) (hne : s.data ≠ [])
    (h : numeralDigits m s.data 0 = some n) (hn : n < 2 ^ 64) : read s m = some n := by
  have hall := numeralDigits_valid m s.data 0 n h
  have htw : s.data.takeWhile (fun c => isxdigit c && decide (digitValue c < m)) = s.data := by
    rw [List.takeWhile_eq_self_iff]
    intro c hc
    simpa using hall c hc
  unfold read
  simp only [if_neg hne, htw, numeralDigits_foldl m s.data 0 n h, hn, if_true]

/-- The bitset built from a numeral of base two of at most 128 digits holds the
number it denotes. -/
theorem bitsetOfString_value (s : String) (n : Nat)
    (h : numeralDigits 2 s.data 0 = some n) (hlen : s.length ≤ 128) :
    bitsetOfString s = n := by
  have hall := numeralDigits_valid 2 s.data 0 n h
  have htake : s.data.take 128 = s.data := List.take_of_length_le hlen
  have hfold : ∀ (cs : List Char) (acc : Nat), (∀ c ∈ cs, c = '0' ∨ c = '1') →
      cs.foldl (fun acc c => 2 * acc + (if c = '1' then 1 else 0)) acc =
        cs.foldl (fun acc c => 2 * acc + digitValue c) acc := by
    intro cs
    induction cs with
    | nil => intro _ _; rfl
    | cons x cs ih =>
      intro acc hx
      have hcs : ∀ c ∈ cs, c = '0' ∨ c = '1' := fun c hc => hx c (List.mem_cons_of_mem _ hc)
      rcases hx x (List.mem_cons_self _ _) with rfl | rfl
      · simpa using ih _ hcs
      · simpa using ih _ hcs
  unfold bitsetOfString
  rw [htake, hfold s.data 0 (fun c hc => binary_of_valid c (hall c hc))]
  exact numeralDigits_foldl 2 s.data 0 n h

theorem showDigits_value (m : Nat) (h2 : 2 ≤ m) (h16 : m ≤ 16) :
    ∀ (fuel num : Nat), num < m ^ fuel →
      numeralDigits m (showDigits m fuel num) 0 = some num
  | 0, num, h => by
    have h0 : num = 0 := by simpa using h
    subst h0
    rfl
  | fuel + 1, num, h => by
    unfold showDigits
    by_cases hlt : num < m
    · rw [if_pos hlt]
      obtain ⟨e1, e2⟩ := digitChar_value num (by omega)
      simp [numeralDigits, e1, e2, hlt]
    · rw [if_neg hlt]
      have hdiv : num / m < m ^ fuel := by
        apply Nat.div_lt_of_lt_mul
        rw [← pow_succ']
        exact h
      have hmod : num % m < m := Nat.mod_lt _ (by omega)
      obtain ⟨e1, e2⟩ := digitChar_value (num % m) (by omega)
      rw [numeralDigits_snoc, showDigits_value m h2 h16 fuel (num / m) hdiv]
      simp [e1, e2, hmod, Nat.div_add_mod]

theorem showDigits_ne_nil (m fuel num : Nat) : showDigits m (fuel + 1) num ≠ [] := by
  unfold showDigits
  split <;> simp

/-- The text written for a number of 64 bits in base 8, 10 or 16 denotes it. -/
theorem showBase_value (m : Nat) (h2 : 2 ≤ m) (h16 : m ≤ 16) (num : Nat) (h : num < 2 ^ 64) :
    numeralValue m (showBase m num) = some num := by
  have hp : num < m ^ 64 := lt_of_lt_of_le h (Nat.pow_le_pow_left h2 64)
  unfold numeralValue showBase
  rw [if_neg (showDigits_ne_nil m 63 num)]
  exact showDigits_value m h2 h16 64 num hp

theorem bitsToString_value :
    ∀ (width bits : Nat), bits < 2 ^ width →
      numeralDigits 2 (bitsToString width bits) 0 = some bits
  | 0, bits, h => by
    have h0 : bits = 0 := by simpa using h
    subst h0
    rfl
  | width + 1, bits, h => by
    have hdiv : bits / 2 < 2 ^ width := by
      apply Nat.div_lt_of_lt_mul
      rw [← pow_succ']
      exact h
    have e0 : isxdigit '0' = true ∧ digitValue '0' = 0 := by decide
    have e1 : isxdigit '1' = true ∧ digitValue '1' = 1 := by decide
    unfold bitsToString
    rw [numeralDigits_snoc, bitsToString_value width (bits / 2) hdiv]
    have hb : bits % 2 = 0 ∨ bits % 2 = 1 := by omega
    rcases hb with hb | hb
    · have hc : (if bits % 2 = 1 then '1' else '0') = '0' := by simp [hb]
      rw [hc]
      simp only [e0.1, e0.2, Option.some_bind]
      simp
      omega
    · have hc : (if bits % 2 = 1 then '1' else '0') = '1' := by simp [hb]
      rw [hc]
      simp only [e1.1, e1.2, Option.some_bind]
      simp
      omega

/-- Leading zeros do not change the number a numeral denotes. -/
theorem numeralDigits_trim (m : Nat) (hm : 0 < m) :
    ∀ cs : List Char,
      numeralDigits m (cs.dropWhile (fun x => x = '0')) 0 = numeralDigits m cs 0
  | [] => rfl
  | c :: cs => by
    by_cases hc : c = '0'
    · subst hc
      have e0 : isxdigit '0' = true ∧ digitValue '0' = 0 := by decide
      have hd : List.dropWhile (fun x => decide (x = '0')) ('0' :: cs) =
          List.dropWhile (fun x => decide (x = '0')) cs :=
        List.dropWhile_cons_of_pos (by simp)
      rw [hd, numeralDigits_trim m hm cs]
      simp [numeralDigits, e0.1, e0.2, hm]
    · have hd : List.dropWhile (fun x => decide (x = '0')) (c :: cs) = c :: cs :=
        List.dropWhile_cons_of_neg (by simpa using hc)
      rw [hd]

/-- The bits of a positive number, written out and stripped of the leading
zeros, denote it in base two. -/
theorem trimmed_bits_value (width bits : Nat) (hpos : 0 < bits) (h : bits < 2 ^ width) :
    numeralValue 2 ⟨(bitsToString width bits).dropWhile (fun x => x = '0')⟩ = some bits := by
  have hv := bitsToString_value width bits h
  rw [← numeralDigits_trim 2 (by omega)] at hv
  unfold numeralValue
  generalize (bitsToString width bits).dropWhile (fun x => x = '0') = ds at hv ⊢
  cases ds with
  | nil =>
    simp only [numeralDigits, Option.some.injEq] at hv
    omega
  | cons d ds =>
    rw [if_neg (by simp)]
    exact hv

end Converter
namespace Converter

theorem split_full :
    ∀ (cs : List Char) (buffer : List String) (curr : String), 2 ≤ buffer.length →
      split cs buffer curr = (buffer, ⟨curr.data ++ cs⟩)
  | [], buffer, curr, _ => by simp [split]
  | c :: cs, buffer, curr, h => by
    have hn : ¬ (buffer.length < 2 ∧ (c = ' ' ∨ (c = ':' ∧ curr.length ≠ 0))) :=
      fun h' => absurd h'.1 (by omega)
    rw [split, if_neg hn, split_full cs buffer (curr.push c) h]
    simp [String.push]

theorem split_name :
    ∀ (cs rest : List Char) (buffer : List String) (curr : String),
      (∀ c ∈ cs, c ≠ ' ' ∧ c ≠ ':') →
      split (cs ++ rest) buffer curr = split rest buffer ⟨curr.data ++ cs⟩
  | [], rest, buffer, curr, _ => by simp
  | c :: cs, rest, buffer, curr, h => by
    obtain ⟨h1, h2⟩ := h c (List.mem_cons_self _ _)
    have hn : ¬ (buffer.length < 2 ∧ (c = ' ' ∨ (c = ':' ∧ curr.length ≠ 0))) := by
      rintro ⟨_, h3 | ⟨h3, _⟩⟩
      · exact h1 h3
      · exact h2 h3
    rw [List.cons_append, split, if_neg hn,
      split_name cs rest buffer (curr.push c) (fun d hd => h d (List.mem_cons_of_mem _ hd))]
    simp [String.push]

theorem baseName_chars (b : Spec) :
    (∀ c ∈ (baseName b).data, c ≠ ' ' ∧ c ≠ ':') ∧ (baseName b).length ≠ 0 := by
  cases b <;> decide

theorem split_word (w : String) (rest : List Char) (buffer : List String)
    (h : ∀ c ∈ w.data, c ≠ ' ' ∧ c ≠ ':') :
    split (w.data ++ rest) buffer "" = split rest buffer w := by
  rw [split_name w.data rest buffer "" h]
  rfl

theorem split_separator (w : String) (c : Char) (rest : List Char) (buffer : List String)
    (hlen : buffer.length < 2) (hsep : c = ' ' ∨ (c = ':' ∧ w.length ≠ 0)) :
    split (c :: rest) buffer w = split rest (buffer ++ [w]) "" := by
  rw [split, if_pos ⟨hlen, hsep⟩]

/-- The input `from:to s` is cut into the two base names and `s`. -/
theorem split_input (source target : Spec) (s : String) :
    split (baseName source ++ ":" ++ baseName target ++ " " ++ s).data [] "" =
      ([baseName source, baseName target], s) := by
  have h1 : (":" : String).data = [':'] := rfl
  have h2 : (" " : String).data = [' '] := rfl
  have e : (baseName source ++ ":" ++ baseName target ++ " " ++ s).data =
      (baseName source).data ++ (':' :: ((baseName target).data ++ (' ' :: s.data))) := by
    simp [String.data_append, h1, h2]
  rw [e, split_word _ _ _ (baseName_chars source).1,
    split_separator _ _ _ _ (by simp) (Or.inr ⟨rfl, (baseName_chars source).2⟩),
    split_word _ _ _ (baseName_chars target).1,
    split_separator _ _ _ _ (by simp) (Or.inl rfl),
    split_full _ _ _ (by simp)]
  rfl

theorem ops_baseName (b : Spec) : ops (baseName b) = some b := by
  cases b <;> rfl

end Converter

/-- C22. Base conversion preserves the number: for source and target bases among
bin, oct, dec, hex and every numeral `s` of the source base, of at most 64
digits, that denotes a number `n` with `0 < n < 2^64`, `convert` on `from:to s`
returns `error` as it came (no error is reported) and a numeral that denotes `n`
in the target base.  The helpers taken from outside the sources are assumed to
leave the lowercase base names unchanged (`my::toLower`) and to strip the
leading zeros (`my::trimStart`). -/
theorem base_conversion (H : Converter.Helpers) (source target : Converter.Spec) (s : String)
    (n : Nat) (error : SyntaxError)
    (hlow : ∀ b : Converter.Spec, H.toLower (Converter.baseName b) = Converter.baseName b)
    (htrim : ∀ t : String, H.trimStart t '0' = ⟨t.data.dropWhile (fun x => x = '0')⟩)
    (hs : Converter.numeralValue (Converter.radix source) s = some n)
    (hlen : s.length ≤ 64) (hpos : 0 < n) (hn : n < 2 ^ 64) :
    ∃ r, Converter.convert H
        (Converter.baseName source ++ ":" ++ Converter.baseName target ++ " " ++ s) error =
          some (r, error) ∧
      Converter.numeralValue (Converter.radix target) r = some n := by
  have hne : s.data ≠ [] := by
    intro he
    unfold Converter.numeralValue at hs
    rw [if_pos he] at hs
    exact absurd hs (by simp)
  have hd : Converter.numeralDigits (Converter.radix source) s.data 0 = some n := by
    unfold Converter.numeralValue at hs
    rw [if_neg hne] at hs
    exact hs
  have hall := Converter.numeralDigits_valid (Converter.radix source) s.data 0 n hd
  have hconv : Converter.convert H
      (Converter.baseName source ++ ":" ++ Converter.baseName target ++ " " ++ s) error =
        Converter.toBase H source target s error := by
    unfold Converter.convert
    rw [Converter.split_input]
    simp only [List.cons_append, List.nil_append, hlow, Converter.ops_baseName]
  have hbin : Converter.numeralValue 2
      (H.trimStart ⟨Converter.bitsToString 128 n⟩ '0') = some n := by
    rw [htrim]
    exact Converter.trimmed_bits_value 128 n hpos
      (lt_of_lt_of_le hn (Nat.pow_le_pow_right (by omega) (by omega)))
  have hull : Converter.toUllong n = some n := by
    unfold Converter.toUllong
    rw [if_pos hn]
  have h8 := Converter.showBase_value 8 (by omega) (by omega) n hn
  have h10 := Converter.showBase_value 10 (by omega) (by omega) n hn
  have h16 := Converter.showBase_value 16 (by omega) (by omega) n hn
  rw [hconv]
  cases source with
  | Bin =>
    have hfind : s.data.find? (fun el => decide (el ≠ '0' ∧ el ≠ '1')) = Option.none := by
      rw [List.find?_eq_none]
      intro c hc
      rcases Converter.binary_of_valid c (hall c hc) with rfl | rfl <;> simp
    have hbits : Converter.bitsetOfString s = n :=
      Converter.bitsetOfString_value s n hd (by omega)
    cases target <;> simp only [Converter.toBase, hfind, hbits, hull, Option.map_some']
    · exact ⟨_, rfl, hbin⟩
    · exact ⟨_, rfl, h8⟩
    · exact ⟨_, rfl, h10⟩
    · exact ⟨_, rfl, h16⟩
  | Oct =>
    have hfind : s.data.find? (fun el => !el.isDigit || decide (el.toNat - 48 ≥ 8)) =
        Option.none := by
      rw [List.find?_eq_none]
      intro c hc
      obtain ⟨h1, h2⟩ := Converter.digit_of_valid 8 (by omega) c (hall c hc)
      simp [h1]
      omega
    have hread : Converter.read s 8 = some n := Converter.read_value 8 s n hne hd hn
    cases target <;> simp only [Converter.toBase, hfind, hread, Option.map_some']
    · exact ⟨_, rfl, hbin⟩
    · exact ⟨_, rfl, hs⟩
    · exact ⟨_, rfl, h10⟩
    · exact ⟨_, rfl, h16⟩
  | Dec =>
    have hfind : s.data.find? (fun el => !el.isDigit) = Option.none := by
      rw [List.find?_eq_none]
      intro c hc
      obtain ⟨h1, _⟩ := Converter.digit_of_valid 10 (by omega) c (hall c hc)
      simp [h1]
    have hread : Converter.read s 10 = some n := Converter.read_value 10 s n hne hd hn
    cases target <;> simp only [Converter.toBase, hfind, hread, Option.map_some']
    · exact ⟨_, rfl, hbin⟩
    · exact ⟨_, rfl, h8⟩
    · exact ⟨_, rfl, hs⟩
    · exact ⟨_, rfl, h16⟩
  | Hex =>
    have hfind : s.data.find? (fun el => !Converter.isxdigit el) = Option.none := by
      rw [List.find?_eq_none]
      intro c hc
      simp [(hall c hc).1]
    have hread : Converter.read s 16 = some n := Converter.read_value 16 s n hne hd hn
    cases target <;> simp only [Converter.toBase, hfind, hread, Option.map_some']
    · exact ⟨_, rfl, hbin⟩
    · exact ⟨_, rfl, h8⟩
    · exact ⟨_, rfl, h10⟩
    · exact ⟨_, rfl, hs⟩

set_option maxRecDepth 8000 in
/-- The documented examples: `dec:bin 342` gives `101010110`, `hex:dec 156` gives
`342` and `bin:oct 101010110` gives `526`. -/
theorem base_conversion_witness :
    (∃ r, Converter.convert Converter.plainHelpers "hex:dec 156" SyntaxError.none =
        some (r, SyntaxError.none) ∧
      Converter.numeralValue 10 r = some 342) ∧
    (∃ r, Converter.convert Converter.plainHelpers "dec:bin 342" SyntaxError.none =
        some (r, SyntaxError.none) ∧
      Converter.numeralValue 2 r = some 342) ∧
    Converter.convert Converter.plainHelpers "dec:bin 342" SyntaxError.none =
      some ("101010110", SyntaxError.none) ∧
    Converter.convert Converter.plainHelpers "hex:dec 156" SyntaxError.none =
      some ("342", SyntaxError.none) ∧
    Converter.convert Converter.plainHelpers "bin:oct 101010110" SyntaxError.none =
      some ("526", SyntaxError.none) :=
  ⟨base_conversion Converter.plainHelpers .Hex .Dec "156" 342 SyntaxError.none
      (fun b => by cases b <;> rfl) (fun _ => rfl) (by decide) (by decide) (by decide)
      (by decide),
    base_conversion Converter.plainHelpers .Dec .Bin "342" 342 SyntaxError.none
      (fun b => by cases b <;> rfl) (fun _ => rfl) (by decide) (by decide) (by decide)
      (by decide),
    by decide, by decide, by decide⟩

/-! ## The value stack at an assignment -/

/-- C31. A read of the empty value stack: on `x =` the postfix queue is
`x =`, the leading variable becomes the assignment target, and the `Equals`
branch reads `evalStack.back()` while the stack is empty, after its two checks
(more than one value, no target) have passed; so the evaluator with variables
has no defined result on `x =`.  The binary and unary branches test the stack
first: `*` alone gives the error `Evaluation error`. -/
theorem assignment_reads_empty_stack :
    tokenize "x =" = .ok [⟨.Variable, "x"⟩, ⟨.Equals, "="⟩] ∧
    parse [⟨.Variable, "x"⟩, ⟨.Equals, "="⟩] SyntaxError.none =
      ([⟨.Variable, "x"⟩, ⟨.Equals, "="⟩], SyntaxError.none) ∧
    (∀ (A : Arith) (target : String) (rest : TokenQueue) (err : SyntaxError) (vars : VarTable A),
      target ≠ "" →
      evalLoopVars A target (⟨.Equals, "="⟩ :: rest) [] err vars = .emptyBack) ∧
    (∀ (A : Arith) (vars : VarTable A), evalVars A "x =" SyntaxError.none vars = .emptyBack) ∧
    (∀ (A : Arith) (vars : VarTable A),
      evalVars A "*" SyntaxError.none vars = .ok ⟨A.nan, evaluationError, vars⟩) := by
  refine ⟨by decide, by decide, ?_, ?_, ?_⟩
  · intro A target rest err vars ht
    simp [evalLoopVars, ht]
  · intro A vars
    have t : tokenize "x =" = .ok [⟨.Variable, "x"⟩, ⟨.Equals, "="⟩] := by decide
    unfold evalVars
    rw [t]
    rfl
  · intro A vars
    have t : tokenize "*" = .ok [⟨.Mul, "*"⟩] := by decide
    unfold evalVars
    rw [t]
    rfl

/-! ## The classes of token kinds -/

/-- C32. Token classification is a partition: for every token kind at most one
of `isUnaryOp`, `isBinaryOp`, `isUnaryFn`, `isBinaryFn`, `isConstant`,
`isGenerator` holds; `isOperator` holds exactly when `isUnaryOp` or `isBinaryOp`
does and `isFunction` exactly when `isUnaryFn` or `isBinaryFn` does; none holds
for `Unknown`, the five punctuation kinds, `Number` and `Variable`; and the
kinds of the tables `funcs`, `consts` and `gens` are functions, constants and
generators. -/
theorem classification_partition :
    (∀ s : Spec,
      [isUnaryOp s, isBinaryOp s, isUnaryFn s, isBinaryFn s, isConstant s,
        isGenerator s].count true ≤ 1) ∧
    (∀ s : Spec, isOperator s = (isUnaryOp s || isBinaryOp s)) ∧
    (∀ s : Spec, isFunction s = (isUnaryFn s || isBinaryFn s)) ∧
    (∀ s ∈ [Spec.Unknown, .LeftPars, .RightPars, .Comma, .LeftArrPars, .RightArrPars,
        .Number, .Variable],
      isUnaryOp s = false ∧ isBinaryOp s = false ∧ isUnaryFn s = false ∧
        isBinaryFn s = false ∧ isConstant s = false ∧ isGenerator s = false ∧
        isOperator s = false ∧ isFunction s = false) ∧
    (∀ p ∈ funcsTable, isFunction p.2 = true) ∧
    (∀ p ∈ constsTable, isConstant p.2 = true) ∧
    (∀ p ∈ gensTable, isGenerator p.2 = true) := by
  refine ⟨fun s => ?_, fun s => ?_, fun s => ?_, by decide, by decide, by decide, by decide⟩
  · cases s <;> decide
  · cases s <;> decide
  · cases s <;> decide

/-! ## Unary minus after a multiplicative operator -/

theorem step_minus_after_operator (ts : TokenContainer) (op : Spec) (w : String)
    (h1 : op ≠ .RightPars) (h2 : isUnaryOp op = false) :
    ∀ capacity, step capacity .OperatorState (ts ++ [⟨op, w⟩]) '-' =
      .ok (.UnaryOperatorState, ts ++ [⟨op, w⟩] ++ [⟨.Number, "-1"⟩, ⟨.Mul, "*"⟩]) := by
  intro capacity
  simp [step, ops, opsTable, find, h1, h2]

theorem tokenize_minus_after (a b : String) (c : Char) (op : Spec)
    (ha : isUnsignedLiteral a = true) (hb : isUnsignedLiteral b = true)
    (hc : ops c = some op) (h0 : op ≠ .LeftPars) (h1 : op ≠ .RightPars)
    (h2 : isUnaryOp op = false) :
    tokenize (a ++ ⟨[c, '-']⟩ ++ b) =
      .ok [⟨.Number, a⟩, ⟨op, conv c⟩, ⟨.Number, "-1"⟩, ⟨.Mul, "*"⟩, ⟨.Number, b⟩] := by
  obtain ⟨sa, hsa, la⟩ := lex_literal (Or.inl rfl) [] a ha
  have s1 := Lex.one (step_op_after_num hsa [⟨.Number, a⟩] c op hc h0)
  have s2 := Lex.one (step_minus_after_operator [⟨.Number, a⟩] op (conv c) h1 h2)
  obtain ⟨sb, _, lb⟩ := lex_literal (Or.inr (Or.inr (Or.inr rfl)))
    ([⟨.Number, a⟩] ++ [⟨op, conv c⟩] ++ [⟨.Number, "-1"⟩, ⟨.Mul, "*"⟩]) b hb
  have h12 : Lex sa ([] ++ [⟨.Number, a⟩]) [c, '-'] .UnaryOperatorState
      ([⟨.Number, a⟩] ++ [⟨op, conv c⟩] ++ [⟨.Number, "-1"⟩, ⟨.Mul, "*"⟩]) := Lex.trans s1 s2
  exact Lex.finish (by
    simpa [String.data_append] using Lex.trans (Lex.trans la h12) lb)

/-- C34. Unary minus after an operator of precedence at least 2 binds to the
left operand: for unsigned numeric literals `a`, `b` the text `a`, slash,
minus, `b` is tokenized to `a`, `Div`, `Number -1`, `Mul`, `b` and parsed to the postfix
sequence `a -1 / b *`, so it evaluates to `(a / -1) * b`; likewise `a^-b` is
parsed to `a -1 ^ b *` and evaluates to `(a ^ -1) * b`. -/
theorem unary_minus_binds_left (A : Arith) (a b : String) (err : SyntaxError)
    (vars : VarTable A)
    (ha : isUnsignedLiteral a = true) (hb : isUnsignedLiteral b = true)
    (herr : err.isError = false) :
    tokenize (a ++ "/-" ++ b) =
      .ok [⟨.Number, a⟩, ⟨.Div, "/"⟩, ⟨.Number, "-1"⟩, ⟨.Mul, "*"⟩, ⟨.Number, b⟩] ∧
    parse [⟨.Number, a⟩, ⟨.Div, "/"⟩, ⟨.Number, "-1"⟩, ⟨.Mul, "*"⟩, ⟨.Number, b⟩] err =
      ([⟨.Number, a⟩, ⟨.Number, "-1"⟩, ⟨.Div, "/"⟩, ⟨.Number, b⟩, ⟨.Mul, "*"⟩], err) ∧
    evalSilent A (a ++ "/-" ++ b) =
      .ok (A.mul (A.div (A.parse a) (A.parse "-1")) (A.parse b)) ∧
    evalPlain A (a ++ "/-" ++ b) err =
      .ok (A.mul (A.div (A.parse a) (A.parse "-1")) (A.parse b), err) ∧
    evalVars A (a ++ "/-" ++ b) err vars =
      .ok ⟨A.mul (A.div (A.parse a) (A.parse "-1")) (A.parse b), err, vars⟩ ∧
    tokenize (a ++ "^-" ++ b) =
      .ok [⟨.Number, a⟩, ⟨.Pow, "^"⟩, ⟨.Number, "-1"⟩, ⟨.Mul, "*"⟩, ⟨.Number, b⟩] ∧
    parse [⟨.Number, a⟩, ⟨.Pow, "^"⟩, ⟨.Number, "-1"⟩, ⟨.Mul, "*"⟩, ⟨.Number, b⟩] err =
      ([⟨.Number, a⟩, ⟨.Number, "-1"⟩, ⟨.Pow, "^"⟩, ⟨.Number, b⟩, ⟨.Mul, "*"⟩], err) ∧
    evalSilent A (a ++ "^-" ++ b) =
      .ok (A.mul (A.pow (A.parse a) (A.parse "-1")) (A.parse b)) := by
  have t1 : tokenize (a ++ "/-" ++ b) = _ :=
    tokenize_minus_after a b '/' .Div ha hb rfl (by decide) (by decide) (by decide)
  have t2 : tokenize (a ++ "^-" ++ b) = _ :=
    tokenize_minus_after a b '^' .Pow ha hb rfl (by decide) (by decide) (by decide)
  have p1 : parse [⟨.Number, a⟩, ⟨.Div, conv '/'⟩, ⟨.Number, "-1"⟩, ⟨.Mul, "*"⟩,
      ⟨.Number, b⟩] err =
      ([⟨.Number, a⟩, ⟨.Number, "-1"⟩, ⟨.Div, conv '/'⟩, ⟨.Number, b⟩, ⟨.Mul, "*"⟩], err) := rfl
  refine ⟨t1, rfl, ?_, ?_, ?_, t2, rfl, ?_⟩
  · unfold evalSilent
    rw [t1]
    rfl
  · unfold evalPlain
    rw [t1]
    simp only [p1, herr]
    rfl
  · unfold evalVars
    rw [t1]
    simp only [p1, evalQueueVars, herr]
    rfl
  · unfold evalSilent
    rw [t2]
    rfl

/-- The value -12 on the text 6, slash, minus, 2. -/
theorem unary_minus_binds_left_witness :
    tokenize "6/-2" =
      .ok [⟨.Number, "6"⟩, ⟨.Div, "/"⟩, ⟨.Number, "-1"⟩, ⟨.Mul, "*"⟩, ⟨.Number, "2"⟩] ∧
    evalSilent exactArith "6/-2" = .ok (exactInt (-12)) :=
  have h := unary_minus_binds_left exactArith "6" "2" SyntaxError.none (noVars exactArith)
    (by decide) (by decide) (by decide)
  ⟨h.1, h.2.2.1.trans (by decide)⟩

/-! ## An assignment without parentheses -/

theorem step_op_read (ts : TokenContainer) (c : Char) (op : Spec) (hc : ops c = some op) :
    ∀ capacity, step capacity .ReadState ts c = .ok (.OperatorState, ts ++ [⟨op, conv c⟩]) := by
  intro capacity
  obtain ⟨h1, h2, h3, _, _⟩ := ops_char c op hc
  simp [step, h1, h2, h3, hc]

theorem tokenize_assignment_op (v a b : String) (c : Char) (op : Spec)
    (hv : isPlainName v = true) (ha : isUnsignedLiteral a = true)
    (hb : isUnsignedLiteral b = true) (hc : ops c = some op) :
    tokenize (v ++ " = " ++ a ++ " " ++ ⟨[c]⟩ ++ " " ++ b) =
      .ok [⟨.Variable, v⟩, ⟨.Equals, "="⟩, ⟨.Number, a⟩, ⟨op, conv c⟩, ⟨.Number, b⟩] := by
  have h1 := lex_name (Or.inl rfl) [] v hv
  have h2 : Lex .VariableState ([] ++ [⟨.Variable, v⟩]) [' ', '=', ' '] .OperatorState
      [⟨.Variable, v⟩, ⟨.Equals, "="⟩] := fun _ _ => rfl
  obtain ⟨sa, hsa, la⟩ := lex_literal (Or.inr (Or.inr (Or.inl rfl)))
    [⟨.Variable, v⟩, ⟨.Equals, "="⟩] a ha
  have s1 := Lex.one (step_blank_after_num hsa
    ([⟨.Variable, v⟩, ⟨.Equals, "="⟩] ++ [⟨.Number, a⟩]))
  have s2 := Lex.one (step_op_read
    ([⟨.Variable, v⟩, ⟨.Equals, "="⟩] ++ [⟨.Number, a⟩]) c op hc)
  have s3 : Lex .OperatorState
      ([⟨.Variable, v⟩, ⟨.Equals, "="⟩] ++ [⟨.Number, a⟩] ++ [⟨op, conv c⟩]) [' ']
      .OperatorState
      ([⟨.Variable, v⟩, ⟨.Equals, "="⟩] ++ [⟨.Number, a⟩] ++ [⟨op, conv c⟩]) :=
    Lex.one (fun _ => rfl)
  obtain ⟨sb, _, lb⟩ := lex_literal (Or.inr (Or.inr (Or.inl rfl)))
    ([⟨.Variable, v⟩, ⟨.Equals, "="⟩] ++ [⟨.Number, a⟩] ++ [⟨op, conv c⟩]) b hb
  have hsp : (" " : String).data = [' '] := rfl
  have heq : (" = " : String).data = [' ', '=', ' '] := rfl
  exact Lex.finish (by
    simpa [String.data_append, hsp, heq] using
      Lex.trans (Lex.trans (Lex.trans (Lex.trans (Lex.trans (Lex.trans h1 h2) la) s1) s2) s3) lb)

theorem tokenize_assignment_minus (v n : String)
    (hv : isPlainName v = true) (hn : isUnsignedLiteral n = true) :
    tokenize (v ++ " = -" ++ n) =
      .ok [⟨.Variable, v⟩, ⟨.Equals, "="⟩, ⟨.Number, "-1"⟩, ⟨.Mul, "*"⟩, ⟨.Number, n⟩] := by
  have h1 := lex_name (Or.inl rfl) [] v hv
  have h2 : Lex .VariableState ([] ++ [⟨.Variable, v⟩]) [' ', '=', ' ', '-']
      .UnaryOperatorState
      [⟨.Variable, v⟩, ⟨.Equals, "="⟩, ⟨.Number, "-1"⟩, ⟨.Mul, "*"⟩] := fun _ _ => rfl
  obtain ⟨sn, _, ln⟩ := lex_literal (Or.inr (Or.inr (Or.inr rfl)))
    [⟨.Variable, v⟩, ⟨.Equals, "="⟩, ⟨.Number, "-1"⟩, ⟨.Mul, "*"⟩] n hn
  have heq : (" = -" : String).data = [' ', '=', ' ', '-'] := rfl
  exact Lex.finish (by
    simpa [String.data_append, heq] using Lex.trans (Lex.trans h1 h2) ln)

/-- C33, as stated, fails for the binary operator `Equals`: the text
`x = 1 = 2` is parsed to `x 1 = 2 =`, whose last token is `Equals`, so `x` is
taken as the assignment target and the evaluator with variables returns 1
without error and stores 1 under `x`. -/
theorem assignment_without_parentheses_counterexample :
    isBinaryOp .Equals = true ∧
    tokenize "x = 1 = 2" =
      .ok [⟨.Variable, "x"⟩, ⟨.Equals, "="⟩, ⟨.Number, "1"⟩, ⟨.Equals, "="⟩,
        ⟨.Number, "2"⟩] ∧
    parse [⟨.Variable, "x"⟩, ⟨.Equals, "="⟩, ⟨.Number, "1"⟩, ⟨.Equals, "="⟩, ⟨.Number, "2"⟩]
        SyntaxError.none =
      ([⟨.Variable, "x"⟩, ⟨.Number, "1"⟩, ⟨.Equals, "="⟩, ⟨.Number, "2"⟩, ⟨.Equals, "="⟩],
        SyntaxError.none) ∧
    evalVars exactArith "x = 1 = 2" SyntaxError.none (noVars exactArith) =
      .ok ⟨exactInt 1, SyntaxError.none, (noVars exactArith).assign "x" (exactInt 1)⟩ :=
  ⟨rfl, by decide, by decide, rfl⟩

/-- C33, amended. Assignment needs a parenthesised or atomic right-hand side:
for a variable name `v`, unsigned numeric literals `a`, `b` and a binary
operator `op` other than `Equals`, written with the character `c`, the text
`v = a c b` is parsed to the postfix sequence `v a = b op`, whose last token is
not `Equals`; no assignment target is recorded and the evaluator with variables
returns NaN with the table unchanged, with an `UnknownToken` error naming `v`
if `v` is unbound and with the `Evaluation` error `Redundant values` if `v` is
bound.  The same happens for `v = -n`, parsed to `v -1 = n *`. -/
theorem assignment_without_parentheses (A : Arith) (v a b : String) (c : Char) (op : Spec)
    (err : SyntaxError) (vars : VarTable A)
    (hv : isPlainName v = true) (ha : isUnsignedLiteral a = true)
    (hb : isUnsignedLiteral b = true) (hc : ops c = some op)
    (hop : isBinaryOp op = true) (hne : op ≠ .Equals) (herr : err.isError = false) :
    (∃ tokens, tokenize (v ++ " = " ++ a ++ " " ++ ⟨[c]⟩ ++ " " ++ b) = .ok tokens ∧
      parse tokens err =
        ([⟨.Variable, v⟩, ⟨.Number, a⟩, ⟨.Equals, "="⟩, ⟨.Number, b⟩, ⟨op, conv c⟩], err)) ∧
    (vars v = Option.none →
      evalVars A (v ++ " = " ++ a ++ " " ++ ⟨[c]⟩ ++ " " ++ b) err vars =
        .ok ⟨A.nan,
          SyntaxError.mk3 ("Unknown variable: [" ++ v ++ "]") ErrType.UnknownToken [v],
          vars⟩) ∧
    (∀ x : A.D, vars v = some x →
      evalVars A (v ++ " = " ++ a ++ " " ++ ⟨[c]⟩ ++ " " ++ b) err vars =
        .ok ⟨A.nan, redundantValues A [A.parse a, x], vars⟩) ∧
    (∃ tokens, tokenize (v ++ " = -" ++ b) = .ok tokens ∧
      parse tokens err =
        ([⟨.Variable, v⟩, ⟨.Number, "-1"⟩, ⟨.Equals, "="⟩, ⟨.Number, b⟩, ⟨.Mul, "*"⟩], err)) ∧
    (vars v = Option.none →
      evalVars A (v ++ " = -" ++ b) err vars =
        .ok ⟨A.nan,
          SyntaxError.mk3 ("Unknown variable: [" ++ v ++ "]") ErrType.UnknownToken [v],
          vars⟩) ∧
    (∀ x : A.D, vars v = some x →
      evalVars A (v ++ " = -" ++ b) err vars =
        .ok ⟨A.nan, redundantValues A [A.parse "-1", x], vars⟩) := by
  have t1 := tokenize_assignment_op v a b c op hv ha hb hc
  have t2 := tokenize_assignment_minus v b hv hb
  have p1 : parse [⟨.Variable, v⟩, ⟨.Equals, "="⟩, ⟨.Number, a⟩, ⟨op, conv c⟩, ⟨.Number, b⟩]
      err =
      ([⟨.Variable, v⟩, ⟨.Number, a⟩, ⟨.Equals, "="⟩, ⟨.Number, b⟩, ⟨op, conv c⟩], err) := by
    rcases binaryOp_cases op hop with h | h | h | h | h | h | h <;> subst h
    · rfl
    · rfl
    · rfl
    · rfl
    · rfl
    · rfl
    · exact absurd rfl hne
  have p2 : parse [⟨.Variable, v⟩, ⟨.Equals, "="⟩, ⟨.Number, "-1"⟩, ⟨.Mul, "*"⟩,
      ⟨.Number, b⟩] err =
      ([⟨.Variable, v⟩, ⟨.Number, "-1"⟩, ⟨.Equals, "="⟩, ⟨.Number, b⟩, ⟨.Mul, "*"⟩], err) := rfl
  have l1 : ∀ (w : String) (last : Token),
      evalLoopVars A "" [⟨.Variable, v⟩, ⟨.Number, w⟩, ⟨.Equals, "="⟩, ⟨.Number, b⟩, last] []
          err vars =
        (match vars v with
          | some x => .ok ⟨A.nan, redundantValues A [A.parse w, x], vars⟩
          | Option.none => .ok ⟨A.nan,
              SyntaxError.mk3 ("Unknown variable: [" ++ v ++ "]") ErrType.UnknownToken [v],
              vars⟩) := fun _ _ => rfl
  have q1 : evalVars A (v ++ " = " ++ a ++ " " ++ ⟨[c]⟩ ++ " " ++ b) err vars =
      evalLoopVars A "" [⟨.Variable, v⟩, ⟨.Number, a⟩, ⟨.Equals, "="⟩, ⟨.Number, b⟩,
        ⟨op, conv c⟩] [] err vars := by
    unfold evalVars
    rw [t1]
    simp only [p1, evalQueueVars, herr]
    simp [hne]
  have q2 : evalVars A (v ++ " = -" ++ b) err vars =
      evalLoopVars A "" [⟨.Variable, v⟩, ⟨.Number, "-1"⟩, ⟨.Equals, "="⟩, ⟨.Number, b⟩,
        ⟨.Mul, "*"⟩] [] err vars := by
    unfold evalVars
    rw [t2]
    simp only [p2, evalQueueVars, herr]
    simp
  refine ⟨⟨_, t1, p1⟩, fun h => ?_, fun x h => ?_, ⟨_, t2, p2⟩, fun h => ?_, fun x h => ?_⟩
  · rw [q1, l1, h]
  · rw [q1, l1, h]
  · rw [q2, l1, h]
  · rw [q2, l1, h]

/-- The text `x = 1 + 2` with `x` unbound and with `x` bound to 7. -/
theorem assignment_without_parentheses_witness :
    evalVars exactArith "x = 1 + 2" SyntaxError.none (noVars exactArith) =
      .ok ⟨exactArith.nan,
        SyntaxError.mk3 "Unknown variable: [x]" ErrType.UnknownToken ["x"],
        noVars exactArith⟩ ∧
    evalVars exactArith "x = 1 + 2" SyntaxError.none
        ((noVars exactArith).assign "x" (exactInt 7)) =
      .ok ⟨exactArith.nan, redundantValues exactArith [exactInt 1, exactInt 7],
        (noVars exactArith).assign "x" (exactInt 7)⟩ :=
  ⟨(assignment_without_parentheses exactArith "x" "1" "2" '+' .Add SyntaxError.none
      (noVars exactArith) (by decide) (by decide) (by decide) rfl (by decide) (by decide)
      (by decide)).2.1 rfl,
    (assignment_without_parentheses exactArith "x" "1" "2" '+' .Add SyntaxError.none
      ((noVars exactArith).assign "x" (exactInt 7)) (by decide) (by decide) (by decide) rfl
      (by decide) (by decide) (by decide)).2.2.1 (exactInt 7) rfl⟩

/-! ## Every token of the queue is handled -/

/-- On evaluable tokens the loop of the evaluator with variables never stays on
a token without handling it. -/
theorem evalLoopVars_progress (A : Arith) (target : String) (err : SyntaxError)
    (vars : VarTable A) :
    ∀ (queue : TokenQueue) (evalStack : List A.D),
      (∀ t ∈ queue, isEvaluable t.spec = true) →
      evalLoopVars A target queue evalStack err vars ≠ .noProgress
  | [], evalStack, _ => by
    unfold evalLoopVars
    by_cases hl : evalStack.length > 1
    · rw [if_pos hl]
      simp
    · rw [if_neg hl]
      cases evalStack <;> simp
  | token :: rest, evalStack, hq => by
    have ih := fun (st : List A.D) =>
      evalLoopVars_progress A target err vars rest st
        (fun t ht => hq t (List.mem_cons_of_mem _ ht))
    have hk := hq token (List.mem_cons_self _ _)
    unfold evalLoopVars
    dsimp only
    by_cases c0 : token.spec = .Equals
    · rw [if_pos c0]
      by_cases hl : evalStack.length > 1
      · rw [if_pos hl]
        simp
      · rw [if_neg hl]
        by_cases ht : target = ""
        · rw [if_pos ht]
          simp
        · rw [if_neg ht]
          cases evalStack <;> simp
    rw [if_neg c0]
    by_cases c1 : isBinaryFn token.spec = true ∨ isBinaryOp token.spec = true
    · rw [if_pos c1]
      cases evalStack with
      | nil => simp
      | cons b st =>
        cases st with
        | nil => simp
        | cons a st => exact ih _
    rw [if_neg c1]
    by_cases c2 : isUnaryFn token.spec = true ∨ isUnaryOp token.spec = true
    · rw [if_pos c2]
      cases evalStack with
      | nil => simp
      | cons a st => exact ih _
    rw [if_neg c2]
    by_cases c3 : isConstant token.spec = true
    · rw [if_pos c3]
      exact ih _
    rw [if_neg c3]
    by_cases c4 : isGenerator token.spec = true
    · rw [if_pos c4]
      exact ih _
    rw [if_neg c4]
    by_cases c5 : token.spec = .Number
    · rw [if_pos c5]
      exact ih _
    rw [if_neg c5]
    by_cases c6 : token.spec = .Variable
    · rw [if_pos c6]
      cases vars token.value with
      | none => simp
      | some x => exact ih _
    · exfalso
      simp only [isEvaluable, Bool.or_eq_true, decide_eq_true_eq] at hk
      tauto

/-- On evaluable tokens, with a token to read or a value on the stack, the loop
of the silent evaluator returns. -/
theorem evalLoopSilent_returns (A : Arith) :
    ∀ (queue : TokenQueue) (evalStack : List A.D),
      (∀ t ∈ queue, isEvaluable t.spec = true) → (queue ≠ [] ∨ evalStack ≠ []) →
      ∃ r, evalLoopSilent A queue evalStack = .ok r
  | [], evalStack, _, hne => by
    unfold evalLoopSilent
    by_cases hl : evalStack.length > 1
    · rw [if_pos hl]
      exact ⟨_, rfl⟩
    · rw [if_neg hl]
      cases evalStack with
      | nil => simp at hne
      | cons x xs => exact ⟨_, rfl⟩
  | token :: rest, evalStack, hq, _ => by
    have ih := fun (st : List A.D) (hst : st ≠ []) =>
      evalLoopSilent_returns A rest st (fun t ht => hq t (List.mem_cons_of_mem _ ht))
        (Or.inr hst)
    have hk := hq token (List.mem_cons_self _ _)
    unfold evalLoopSilent
    dsimp only
    by_cases c0 : token.spec = .Equals
    · rw [if_pos c0]
      exact ⟨_, rfl⟩
    rw [if_neg c0]
    by_cases c1 : isBinaryFn token.spec = true ∨ isBinaryOp token.spec = true
    · rw [if_pos c1]
      cases evalStack with
      | nil => exact ⟨_, rfl⟩
      | cons b st =>
        cases st with
        | nil => exact ⟨_, rfl⟩
        | cons a st => exact ih _ (List.cons_ne_nil _ _)
    rw [if_neg c1]
    by_cases c2 : isUnaryFn token.spec = true ∨ isUnaryOp token.spec = true
    · rw [if_pos c2]
      cases evalStack with
      | nil => exact ⟨_, rfl⟩
      | cons a st => exact ih _ (List.cons_ne_nil _ _)
    rw [if_neg c2]
    by_cases c3 : isConstant token.spec = true
    · rw [if_pos c3]
      exact ih _ (List.cons_ne_nil _ _)
    rw [if_neg c3]
    by_cases c4 : isGenerator token.spec = true
    · rw [if_pos c4]
      exact ih _ (List.cons_ne_nil _ _)
    rw [if_neg c4]
    by_cases c5 : token.spec = .Number
    · rw [if_pos c5]
      exact ih _ (List.cons_ne_nil _ _)
    rw [if_neg c5]
    by_cases c6 : token.spec = .Variable
    · rw [if_pos c6]
      exact ⟨_, rfl⟩
    · exfalso
      simp only [isEvaluable, Bool.or_eq_true, decide_eq_true_eq] at hk
      tauto

theorem pushToLast_progress (ts : TokenContainer) (c : Char) :
    pushToLast ts c ≠ .noProgress := by
  unfold pushToLast
  cases ts.getLast? <;> simp

/-- The lexer handles every character: an iteration of its loop ends in a new
state or at a read of the last token of an empty vector. -/
theorem step_progress (capacity : Nat) (st : State) (ts : TokenContainer) (c : Char) :
    step capacity st ts c ≠ .noProgress := by
  have hp := pushToLast_progress ts c
  cases st <;> unfold step <;> dsimp only
  all_goals repeat' split
  all_goals first
    | exact absurd (by assumption) hp
    | simp

theorem run_progress (capacity : Nat) :
    ∀ (cs : List Char) (st : State) (ts : TokenContainer),
      run capacity st ts cs ≠ .noProgress
  | [], _, _ => by simp [run]
  | c :: cs, st, ts => by
    unfold run
    have hs := step_progress capacity st ts c
    cases h : step capacity st ts c with
    | ok p => exact run_progress capacity cs p.1 p.2
    | emptyBack => simp
    | noProgress => exact absurd h hs

/-- C35. Evaluation terminates: `tokenize` handles every character, every token
that a `parse` without error places in the postfix queue has a branch in the
evaluation loops, and a branch either returns or goes on with the rest of the
queue; so on every input (and every table) none of the three evaluators stays
in its loop, and whenever `tokenize` returns its tokens the evaluator without
variables and the silent evaluator return a result.  (A read of the last
element of an empty container ends a run of the embedding as well.) -/
theorem evaluation_terminates (A : Arith) (input : String) (err : SyntaxError)
    (vars : VarTable A) :
    tokenize input ≠ .noProgress ∧
    (∀ (tokens : TokenContainer) (q : TokenQueue) (e : SyntaxError),
      parse tokens err = (q, e) → e.isError = false → ∀ t ∈ q, isEvaluable t.spec = true) ∧
    evalVars A input err vars ≠ .noProgress ∧
    evalPlain A input err ≠ .noProgress ∧
    evalSilent A input ≠ .noProgress ∧
    (∀ tokens : TokenContainer, tokenize input = .ok tokens →
      (∃ r, evalPlain A input err = .ok r) ∧ (∃ r, evalSilent A input = .ok r)) := by
  have hlex : tokenize input ≠ .noProgress := by
    unfold tokenize
    have hr := run_progress input.data.length input.data .BeginState []
    cases h : run input.data.length .BeginState [] input.data with
    | ok p => simp
    | emptyBack => simp
    | noProgress => exact absurd h hr
  have hplain : ∀ tokens : TokenContainer, tokenize input = .ok tokens →
      ∃ r, evalPlain A input err = .ok r := by
    intro tokens ht
    obtain ⟨q, e, hp⟩ : ∃ q e, parse tokens err = (q, e) := ⟨_, _, rfl⟩
    unfold evalPlain
    rw [ht]
    simp only [hp]
    by_cases he : e.isError = true
    · rw [if_pos he]
      exact ⟨_, rfl⟩
    · rw [if_neg he]
      have hk := parse_evaluable tokens err q e hp (by simpa using he)
      cases q with
      | nil => exact ⟨_, rfl⟩
      | cons front rest =>
        exact evalLoopPlain_returns A e (front :: rest) [] hk (Or.inl (List.cons_ne_nil _ _))
  have hsilent : ∀ tokens : TokenContainer, tokenize input = .ok tokens →
      ∃ r, evalSilent A input = .ok r := by
    intro tokens ht
    obtain ⟨q, e, hp⟩ : ∃ q e, parse tokens SyntaxError.none = (q, e) := ⟨_, _, rfl⟩
    unfold evalSilent
    rw [ht]
    simp only [hp]
    by_cases he : e.isError = true
    · rw [if_pos he]
      exact ⟨_, rfl⟩
    · rw [if_neg he]
      have hk := parse_evaluable tokens SyntaxError.none q e hp (by simpa using he)
      cases q with
      | nil => exact ⟨_, rfl⟩
      | cons front rest =>
        exact evalLoopSilent_returns A (front :: rest) [] hk (Or.inl (List.cons_ne_nil _ _))
  have hvars : evalVars A input err vars ≠ .noProgress := by
    unfold evalVars
    cases ht : tokenize input with
    | emptyBack => simp
    | noProgress => exact absurd ht hlex
    | ok tokens =>
      obtain ⟨q, e, hp⟩ : ∃ q e, parse tokens err = (q, e) := ⟨_, _, rfl⟩
      simp only [hp]
      unfold evalQueueVars
      by_cases he : e.isError = true
      · rw [if_pos he]
        simp
      · rw [if_neg he]
        have hk := parse_evaluable tokens err q e hp (by simpa using he)
        cases q with
        | nil => simp
        | cons front rest =>
          dsimp only
          split
          · exact evalLoopVars_progress A front.value e vars rest []
              (fun t ht => hk t (List.mem_cons_of_mem _ ht))
          · exact evalLoopVars_progress A "" e vars (front :: rest) [] hk
  refine ⟨hlex, fun tokens q e hp he => parse_evaluable tokens err q e hp he, hvars, ?_, ?_,
    fun tokens ht => ⟨hplain tokens ht, hsilent tokens ht⟩⟩
  · cases ht : tokenize input with
    | emptyBack =>
      unfold evalPlain
      rw [ht]
      simp
    | noProgress => exact absurd ht hlex
    | ok tokens =>
      obtain ⟨r, hr⟩ := hplain tokens ht
      rw [hr]
      simp
  · cases ht : tokenize input with
    | emptyBack =>
      unfold evalSilent
      rw [ht]
      simp
    | noProgress => exact absurd ht hlex
    | ok tokens =>
      obtain ⟨r, hr⟩ := hsilent tokens ht
      rw [hr]
      simp

/-- The evaluators return on `2*(3+4)`. -/
theorem evaluation_terminates_witness :
    (∃ r, evalPlain exactArith "2*(3+4)" SyntaxError.none = .ok r) ∧
    (∃ r, evalSilent exactArith "2*(3+4)" = .ok r) :=
  (evaluation_terminates exactArith "2*(3+4)" SyntaxError.none (noVars exactArith)).2.2.2.2.2
    [⟨.Number, "2"⟩, ⟨.Mul, "*"⟩, ⟨.LeftPars, "("⟩, ⟨.Number, "3"⟩, ⟨.Add, "+"⟩,
      ⟨.Number, "4"⟩, ⟨.RightPars, ")"⟩] (by decide)

/-! ## The evaluator with variables on input without variables -/

/-- On a queue without `Equals` and without `Variable` tokens the loop of the
evaluator with variables ends as the loop of the evaluator without variables,
and leaves the table as it came. -/
theorem evalLoopVars_plain (A : Arith) (target : String) (err : SyntaxError)
    (vars : VarTable A) :
    ∀ (queue : TokenQueue) (evalStack : List A.D),
      (∀ t ∈ queue, t.spec ≠ .Equals ∧ t.spec ≠ .Variable) →
      evalLoopVars A target queue evalStack err vars =
        match evalLoopPlain A queue evalStack err with
        | .ok (v, e) => .ok ⟨v, e, vars⟩
        | .emptyBack => .emptyBack
        | .noProgress => .noProgress
  | [], evalStack, _ => by
    unfold evalLoopVars evalLoopPlain
    by_cases hl : evalStack.length > 1
    · rw [if_pos hl, if_pos hl]
    · rw [if_neg hl, if_neg hl]
      cases evalStack <;> rfl
  | token :: rest, evalStack, hq => by
    obtain ⟨hne, hnv⟩ := hq token (List.mem_cons_self _ _)
    have ih := fun (st : List A.D) =>
      evalLoopVars_plain A target err vars rest st
        (fun t ht => hq t (List.mem_cons_of_mem _ ht))
    unfold evalLoopVars evalLoopPlain
    dsimp only
    rw [if_neg hne]
    by_cases c1 : isBinaryFn token.spec = true ∨ isBinaryOp token.spec = true
    · rw [if_pos c1, if_pos c1]
      cases evalStack with
      | nil => rfl
      | cons b st =>
        cases st with
        | nil => rfl
        | cons a st => exact ih _
    rw [if_neg c1, if_neg c1]
    by_cases c2 : isUnaryFn token.spec = true ∨ isUnaryOp token.spec = true
    · rw [if_pos c2, if_pos c2]
      cases evalStack with
      | nil => rfl
      | cons a st => exact ih _
    rw [if_neg c2, if_neg c2]
    by_cases c3 : isConstant token.spec = true
    · rw [if_pos c3, if_pos c3]
      exact ih _
    rw [if_neg c3, if_neg c3]
    by_cases c4 : isGenerator token.spec = true
    · rw [if_pos c4, if_pos c4]
      exact ih _
    rw [if_neg c4, if_neg c4]
    by_cases c5 : token.spec = .Number
    · rw [if_pos c5, if_pos c5]
      exact ih _
    rw [if_neg c5, if_neg c5, if_neg hnv, if_neg hnv]

/-- C37. The evaluator with variables and the evaluator without variables agree
on input without variables: for every input whose tokens hold no `Variable`, no
`Equals` and no generator token, and every table, the evaluator without
variables returns a value `v` and an error state `e`, and the evaluator with
variables returns the same `v` and the same `e` (kind, message and params) and
leaves the table unchanged.  (The embedding gives both evaluators the same
draws, so the proof does not use the hypothesis on generators.) -/
theorem vars_agrees_with_plain (A : Arith) (input : String) (err : SyntaxError)
    (vars : VarTable A) (tokens : TokenContainer) (ht : tokenize input = .ok tokens)
    (hvar : ∀ t ∈ tokens, t.spec ≠ .Variable) (heq : ∀ t ∈ tokens, t.spec ≠ .Equals)
    (hgen : ∀ t ∈ tokens, isGenerator t.spec = false) :
    ∃ v e, evalPlain A input err = .ok (v, e) ∧
      evalVars A input err vars = .ok ⟨v, e, vars⟩ := by
  have _ := hgen
  obtain ⟨q', e, hp⟩ : ∃ q e, parse tokens err = (q, e) := ⟨_, _, rfl⟩
  unfold evalPlain evalVars
  rw [ht]
  simp only [hp]
  unfold evalQueueVars
  by_cases he : e.isError = true
  · rw [if_pos he, if_pos he]
    exact ⟨_, _, rfl, rfl⟩
  · rw [if_neg he, if_neg he]
    have hk := parse_evaluable tokens err q' e hp (by simpa using he)
    have hsub : ∀ t ∈ q', t ∈ tokens := by
      obtain ⟨q2, hm2, hr2⟩ := parse_result tokens
      rcases hr2 with h | ⟨e2, _, h⟩
      · have := h err
        rw [hp] at this
        simp only [Prod.mk.injEq] at this
        rw [this.1]
        exact hm2
      · have := h err
        rw [hp] at this
        simp only [Prod.mk.injEq] at this
        rw [this.1]
        exact hm2
    cases q' with
    | nil => exact ⟨_, _, rfl, rfl⟩
    | cons front rest =>
      dsimp only
      have hfront : ¬ (front.spec = .Variable ∧
          (front :: rest).getLast?.map Token.spec = some .Equals) :=
        fun h => hvar front (hsub front (List.mem_cons_self _ _)) h.1
      rw [if_neg hfront]
      obtain ⟨⟨v, e'⟩, hv⟩ := evalLoopPlain_returns A e (front :: rest) [] hk
        (Or.inl (List.cons_ne_nil _ _))
      refine ⟨v, e', hv, ?_⟩
      rw [evalLoopVars_plain A "" e vars (front :: rest) []
        (fun t ht => ⟨heq t (hsub t ht), hvar t (hsub t ht)⟩), hv]

/-- Agreement on `2*3+4`: both evaluators return 10 without error. -/
theorem vars_agrees_with_plain_witness :
    ∃ v e, evalPlain exactArith "2*3+4" SyntaxError.none = .ok (v, e) ∧
      evalVars exactArith "2*3+4" SyntaxError.none (noVars exactArith) =
        .ok ⟨v, e, noVars exactArith⟩ :=
  vars_agrees_with_plain exactArith "2*3+4" SyntaxError.none (noVars exactArith)
    [⟨.Number, "2"⟩, ⟨.Mul, "*"⟩, ⟨.Number, "3"⟩, ⟨.Add, "+"⟩, ⟨.Number, "4"⟩]
    (by decide) (by decide) (by decide) (by decide)

/-! ## The postfix queue as a reordering of the tokens -/

theorem stackable_kinds (s : Spec) (h : isStackable s = true) :
    isOperand s = false ∧ (s ≠ .LeftPars → isPunctuation s = false) ∧
      s ≠ .LeftArrPars := by
  cases s <;> first | (exact absurd h (by decide)) | decide

theorem operand_kinds (s : Spec)
    (h : s = .Number ∨ s = .Variable ∨ isConstant s = true ∨ isGenerator s = true) :
    isOperand s = true ∧ isPunctuation s = false := by
  cases s <;> first | (exact absurd h (by decide)) | decide

theorem unaryOp_kinds (s : Spec) (h : isUnaryOp s = true) :
    isOperand s = false ∧ isPunctuation s = false := by
  cases s <;> first | (exact absurd h (by decide)) | decide

theorem function_kinds (s : Spec) (h : isFunction s = true) :
    isOperand s = false ∧ isPunctuation s = false ∧ isStackable s = true := by
  cases s <;> first | (exact absurd h (by decide)) | decide

theorem binaryOp_kinds (s : Spec) (h : isBinaryOp s = true) :
    isOperand s = false ∧ isPunctuation s = false ∧ isStackable s = true := by
  cases s <;> first | (exact absurd h (by decide)) | decide

/-- A token for which the main loop of `parse` has no branch is `Unknown` or
`LeftArrPars`. -/
theorem skipped_kinds (s : Spec)
    (c1 : ¬ (s = .Number ∨ s = .Variable ∨ isConstant s = true ∨ isGenerator s = true))
    (c2 : ¬ isUnaryOp s = true) (c3 : ¬ (isFunction s = true ∨ s = .LeftPars))
    (c4 : ¬ isBinaryOp s = true) (c5 : ¬ s = .Comma) (c6 : ¬ s = .RightPars)
    (c7 : ¬ s = .RightArrPars) (hu : s ≠ .Unknown) :
    s = .LeftArrPars := by
  cases s <;> first
    | rfl
    | (exact absurd rfl hu)
    | (exact absurd rfl c5)
    | (exact absurd rfl c6)
    | (exact absurd rfl c7)
    | (exact absurd (by decide) c1)
    | (exact absurd (by decide) c2)
    | (exact absurd (by decide) c3)
    | (exact absurd (by decide) c4)

/-- Tokens of the stack other than `LeftPars` are kept by the filter of the
non-punctuation tokens, and none of the stack is an operand. -/
theorem filter_stack (l : List Token) (hs : ∀ t ∈ l, isStackable t.spec = true) :
    l.filter (fun t => isOperand t.spec) = [] ∧
      ((∀ t ∈ l, t.spec ≠ .LeftPars) → l.filter (fun t => !isPunctuation t.spec) = l) := by
  constructor
  · rw [List.filter_eq_nil_iff]
    intro t ht
    simp [(stackable_kinds t.spec (hs t ht)).1]
  · intro hl
    rw [List.filter_eq_self]
    intro t ht
    simp [(stackable_kinds t.spec (hs t ht)).2.1 (hl t ht)]

/-- The binary-operator loop pops tokens of precedence at least `prec`. -/
theorem popWhilePrec_popped (prec : Nat) :
    ∀ (operators : TokenStack) (output : TokenQueue),
      ∃ popped, (popWhilePrec prec operators output).2 = output ++ popped ∧
        operators = popped ++ (popWhilePrec prec operators output).1 ∧
        ∀ t ∈ popped, getPrecedence t.spec ≥ prec
  | [], output => ⟨[], by simp [popWhilePrec]⟩
  | top :: operators, output => by
    unfold popWhilePrec
    by_cases h : getPrecedence top.spec ≥ prec
    · rw [if_pos h]
      obtain ⟨popped, h1, h2, h3⟩ := popWhilePrec_popped prec operators (output ++ [top])
      refine ⟨top :: popped, ?_, ?_, ?_⟩
      · rw [h1]
        simp
      · rw [List.cons_append, ← h2]
      · intro t ht
        rcases List.mem_cons.mp ht with rfl | ht
        · exact h
        · exact h3 t ht
    · rw [if_neg h]
      exact ⟨[], by simp⟩

/-- One iteration of the main loop of `parse` on a token other than `Unknown`,
with a stack of functions, binary operators and `LeftPars`: it reports an
error, or it goes on with an output and a stack that hold, apart from
punctuation, the tokens held before and the token read, the operands of the
output in the order they came. -/
theorem parseLoop_step_perm (token : Token) (rest : List Token) (index : Nat)
    (output : TokenQueue) (operators : TokenStack)
    (hu : token.spec ≠ .Unknown) (hs : ∀ t ∈ operators, isStackable t.spec = true) :
    (∃ out' ops', (∀ t ∈ ops', isStackable t.spec = true) ∧
      (out' ++ ops'.filter (fun t => !isPunctuation t.spec)).Perm
        (output ++ operators.filter (fun t => !isPunctuation t.spec) ++
          [token].filter (fun t => !isPunctuation t.spec)) ∧
      out'.filter (fun t => isOperand t.spec) =
        output.filter (fun t => isOperand t.spec) ++
          [token].filter (fun t => isOperand t.spec) ∧
      ∀ err, parseLoop (token :: rest) index output operators err =
        parseLoop rest (index + 1) out' ops' err) ∨
    (∃ q e, e.isError = true ∧
      ∀ err, parseLoop (token :: rest) index output operators err = (q, e)) := by
  have count_perm : ∀ l1 l2 : List Token, (∀ a, l1.count a = l2.count a) → l1.Perm l2 :=
    fun l1 l2 h => List.perm_iff_count.mpr h
  by_cases c1 : token.spec = .Number ∨ token.spec = .Variable ∨
      isConstant token.spec = true ∨ isGenerator token.spec = true
  · obtain ⟨ho, hp⟩ := operand_kinds token.spec c1
    refine Or.inl ⟨output ++ [token], operators, hs, ?_, ?_,
      fun err => by rw [parseLoop, if_pos c1]⟩
    · simp only [List.filter_cons, List.filter_nil, hp, Bool.not_false, if_true]
      apply count_perm
      intro a
      simp only [List.count_append, List.count_cons, List.count_nil]
      omega
    · simp [List.filter_append, ho]
  by_cases c2 : isUnaryOp token.spec = true
  · obtain ⟨ho, hp⟩ := unaryOp_kinds token.spec c2
    refine Or.inl ⟨output ++ [token], operators, hs, ?_, ?_,
      fun err => by rw [parseLoop, if_neg c1, if_pos c2]⟩
    · simp only [List.filter_cons, List.filter_nil, hp, Bool.not_false, if_true]
      apply count_perm
      intro a
      simp only [List.count_append, List.count_cons, List.count_nil]
      omega
    · simp [List.filter_append, ho]
  by_cases c3 : isFunction token.spec = true ∨ token.spec = .LeftPars
  · have hst : ∀ t ∈ token :: operators, isStackable t.spec = true := by
      intro t ht
      rcases List.mem_cons.mp ht with rfl | ht
      · rcases c3 with h | h
        · exact (function_kinds _ h).2.2
        · rw [h]
          rfl
      · exact hs t ht
    have ho : isOperand token.spec = false := (stackable_kinds _ (hst token (by simp))).1
    refine Or.inl ⟨output, token :: operators, hst, ?_, by simp [ho],
      fun err => by rw [parseLoop, if_neg c1, if_neg c2, if_pos c3]⟩
    rcases c3 with h | h
    · have hp := (function_kinds _ h).2.1
      simp only [List.filter_cons, List.filter_nil, hp, Bool.not_false, if_true]
      apply count_perm
      intro a
      simp only [List.count_append, List.count_cons, List.count_nil]
      omega
    · have hp : isPunctuation token.spec = true := by
        rw [h]
        rfl
      simp [List.filter_cons, hp]
  by_cases c4 : isBinaryOp token.spec = true
  · obtain ⟨ho, hp, hst⟩ := binaryOp_kinds token.spec c4
    obtain ⟨popped, h1, h2, h3⟩ :=
      popWhilePrec_popped (getPrecedence token.spec) operators output
    rcases hpw : popWhilePrec (getPrecedence token.spec) operators output with ⟨ops', out'⟩
    rw [hpw] at h1 h2
    dsimp only at h1 h2
    have hprec := (binaryOp_spec token.spec c4).2.2.2
    have hpop : ∀ t ∈ popped, isStackable t.spec = true :=
      fun t ht => hs t (h2 ▸ List.mem_append_left _ ht)
    have hpl : ∀ t ∈ popped, t.spec ≠ .LeftPars := by
      intro t ht hl
      have hge := h3 t ht
      have h0 : getPrecedence Spec.LeftPars = 0 := rfl
      rw [hl, h0] at hge
      omega
    have hops : ∀ t ∈ ops', isStackable t.spec = true :=
      fun t ht => hs t (h2 ▸ List.mem_append_right _ ht)
    obtain ⟨f1, f2⟩ := filter_stack popped hpop
    refine Or.inl ⟨out', token :: ops', ?_, ?_, ?_,
      fun err => by rw [parseLoop, if_neg c1, if_neg c2, if_neg c3, if_pos c4, hpw]⟩
    · intro t ht
      rcases List.mem_cons.mp ht with rfl | ht
      · exact hst
      · exact hops t ht
    · rw [h1, h2, List.filter_append, f2 hpl]
      simp only [List.filter_cons, List.filter_nil, hp, Bool.not_false, if_true]
      apply count_perm
      intro a
      simp only [List.count_append, List.count_cons, List.count_nil]
      omega
    · rw [h1, List.filter_append, f1]
      simp [ho]
  have closing : ∀ (popped : List Token) (top : Token) (r : TokenStack),
      operators = popped ++ top :: r → (∀ t ∈ popped, t.spec ≠ .LeftPars) →
      top.spec = .LeftPars → isPunctuation token.spec = true → isOperand token.spec = false →
      (∀ t ∈ top :: r, isStackable t.spec = true) ∧
      (output ++ popped ++ (top :: r).filter (fun t => !isPunctuation t.spec)).Perm
        (output ++ operators.filter (fun t => !isPunctuation t.spec) ++
          [token].filter (fun t => !isPunctuation t.spec)) ∧
      (output ++ popped).filter (fun t => isOperand t.spec) =
        output.filter (fun t => isOperand t.spec) ++
          [token].filter (fun t => isOperand t.spec) := by
    intro popped top r h6 hpl _ hp ho
    have hpop : ∀ t ∈ popped, isStackable t.spec = true :=
      fun t ht => hs t (h6 ▸ List.mem_append_left _ ht)
    obtain ⟨f1, f2⟩ := filter_stack popped hpop
    refine ⟨fun t ht => hs t (h6 ▸ List.mem_append_right _ ht), ?_, ?_⟩
    · rw [h6, List.filter_append, f2 hpl]
      simp [List.filter_cons, hp]
    · rw [List.filter_append, f1]
      simp [ho]
  by_cases c5 : token.spec = .Comma
  · have hp : isPunctuation token.spec = true := by
      rw [c5]
      rfl
    have ho : isOperand token.spec = false := by
      rw [c5]
      rfl
    obtain ⟨popped, h1, hpl, h3⟩ := popUntil_split .LeftPars operators output
    rcases hpu : popUntil .LeftPars operators output with ⟨res, out'⟩
    rw [hpu] at h1 h3
    dsimp only at h1 h3
    rcases h3 with ⟨h4, _⟩ | ⟨top, r, h4, h5, h6⟩
    · subst h4
      exact Or.inr ⟨out', mismatchedSeparators index, rfl, fun err => by
        rw [parseLoop, if_neg c1, if_neg c2, if_neg c3, if_neg c4, if_pos c5, hpu]⟩
    · subst h4
      obtain ⟨k1, k2, k3⟩ := closing popped top r h6 hpl h5 hp ho
      rw [← h1] at k2 k3
      exact Or.inl ⟨out', top :: r, k1, k2, k3, fun err => by
        rw [parseLoop, if_neg c1, if_neg c2, if_neg c3, if_neg c4, if_pos c5, hpu]⟩
  by_cases c6 : token.spec = .RightPars
  · have hp : isPunctuation token.spec = true := by
      rw [c6]
      rfl
    have ho : isOperand token.spec = false := by
      rw [c6]
      rfl
    have hdef : ∀ err, parseLoop (token :: rest) index output operators err =
        match popUntil .LeftPars operators output with
        | (Option.none, output') => (output', mismatchedParenthesis index)
        | (some operators', output') =>
          match closeBracket operators' output' with
          | (operators'', output'') =>
            parseLoop rest (index + 1) output'' operators'' err := fun err => by
      rw [parseLoop, if_neg c1, if_neg c2, if_neg c3, if_neg c4, if_neg c5, if_pos c6]
    obtain ⟨popped, h1, hpl, h3⟩ := popUntil_split .LeftPars operators output
    rcases hpu : popUntil .LeftPars operators output with ⟨res, out'⟩
    rw [hpu] at h1 h3
    dsimp only at h1 h3
    rcases h3 with ⟨h4, _⟩ | ⟨top, r, h4, h5, h6⟩
    · subst h4
      exact Or.inr ⟨out', mismatchedParenthesis index, rfl, fun err => by rw [hdef, hpu]⟩
    · subst h4
      obtain ⟨k1, k2, k3⟩ := closing popped top r h6 hpl h5 hp ho
      rw [← h1] at k2 k3
      have htop : isPunctuation top.spec = true := by
        rw [h5]
        rfl
      have k2' : (out' ++ r.filter (fun t => !isPunctuation t.spec)).Perm
          (output ++ operators.filter (fun t => !isPunctuation t.spec) ++
            [token].filter (fun t => !isPunctuation t.spec)) := by
        simpa [List.filter_cons, htop] using k2
      have hr : ∀ t ∈ r, isStackable t.spec = true :=
        fun t ht => k1 t (List.mem_cons_of_mem _ ht)
      rcases closeBracket_cons top r out' with hcb | ⟨f, r', hf1, hf2, hcb⟩
      · exact Or.inl ⟨out', r, hr, k2', k3, fun err => by
          rw [hdef, hpu]
          simp only [hcb]⟩
      · obtain ⟨fo, fp, _⟩ := function_kinds f.spec hf2
        refine Or.inl ⟨out' ++ [f], r', fun t ht => hr t (hf1 ▸ List.mem_cons_of_mem _ ht),
          ?_, ?_, fun err => by
            rw [hdef, hpu]
            simp only [hcb]⟩
        · rw [hf1, List.filter_cons_of_pos (by simp [fp])] at k2'
          refine List.Perm.trans ?_ k2'
          apply count_perm
          intro a
          simp only [List.count_append, List.count_cons, List.count_nil]
          omega
        · rw [List.filter_append, k3]
          simp [fo]
  by_cases c7 : token.spec = .RightArrPars
  · obtain ⟨popped, h1, _, h3⟩ := popUntil_split .LeftArrPars operators output
    rcases hpu : popUntil .LeftArrPars operators output with ⟨res, out'⟩
    rw [hpu] at h1 h3
    dsimp only at h1 h3
    rcases h3 with ⟨h4, _⟩ | ⟨top, r, _, h5, h6⟩
    · subst h4
      exact Or.inr ⟨out', mismatchedParenthesis index, rfl, fun err => by
        rw [parseLoop, if_neg c1, if_neg c2, if_neg c3, if_neg c4, if_neg c5, if_neg c6,
          if_pos c7, hpu]⟩
    · exfalso
      have := hs top (h6 ▸ List.mem_append_right _ (List.mem_cons_self _ _))
      exact (stackable_kinds top.spec this).2.2 h5
  · have hk := skipped_kinds token.spec c1 c2 c3 c4 c5 c6 c7 hu
    have hp : isPunctuation token.spec = true := by
      rw [hk]
      rfl
    have ho : isOperand token.spec = false := by
      rw [hk]
      rfl
    refine Or.inl ⟨output, operators, hs, by simp [List.filter_cons, hp], by simp [ho],
      fun err => by
        rw [parseLoop, if_neg c1, if_neg c2, if_neg c3, if_neg c4, if_neg c5, if_neg c6,
          if_neg c7]⟩

/-- When the loops of `parse` end without error, on tokens other than `Unknown`
and from a stack of functions, binary operators and `LeftPars`, the output is a
reordering of the output so far and the non-punctuation tokens of the stack and
of the input, with the operands in the order of the input. -/
theorem parseLoop_perm :
    ∀ (tokens : List Token) (index : Nat) (output : TokenQueue) (operators : TokenStack)
      (err : SyntaxError),
      (∀ t ∈ tokens, t.spec ≠ .Unknown) → (∀ t ∈ operators, isStackable t.spec = true) →
      (parseLoop tokens index output operators err).2.isError = false →
      (parseLoop tokens index output operators err).1.Perm
          (output ++ operators.filter (fun t => !isPunctuation t.spec) ++
            tokens.filter (fun t => !isPunctuation t.spec)) ∧
        (parseLoop tokens index output operators err).1.filter (fun t => isOperand t.spec) =
          output.filter (fun t => isOperand t.spec) ++
            tokens.filter (fun t => isOperand t.spec)
  | [], index, output, operators, err, _, hs, h => by
    rcases parseFlush_split index operators output with ⟨q, hq⟩ | ⟨h1, h2⟩
    · rw [parseLoop, hq] at h
      exact absurd h (by simp [mismatchedParenthesis, SyntaxError.mk2, SyntaxError.isError])
    · obtain ⟨f1, f2⟩ := filter_stack operators hs
      rw [parseLoop, h2]
      simp only [List.filter_nil, List.append_nil, f2 h1, List.filter_append, f1]
      exact ⟨List.Perm.refl _, trivial⟩
  | token :: rest, index, output, operators, err, hu, hs, h => by
    rcases parseLoop_step_perm token rest index output operators
        (hu token (List.mem_cons_self _ _)) hs with
      ⟨out', ops', k1, k2, k3, k4⟩ | ⟨q, e, he, hq⟩
    · rw [k4] at h ⊢
      obtain ⟨i1, i2⟩ := parseLoop_perm rest (index + 1) out' ops' err
        (fun t ht => hu t (List.mem_cons_of_mem _ ht)) k1 h
      have e1 : (token :: rest).filter (fun t => !isPunctuation t.spec) =
          [token].filter (fun t => !isPunctuation t.spec) ++
            rest.filter (fun t => !isPunctuation t.spec) := by
        rw [← List.filter_append]
        rfl
      have e2 : (token :: rest).filter (fun t => isOperand t.spec) =
          [token].filter (fun t => isOperand t.spec) ++
            rest.filter (fun t => isOperand t.spec) := by
        rw [← List.filter_append]
        rfl
      constructor
      · refine i1.trans ?_
        rw [e1, ← List.append_assoc]
        exact List.Perm.append_right _ k2
      · rw [i2, k3, e2, List.append_assoc]
    · rw [hq] at h
      rw [he] at h
      exact absurd h (by simp)

/-- C36. Postfix output is a reordering of the non-punctuation tokens: when
`parse` reports no error, its output is a permutation of the input tokens with
the `LeftPars`, `RightPars`, `Comma`, `LeftArrPars` and `RightArrPars` tokens
removed, it holds no punctuation token, and the operand tokens (`Number`,
`Variable`, constants, generators) come in the output in the order they have in
the input. -/
theorem postfix_is_reordering (tokens : TokenContainer) (err : SyntaxError)
    (h : (parse tokens err).2.isError = false) :
    (parse tokens err).1.Perm (tokens.filter (fun t => !isPunctuation t.spec)) ∧
    (∀ t ∈ (parse tokens err).1, isPunctuation t.spec = false) ∧
    (parse tokens err).1.filter (fun t => isOperand t.spec) =
      tokens.filter (fun t => isOperand t.spec) := by
  have key : (parse tokens err).1.Perm (tokens.filter (fun t => !isPunctuation t.spec)) ∧
      (parse tokens err).1.filter (fun t => isOperand t.spec) =
        tokens.filter (fun t => isOperand t.spec) := by
    unfold parse at h ⊢
    cases hf : findUnknown tokens 0 with
    | some p =>
      rw [hf] at h
      exact absurd h (by simp [SyntaxError.mk3, SyntaxError.isError])
    | none =>
      rw [hf] at h
      have := parseLoop_perm tokens 0 [] [] err (findUnknown_none_mem tokens 0 hf)
        (by simp) h
      simpa using this
  refine ⟨key.1, fun t ht => ?_, key.2⟩
  have hm := (key.1.mem_iff).mp ht
  simpa using (List.mem_filter.mp hm).2

/-- The tokens of `2*(3+4)`: the postfix queue `2 3 4 + *`. -/
theorem postfix_is_reordering_witness :
    parse [⟨.Number, "2"⟩, ⟨.Mul, "*"⟩, ⟨.LeftPars, "("⟩, ⟨.Number, "3"⟩, ⟨.Add, "+"⟩,
        ⟨.Number, "4"⟩, ⟨.RightPars, ")"⟩] SyntaxError.none =
      ([⟨.Number, "2"⟩, ⟨.Number, "3"⟩, ⟨.Number, "4"⟩, ⟨.Add, "+"⟩, ⟨.Mul, "*"⟩],
        SyntaxError.none) ∧
    (parse [⟨.Number, "2"⟩, ⟨.Mul, "*"⟩, ⟨.LeftPars, "("⟩, ⟨.Number, "3"⟩, ⟨.Add, "+"⟩,
        ⟨.Number, "4"⟩, ⟨.RightPars, ")"⟩] SyntaxError.none).1.Perm
      [⟨.Number, "2"⟩, ⟨.Mul, "*"⟩, ⟨.Number, "3"⟩, ⟨.Add, "+"⟩, ⟨.Number, "4"⟩] :=
  ⟨by decide,
    (postfix_is_reordering [⟨.Number, "2"⟩, ⟨.Mul, "*"⟩, ⟨.LeftPars, "("⟩, ⟨.Number, "3"⟩,
      ⟨.Add, "+"⟩, ⟨.Number, "4"⟩, ⟨.RightPars, ")"⟩] SyntaxError.none (by decide)).1⟩

end korowa
